import Mathlib

/-!
# orange: HTTP range header codec

A shallow embedding of `orange.go` (`Range.String`, `Range.Next`, `parseRange`,
`parseProperty`, `parseOptions`) together with the Go standard library routines
the package calls (`url.QueryEscape`, `url.QueryUnescape`, `bufio.Reader.ReadString`,
`bufio.Scanner` with `bufio.ScanWords`, `strings.Split`, `strings.TrimSpace`,
`strings.TrimSuffix`, `strings.Join`, `strconv.Atoi`, `strconv.Itoa`).

A Go `string` is a sequence of bytes; it is modelled as a list of naturals,
each below 256 (`IsBytes`).  Go `int` is taken to be 64 bits wide.
-/

namespace Orange

/-! ## Strings -/

/-- A Go string: its bytes, in order. -/
abbrev GoString := List Nat

/-- Well-formedness of a Go string: every element is a byte. -/
def IsBytes (s : GoString) : Prop := ∀ b ∈ s, b < 256

instance (s : GoString) : Decidable (IsBytes s) := by
  unfold IsBytes; infer_instance

/-- The bytes of an ASCII literal. -/
def ascii (s : String) : GoString := s.data.map Char.toNat

/-! ## Errors -/

/-- The errors `ParseString` can return: the package's `InvalidFormat`, or the
`url.EscapeError` of `url.QueryUnescape` (carrying the offending text). -/
inductive Error where
  | InvalidFormat
  | EscapeError (s : GoString)
deriving DecidableEq, Repr

instance instDecidableEqExcept {ε α : Type} [DecidableEq ε] [DecidableEq α] :
    DecidableEq (Except ε α) := fun a b =>
  match a, b with
  | .ok x, .ok y =>
    if h : x = y then isTrue (by rw [h]) else isFalse (fun e => h (Except.ok.inj e))
  | .error x, .error y =>
    if h : x = y then isTrue (by rw [h]) else isFalse (fun e => h (Except.error.inj e))
  | .ok _, .error _ => isFalse (fun e => by cases e)
  | .error _, .ok _ => isFalse (fun e => by cases e)

/-! ## net/url: QueryEscape and QueryUnescape -/

/-- Function `shouldEscape(c, encodeQueryComponent)` of net/url: everything but
letters, digits and `-`, `_`, `.`, `~` is escaped. -/
def shouldEscape (c : Nat) : Bool :=
  if (97 ≤ c ∧ c ≤ 122) ∨ (65 ≤ c ∧ c ≤ 90) ∨ (48 ≤ c ∧ c ≤ 57) then false
  else if c = 45 ∨ c = 95 ∨ c = 46 ∨ c = 126 then false
  else true

/-- Indexing into the table `"0123456789ABCDEF"` of net/url. -/
def upperhex (n : Nat) : Nat := if n < 10 then 48 + n else 55 + n

/-- What `escape` writes for one byte: `+` for a space, `%XX` for a byte that
must be escaped, the byte itself otherwise. -/
def escapeByte (c : Nat) : GoString :=
  if c = 32 then [43]
  else if shouldEscape c then [37, upperhex (c >>> 4), upperhex (c &&& 15)]
  else [c]

/-- Function `url.QueryEscape`. -/
def QueryEscape : GoString → GoString
  | [] => []
  | c :: t => escapeByte c ++ QueryEscape t

/-- A byte `url.QueryEscape` can write: a letter, a digit, one of `-_.~`, or
`+` or `%`. -/
def escByte (c : Nat) : Bool := !shouldEscape c || decide (c = 43) || decide (c = 37)

/-- Function `ishex` of net/url. -/
def ishex (c : Nat) : Bool :=
  (48 ≤ c ∧ c ≤ 57) ∨ (97 ≤ c ∧ c ≤ 102) ∨ (65 ≤ c ∧ c ≤ 70)

/-- Function `unhex` of net/url. -/
def unhex (c : Nat) : Nat :=
  if 48 ≤ c ∧ c ≤ 57 then c - 48
  else if 97 ≤ c ∧ c ≤ 102 then c - 97 + 10
  else if 65 ≤ c ∧ c ≤ 70 then c - 65 + 10
  else 0

/-- Function `url.QueryUnescape`.  The library validates in a first pass and
builds the result in a second; both passes walk the string the same way, so the
first malformed `%` met here is the one the library reports (with at most three
bytes of text from it). -/
def QueryUnescape : GoString → Except Error GoString
  | [] => .ok []
  | c :: t =>
    if c = 37 then
      match t with
      | h1 :: h2 :: rest =>
        if ishex h1 && ishex h2 then
          match QueryUnescape rest with
          | .ok r => .ok ((((unhex h1 <<< 4) % 256) ||| unhex h2) :: r)
          | .error e => .error e
        else .error (.EscapeError ((c :: t).take 3))
      | _ => .error (.EscapeError ((c :: t).take 3))
    else
      match QueryUnescape t with
      | .ok r => .ok ((if c = 43 then 32 else c) :: r)
      | .error e => .error e

/-! ## unicode/utf8 and white space -/

/-- The rune `utf8.RuneError`. -/
def RuneError : Nat := 65533

/-- Table `first` of unicode/utf8, low bits: the width in bytes of the encoding
that the lead byte `p0` (194 to 244) announces. -/
def runeSize (p0 : Nat) : Nat := if p0 < 224 then 2 else if p0 < 240 then 3 else 4

/-- Table `acceptRanges` of unicode/utf8: least second byte after lead byte `p0`. -/
def acceptLo (p0 : Nat) : Nat := if p0 = 224 then 160 else if p0 = 240 then 144 else 128

/-- Table `acceptRanges` of unicode/utf8: greatest second byte after lead byte `p0`. -/
def acceptHi (p0 : Nat) : Nat := if p0 = 237 then 159 else if p0 = 244 then 143 else 191

/-- The rune of a two-byte encoding. -/
def rune2 (p0 b1 : Nat) : Nat := ((p0 &&& 31) <<< 6) ||| (b1 &&& 63)

/-- The rune of a three-byte encoding. -/
def rune3 (p0 b1 b2 : Nat) : Nat := ((p0 &&& 15) <<< 12) ||| ((b1 &&& 63) <<< 6) ||| (b2 &&& 63)

/-- The rune of a four-byte encoding. -/
def rune4 (p0 b1 b2 b3 : Nat) : Nat :=
  ((p0 &&& 7) <<< 18) ||| ((b1 &&& 63) <<< 12) ||| ((b2 &&& 63) <<< 6) ||| (b3 &&& 63)

/-- Function `utf8.DecodeRune`: the first rune of `p` and its width in bytes;
`(RuneError, 0)` on empty input, `(RuneError, 1)` on an invalid or truncated
encoding. -/
def DecodeRune (p : GoString) : Nat × Nat :=
  match p with
  | [] => (RuneError, 0)
  | p0 :: rest =>
    if p0 < 128 then (p0, 1)
    else if p0 < 194 ∨ 244 < p0 then (RuneError, 1)
    else if p.length < runeSize p0 then (RuneError, 1)
    else
      match rest with
      | [] => (RuneError, 1)
      | b1 :: rest1 =>
        if b1 < acceptLo p0 ∨ acceptHi p0 < b1 then (RuneError, 1)
        else if runeSize p0 ≤ 2 then (rune2 p0 b1, 2)
        else
          match rest1 with
          | [] => (RuneError, 1)
          | b2 :: rest2 =>
            if b2 < 128 ∨ 191 < b2 then (RuneError, 1)
            else if runeSize p0 ≤ 3 then (rune3 p0 b1 b2, 3)
            else
              match rest2 with
              | [] => (RuneError, 1)
              | b3 :: _ =>
                if b3 < 128 ∨ 191 < b3 then (RuneError, 1)
                else (rune4 p0 b1 b2 b3, 4)

/-- White space as `bufio.ScanWords` (its `isSpace`) and `unicode.IsSpace` see
it; the two functions accept the same runes. -/
def isSpace (r : Nat) : Bool :=
  if r ≤ 255 then
    r = 32 ∨ r = 9 ∨ r = 10 ∨ r = 11 ∨ r = 12 ∨ r = 13 ∨ r = 133 ∨ r = 160
  else if 8192 ≤ r ∧ r ≤ 8202 then true
  else r = 5760 ∨ r = 8232 ∨ r = 8233 ∨ r = 8239 ∨ r = 8287 ∨ r = 12288

/-- Skips the leading white-space runes of `s`: the first loop of
`bufio.ScanWords`, and `strings.TrimLeftFunc(s, unicode.IsSpace)`.  The first
argument bounds the number of runes looked at. -/
def skipSpaces : Nat → GoString → GoString
  | 0, s => s
  | fuel + 1, s =>
    match s with
    | [] => []
    | _ :: _ =>
      if isSpace (DecodeRune s).1 then skipSpaces fuel (s.drop (DecodeRune s).2) else s

/-- The second loop of `bufio.ScanWords`: byte offset (from `i`) and width of
the first white-space rune met when decoding `s` rune by rune. -/
def findSpace : Nat → GoString → Nat → Option (Nat × Nat)
  | 0, _, _ => none
  | fuel + 1, s, i =>
    match s with
    | [] => none
    | _ :: _ =>
      if isSpace (DecodeRune s).1 then some (i, (DecodeRune s).2)
      else findSpace fuel (s.drop (DecodeRune s).2) (i + (DecodeRune s).2)

/-- The UTF-8 encodings of the white-space runes: U+0020, U+0009 to U+000D,
U+0085, U+00A0, U+1680, U+2000 to U+200A, U+2028, U+2029, U+202F, U+205F and
U+3000. -/
def spaceRunes : List GoString :=
  [[32], [9], [10], [11], [12], [13], [194, 133], [194, 160], [225, 154, 128],
   [226, 128, 128], [226, 128, 129], [226, 128, 130], [226, 128, 131], [226, 128, 132],
   [226, 128, 133], [226, 128, 134], [226, 128, 135], [226, 128, 136], [226, 128, 137],
   [226, 128, 138], [226, 128, 168], [226, 128, 169], [226, 128, 175], [226, 129, 159],
   [227, 128, 128]]

/-- The string is empty or made of white-space runes only. -/
inductive WhiteOnly : GoString → Prop
  | nil : WhiteOnly []
  | cons {w rest : GoString} : w ∈ spaceRunes → WhiteOnly rest → WhiteOnly (w ++ rest)

/-- A byte that can stand inside a word wherever it is met: an ASCII byte that
is not white space. -/
def wordByte (c : Nat) : Bool := decide (c < 128) && !isSpace c

/-! ## bufio -/

/-- Constant `bufio.MaxScanTokenSize`: the largest buffer a `Scanner` grows to. -/
def MaxScanTokenSize : Nat := 65536

/-- One call of `Scanner.Scan` with the split function `bufio.ScanWords`, on a
scanner whose unread input is `s`: the token and the input left after it, or
`none` when `Scan` returns false.  `Scan` fails at the end of the input, and
with `ErrTooLong` when the buffer has grown to `MaxScanTokenSize` bytes,
starting at the word, without holding the whole word and the white-space rune
that ends it. -/
def scanWord (s : GoString) : Option (GoString × GoString) :=
  let s1 := skipSpaces s.length s
  match findSpace s1.length s1 0 with
  | some (i, w) =>
    if i + w ≤ MaxScanTokenSize then some (s1.take i, s1.drop (i + w)) else none
  | none =>
    if s1.length = 0 then none
    else if MaxScanTokenSize ≤ s1.length then none
    else some (s1, [])

/-- Method `bufio.Reader.ReadString(delim)` on a reader whose unread input is
`s`: the text up to and including the first `delim` and the input left, or
`none` when the input ends first (the method then returns `io.EOF`). -/
def readString (delim : Nat) : GoString → Option (GoString × GoString)
  | [] => none
  | c :: t =>
    if c = delim then some ([c], t)
    else
      match readString delim t with
      | some (line, rest) => some (c :: line, rest)
      | none => none

/-! ## strings -/

/-- Function `strings.TrimSuffix`. -/
def TrimSuffix (s suffix : GoString) : GoString :=
  if suffix <:+ s then s.take (s.length - suffix.length) else s

/-- Function `strings.Split` for a non-empty separator: cuts `s` at each
occurrence of `sep`, found from left to right without overlap.  The first
argument bounds the recursion. -/
def splitAux (sep : GoString) : Nat → GoString → List GoString
  | 0, _ => [[]]
  | fuel + 1, s =>
    match s with
    | [] => [[]]
    | c :: t =>
      if sep <+: s then [] :: splitAux sep fuel (s.drop sep.length)
      else
        match splitAux sep fuel t with
        | [] => [[c]]
        | p :: ps => (c :: p) :: ps

/-- Puts `a` in front of the first string of a list. -/
def consHead (a : GoString) : List GoString → List GoString
  | [] => [a]
  | p :: ps => (a ++ p) :: ps

/-- Function `strings.Split(s, sep)`, `sep` not empty. -/
def Split (s sep : GoString) : List GoString := splitAux sep (s.length + 1) s

/-- The string holds two adjacent dots, the text `..`. -/
def hasDotDot : GoString → Bool
  | a :: b :: t => (decide (a = 46) && decide (b = 46)) || hasDotDot (b :: t)
  | _ => false

/-- Function `strings.Join`. -/
def Join : List GoString → GoString → GoString
  | [], _ => []
  | [a], _ => a
  | a :: b :: t, sep => a ++ sep ++ Join (b :: t) sep

/-- Table `asciiSpace` of package strings. -/
def asciiSpace (c : Nat) : Bool :=
  c = 9 ∨ c = 10 ∨ c = 11 ∨ c = 12 ∨ c = 13 ∨ c = 32

/-- Function `utf8.RuneStart`: the byte is not a continuation byte. -/
def RuneStart (b : Nat) : Bool := (b &&& 192) != 128

/-- Function `utf8.DecodeLastRune`: the last rune of `p` and its width. -/
def DecodeLastRune (p : GoString) : Nat × Nat :=
  let e := p.length
  if e = 0 then (RuneError, 0)
  else
    let r := p.getD (e - 1) 0
    if r < 128 then (r, 1)
    else
      -- the loop `for start--; start >= lim; start--` with `lim = max (e - 4) 0`
      let start :=
        if 2 ≤ e ∧ RuneStart (p.getD (e - 2) 0) then e - 2
        else if 3 ≤ e ∧ RuneStart (p.getD (e - 3) 0) then e - 3
        else if 4 ≤ e ∧ RuneStart (p.getD (e - 4) 0) then e - 4
        else e - 5
      let d := DecodeRune (p.drop start)
      if start + d.2 ≠ e then (RuneError, 1) else d

/-- Function `lastIndexFunc(s, unicode.IsSpace, false)` of package strings: the
offset of the last rune that is not white space, `none` for the library's -1. -/
def lastIndexNotSpace : Nat → GoString → Option Nat
  | 0, _ => none
  | fuel + 1, s =>
    match s with
    | [] => none
    | _ :: _ =>
      let i := s.length - (DecodeLastRune s).2
      if isSpace (DecodeLastRune s).1 then lastIndexNotSpace fuel (s.take i) else some i

/-- Function `strings.TrimRightFunc(s, unicode.IsSpace)`. -/
def TrimRightSpace (s : GoString) : GoString :=
  match lastIndexNotSpace s.length s with
  | some i =>
    if 128 ≤ s.getD i 0 then s.take (i + (DecodeRune (s.drop i)).2) else s.take (i + 1)
  | none => []

/-- Function `strings.TrimFunc(s, unicode.IsSpace)`. -/
def TrimFuncSpace (s : GoString) : GoString :=
  TrimRightSpace (skipSpaces s.length s)

/-- The second loop of `strings.TrimSpace`, run on the reversed text: trailing
ASCII white space is dropped; a byte of 128 or more sends the text that is left
to `TrimRightFunc`. -/
def trimSpaceTail : GoString → GoString
  | [] => []
  | c :: t =>
    if 128 ≤ c then TrimRightSpace (c :: t).reverse
    else if asciiSpace c then trimSpaceTail t
    else (c :: t).reverse

/-- Function `strings.TrimSpace`: leading ASCII white space is dropped byte by
byte; a byte of 128 or more sends the text that is left to `TrimFunc`. -/
def TrimSpace : GoString → GoString
  | [] => []
  | c :: t =>
    if 128 ≤ c then TrimFuncSpace (c :: t)
    else if asciiSpace c then TrimSpace t
    else trimSpaceTail (c :: t).reverse

/-! ## strconv -/

/-- Decimal digits of `n`, most significant first, in front of `acc`. -/
def digitsAux : Nat → Nat → GoString → GoString
  | 0, _, acc => acc
  | fuel + 1, n, acc =>
    if n < 10 then (48 + n) :: acc
    else digitsAux fuel (n / 10) ((48 + n % 10) :: acc)

/-- Function `strconv.Itoa`. -/
def Itoa (i : Int) : GoString :=
  if i < 0 then 45 :: digitsAux (i.natAbs + 1) i.natAbs []
  else digitsAux (i.natAbs + 1) i.natAbs []

/-- The byte is a decimal digit. -/
def isDigit (c : Nat) : Bool := 48 ≤ c ∧ c ≤ 57

/-- Value of a string of decimal digits. -/
def digitsValue (ds : GoString) : Nat := ds.foldl (fun a c => 10 * a + (c - 48)) 0

/-- Function `strconv.Atoi` with a 64-bit `int`: an optional sign, then one or
more decimal digits, the value within the range of `int`; `none` when the
library returns an error. -/
def Atoi (s : GoString) : Option Int :=
  let neg := s.head? = some 45
  let ds := if s.head? = some 45 ∨ s.head? = some 43 then s.tail else s
  if ds = [] then none
  else if !ds.all isDigit then none
  else if neg then
    (if digitsValue ds ≤ 2 ^ 63 then some (-(digitsValue ds : Int)) else none)
  else
    (if digitsValue ds < 2 ^ 63 then some (digitsValue ds : Int) else none)

/-! ## The package -/

/-- Struct `Range`: a parsed range header.  Field `Sort` is written `Sort'`,
`Sort` being a reserved word. -/
structure Range where
  Sort' : GoString
  Start : GoString
  StartExclusive : Bool
  End : GoString
  Limit : Int
  Desc : Bool
deriving DecidableEq, Repr

/-- The zero value `&Range{}`. -/
def Range.zero : Range := ⟨[], [], false, [], 0, false⟩

/-- Method `Range.String`: encodes a range into the header format. -/
def Range.String (r : Range) : GoString :=
  let buf := QueryEscape r.Sort' ++ [32]
  let buf :=
    if r.Start.length > 0 then
      (if r.StartExclusive then buf ++ [126] else buf) ++ QueryEscape r.Start
    else buf
  let buf := buf ++ [46, 46]
  let buf := if r.End.length > 0 then buf ++ QueryEscape r.End else buf
  let buf := buf ++ [59]
  let opts : List GoString := []
  let opts := if r.Limit > 0 then opts ++ [ascii "max=" ++ Itoa r.Limit] else opts
  let opts := if r.Desc then opts ++ [ascii "order=desc"] else opts
  if opts.length > 0 then buf ++ [32] ++ Join opts (ascii ",") ++ [59] else buf

/-- The options clause `Range.String` writes after the bounds clause: nothing
when neither option applies, else a space, the options joined by a comma, and
`;`. -/
def optionsText (limit : Int) (desc : Bool) : GoString :=
  if limit > 0 then
    (if desc then ascii " max=" ++ Itoa limit ++ ascii ",order=desc;"
     else ascii " max=" ++ Itoa limit ++ ascii ";")
  else (if desc then ascii " order=desc;" else [])

/-- The start spec `Range.String` writes in front of `..`: nothing for an empty
`Start`, else the escaped `Start`, after `~` when `StartExclusive` is set. -/
def startText (r : Range) : GoString :=
  if r.Start.length > 0 then
    (if r.StartExclusive then [126] else []) ++ QueryEscape r.Start
  else []

/-- The bounds token `Range.String` writes between the space and the first `;`. -/
def boundsText (r : Range) : GoString :=
  (if r.Start.length > 0 then
    (if r.StartExclusive then [126] else []) ++ QueryEscape r.Start
   else []) ++ [46, 46] ++ QueryEscape r.End

/-- The bounds token before escaping: `boundsText r` is its `QueryEscape`. -/
def rawBounds (r : Range) : GoString :=
  (if r.Start.length > 0 then
    (if r.StartExclusive then [126] else []) ++ r.Start
   else []) ++ [46, 46] ++ r.End

/-- Method `Range.Next`: the range that starts after `prev`. -/
def Range.Next (r : Range) (prev : GoString) : Range :=
  { Sort' := r.Sort', Start := prev, StartExclusive := true, End := r.End,
    Limit := r.Limit, Desc := r.Desc }

/-- Struct `property`. -/
structure property where
  sort : GoString
  start : GoString
  «end» : GoString
deriving DecidableEq, Repr

/-- Function `parseProperty`: the sort token and the bounds token of the bounds
clause. -/
def parseProperty (s : GoString) : Except Error property :=
  match scanWord s with
  | none => .error .InvalidFormat
  | some (sortTok, rest) =>
    match scanWord rest with
    | none => .ok ⟨sortTok, [], []⟩
    | some (text, _) =>
      let vs := Split text (ascii "..")
      if vs.length > 2 then .error .InvalidFormat
      else
        .ok ⟨sortTok, vs.getD 0 [], if vs.length = 2 then vs.getD 1 [] else []⟩

/-- Struct `options`. -/
structure options where
  max : GoString
  order : GoString
deriving DecidableEq, Repr

/-- The body of the loop of `parseOptions`, for one option `opt`. -/
def parseOption (o : options) (opt : GoString) : Except Error options :=
  let kv := Split (TrimSpace opt) (ascii "=")
  if kv.length ≠ 2 then .error .InvalidFormat
  else
    let k := kv.getD 0 []
    let v := kv.getD 1 []
    if k = ascii "max" then .ok { o with max := v }
    else if k = ascii "order" then .ok { o with order := v }
    else .error .InvalidFormat

/-- The loop of `parseOptions` over the option tokens. -/
def parseOptionsLoop (o : options) : List GoString → Except Error options
  | [] => .ok o
  | opt :: more =>
    match parseOption o opt with
    | .ok o1 => parseOptionsLoop o1 more
    | .error e => .error e

/-- Function `parseOptions`. -/
def parseOptions (s : GoString) : Except Error options :=
  let s := TrimSpace s
  if s.length = 0 then .ok ⟨[], []⟩
  else parseOptionsLoop ⟨[], []⟩ (Split s (ascii ","))

/-- The part of `parseRange` that applies the parsed options to the range. -/
def applyOptions (r : Range) (o : options) : Except Error Range :=
  let r1 : Except Error Range :=
    if o.max ≠ [] then
      match Atoi o.max with
      | none => .error .InvalidFormat
      | some m => .ok { r with Limit := m }
    else .ok r
  match r1 with
  | .error e => .error e
  | .ok r =>
    if o.order ≠ [] then
      if o.order = ascii "desc" then .ok { r with Desc := true }
      else if o.order = ascii "asc" then .ok { r with Desc := false }
      else .error .InvalidFormat
    else .ok r

/-- The part of `parseRange` that fills `Sort`, `Start`, `StartExclusive` and
`End` from the parsed property. -/
def decodeProperty (p : property) : Except Error Range :=
  match QueryUnescape p.sort with
  | .error e => .error e
  | .ok sort =>
    let r : Range := { Range.zero with Sort' := sort }
    let r1 : Except Error Range :=
      if p.start.length > 0 then
        if p.start.head? = some 126 then
          match QueryUnescape p.start.tail with
          | .error e => .error e
          | .ok st => .ok { r with Start := st, StartExclusive := true }
        else
          match QueryUnescape p.start with
          | .error e => .error e
          | .ok st => .ok { r with Start := st }
      else .ok r
    match r1 with
    | .error e => .error e
    | .ok r =>
      if p.«end».length > 0 then
        match QueryUnescape p.«end» with
        | .error e => .error e
        | .ok en => .ok { r with End := en }
      else .ok r

/-- The part of `parseRange` from the second `ReadString` on: `r` is the range
decoded from the bounds clause, `rest` the input after the first `;`. -/
def parseTail (r : Range) (rest : GoString) : Except Error Range :=
  match readString 59 rest with
  | none => .ok r
  | some (opts, _) =>
    match parseOptions (TrimSuffix opts (ascii ";")) with
    | .error e => .error e
    | .ok o => applyOptions r o

/-- Function `parseRange`. -/
def parseRange (s : GoString) : Except Error Range :=
  match readString 59 s with
  | none => .error .InvalidFormat
  | some (prop, rest) =>
    match parseProperty (TrimSuffix prop (ascii ";")) with
    | .error e => .error e
    | .ok p =>
      match decodeProperty p with
      | .error e => .error e
      | .ok r => parseTail r rest

/-- Function `ParseString`. -/
def ParseString (s : GoString) : Except Error Range := parseRange s

/-- The start spec after an optional leading `~`: what `parseRange` hands to
`url.QueryUnescape` for the start of the range. -/
def startBody (s : GoString) : GoString := if s.head? = some 126 then s.tail else s

/-- A byte of a plain sort key: a letter, a digit, `-` or `_`. -/
def keyByte (c : Nat) : Bool :=
  (97 ≤ c ∧ c ≤ 122) ∨ (65 ≤ c ∧ c ≤ 90) ∨ (48 ≤ c ∧ c ≤ 57) ∨ c = 45 ∨ c = 95

/-- The string holds the bytes `r` and `=` next to each other, the text `r=`. -/
def hasREq : GoString → Bool
  | a :: b :: t => (decide (a = 114) && decide (b = 61)) || hasREq (b :: t)
  | _ => false

/-- An ASCII letter or a space. -/
def letterOrSpace (c : Nat) : Bool := (97 ≤ c ∧ c ≤ 122) ∨ (65 ≤ c ∧ c ≤ 90) ∨ c = 32

/-- The text with every space replaced by `+`. -/
def plusForSpace (s : GoString) : GoString := s.map (fun c => if c = 32 then 43 else c)

/-- No white-space rune is encoded anywhere in the string: at no offset does
the string go on with one of `spaceRunes`. -/
def noWhite : GoString → Bool
  | [] => true
  | c :: t => !(spaceRunes.any (fun w => w.isPrefixOf (c :: t))) && noWhite t

/-- An option token: a non-empty text without white space, `,` and `;`. -/
def optionToken (o : GoString) : Prop := o ≠ [] ∧ noWhite o = true ∧ 44 ∉ o ∧ 59 ∉ o

instance (o : GoString) : Decidable (optionToken o) := by
  unfold optionToken
  infer_instance

/-- The scanner can hold the word `tok` when the text `next` follows it: the
word and the rune that ends it (one byte when nothing follows) take at most
`MaxScanTokenSize` bytes. -/
def fitsScanner (tok next : GoString) : Prop :=
  tok.length + max 1 (DecodeRune next).2 ≤ MaxScanTokenSize

instance (tok next : GoString) : Decidable (fitsScanner tok next) := by
  unfold fitsScanner
  infer_instance

/-! # Lemmas -/

/-! ## Reading up to a delimiter -/

theorem readString_none (d : Nat) (s : GoString) (h : d ∉ s) : readString d s = none := by
  induction s with
  | nil => rfl
  | cons c t ih =>
    have hc : c ≠ d := fun e => h (by simp [e])
    have ht : d ∉ t := fun e => h (by simp [e])
    simp [readString, hc, ih ht]

theorem readString_append (d : Nat) (b rest : GoString) (h : d ∉ b) :
    readString d (b ++ d :: rest) = some (b ++ [d], rest) := by
  induction b with
  | nil => simp [readString]
  | cons c t ih =>
    have hc : c ≠ d := fun e => h (by simp [e])
    have ht : d ∉ t := fun e => h (by simp [e])
    simp [readString, hc, ih ht]

theorem TrimSuffix_semicolon (b : GoString) : TrimSuffix (b ++ [59]) (ascii ";") = b := by
  have h : ascii ";" = [59] := rfl
  simp [TrimSuffix, h]

/-! ## Decoding runes -/

theorem DecodeRune_width_pos (c : Nat) (t : GoString) : 1 ≤ (DecodeRune (c :: t)).2 := by
  rcases t with _ | ⟨b1, _ | ⟨b2, _ | ⟨b3, t3⟩⟩⟩ <;>
    (simp only [DecodeRune]; split_ifs <;> simp)

theorem DecodeRune_ascii (c : Nat) (t : GoString) (h : c < 128) : DecodeRune (c :: t) = (c, 1) := by
  simp [DecodeRune, h]

theorem skipSpaces_fuel (f1 f2 : Nat) (s : GoString) (h1 : s.length ≤ f1) (h2 : s.length ≤ f2) :
    skipSpaces f1 s = skipSpaces f2 s := by
  induction f1 generalizing f2 s with
  | zero =>
    have : s = [] := List.length_eq_zero.mp (by omega)
    subst this
    cases f2 <;> rfl
  | succ n ih =>
    cases s with
    | nil => cases f2 <;> rfl
    | cons c t =>
      cases f2 with
      | zero => simp at h2
      | succ m =>
        have hw := DecodeRune_width_pos c t
        simp only [skipSpaces]
        split
        · apply ih
          · simp only [List.length_drop, List.length_cons] at *; omega
          · simp only [List.length_drop, List.length_cons] at *; omega
        · rfl

theorem findSpace_fuel (f1 f2 : Nat) (s : GoString) (i : Nat) (h1 : s.length ≤ f1)
    (h2 : s.length ≤ f2) : findSpace f1 s i = findSpace f2 s i := by
  induction f1 generalizing f2 s i with
  | zero =>
    have : s = [] := List.length_eq_zero.mp (by omega)
    subst this
    cases f2 <;> rfl
  | succ n ih =>
    cases s with
    | nil => cases f2 <;> rfl
    | cons c t =>
      cases f2 with
      | zero => simp at h2
      | succ m =>
        have hw := DecodeRune_width_pos c t
        simp only [findSpace]
        split
        · rfl
        · apply ih
          · simp only [List.length_drop, List.length_cons] at *; omega
          · simp only [List.length_drop, List.length_cons] at *; omega

/-! ## White space and words -/

theorem decode_spaceRune (w : GoString) (h : w ∈ spaceRunes) (rest : GoString) :
    isSpace (DecodeRune (w ++ rest)).1 = true ∧ (DecodeRune (w ++ rest)).2 = w.length ∧
      0 < w.length := by
  simp only [spaceRunes, List.mem_cons, List.mem_singleton, List.not_mem_nil, or_false] at h
  rcases h with h | h | h | h | h | h | h | h | h | h | h | h | h | h | h | h | h | h | h |
    h | h | h | h | h | h <;> subst h <;>
    simp [DecodeRune, runeSize, acceptLo, acceptHi,
      show ¬ (rest.length + 1 + 1 < 2) by omega, show ¬ (rest.length + 1 + 1 + 1 < 3) by omega]
      <;> decide

theorem skipSpaces_white (s : GoString) (h : WhiteOnly s) (t : GoString) :
    skipSpaces (s ++ t).length (s ++ t) = skipSpaces t.length t := by
  induction h with
  | nil => rfl
  | @cons w rest hw _ ih =>
    obtain ⟨h1, h2, h3⟩ := decode_spaceRune w hw (rest ++ t)
    rw [List.append_assoc]
    rcases hwt : w ++ (rest ++ t) with _ | ⟨c, u⟩
    · have := congrArg List.length hwt
      simp only [List.length_append, List.length_nil] at this
      omega
    · rw [hwt] at h1 h2
      simp only [List.length_cons, skipSpaces, h1, if_true]
      rw [h2, ← hwt, List.drop_left, ← ih]
      apply skipSpaces_fuel
      · have := congrArg List.length hwt
        simp only [List.length_append, List.length_cons] at *
        omega
      · exact le_refl _

theorem scanWord_white (s : GoString) (h : WhiteOnly s) : scanWord s = none := by
  have := skipSpaces_white s h []
  simp only [List.append_nil] at this
  simp [scanWord, this, skipSpaces, findSpace]

theorem wordByte_decode (c : Nat) (t : GoString) (h : wordByte c = true) :
    DecodeRune (c :: t) = (c, 1) ∧ isSpace c = false := by
  simp only [wordByte, Bool.and_eq_true, decide_eq_true_eq, Bool.not_eq_true'] at h
  exact ⟨DecodeRune_ascii c t h.1, h.2⟩

theorem skipSpaces_word (f : Nat) (c : Nat) (t : GoString) (h : wordByte c = true) :
    skipSpaces f (c :: t) = c :: t := by
  cases f with
  | zero => rfl
  | succ n => simp [skipSpaces, wordByte_decode c t h]

theorem findSpace_word (tok : GoString) (h : ∀ c ∈ tok, wordByte c = true) (rest : GoString)
    (f i : Nat) (hf : (tok ++ rest).length ≤ f) :
    findSpace f (tok ++ rest) i = findSpace (f - tok.length) rest (i + tok.length) := by
  induction tok generalizing f i with
  | nil => simp
  | cons c t ih =>
    cases f with
    | zero => simp at hf
    | succ n =>
      have hc := wordByte_decode c (t ++ rest) (h c (by simp))
      simp only [List.cons_append, findSpace, hc.1, hc.2, List.drop_succ_cons, List.drop_zero]
      rw [ih (fun x hx => h x (by simp [hx])) n (i + 1) (by simpa using hf)]
      have e1 : n + 1 - (t.length + 1) = n - t.length := by omega
      have e2 : i + 1 + t.length = i + (t.length + 1) := by omega
      simp only [List.length_cons, e1, e2]
      simp

theorem findSpace_space (f i : Nat) (rest : GoString) :
    findSpace (f + 1) (32 :: rest) i = some (i, 1) := by
  simp [findSpace, DecodeRune, isSpace]

theorem scanWord_word_space (tok rest : GoString) (h : ∀ c ∈ tok, wordByte c = true)
    (hne : tok ≠ []) (hlen : tok.length < MaxScanTokenSize) :
    scanWord (tok ++ 32 :: rest) = some (tok, rest) := by
  obtain ⟨c, t, rfl⟩ := List.exists_cons_of_ne_nil hne
  have hs : skipSpaces ((c :: t) ++ 32 :: rest).length ((c :: t) ++ 32 :: rest)
      = (c :: t) ++ 32 :: rest := skipSpaces_word _ c _ (h c (by simp))
  have hfs := findSpace_word (c :: t) h (32 :: rest) ((c :: t) ++ 32 :: rest).length 0 (le_refl _)
  have hsub : ((c :: t) ++ 32 :: rest).length - (c :: t).length = rest.length + 1 := by
    simp only [List.length_append, List.length_cons]; omega
  rw [hsub, findSpace_space] at hfs
  simp only [scanWord, hs, hfs]
  rw [if_pos (by omega)]
  have e : 0 + (c :: t).length + 1 = (c :: t ++ [32]).length := by simp
  have e2 : c :: t ++ 32 :: rest = (c :: t ++ [32]) ++ rest := by simp
  have e3 : 0 + (c :: t).length = (c :: t).length := by omega
  rw [e, e3, List.take_left, e2, List.drop_left]

theorem findSpace_word_none (tok : GoString) (h : ∀ c ∈ tok, wordByte c = true) (f i : Nat) :
    findSpace f tok i = none := by
  induction tok generalizing f i with
  | nil => cases f <;> rfl
  | cons c t ih =>
    cases f with
    | zero => rfl
    | succ n =>
      have hc := wordByte_decode c t (h c (by simp))
      simp only [findSpace, hc.1, hc.2, List.drop_succ_cons, List.drop_zero]
      exact ih (fun x hx => h x (by simp [hx])) n (i + 1)

theorem scanWord_word_end (tok : GoString) (h : ∀ c ∈ tok, wordByte c = true)
    (hne : tok ≠ []) (hlen : tok.length < MaxScanTokenSize) :
    scanWord tok = some (tok, []) := by
  obtain ⟨c, t, rfl⟩ := List.exists_cons_of_ne_nil hne
  have hs : skipSpaces (c :: t).length (c :: t) = c :: t := skipSpaces_word _ c _ (h c (by simp))
  have hfs := findSpace_word_none (c :: t) h (c :: t).length 0
  have h1 : ¬ MaxScanTokenSize ≤ (c :: t).length := by omega
  simp only [scanWord, hs, hfs]
  simp only [List.length_cons] at h1
  simp [h1]

theorem scanWord_word_long (tok : GoString) (h : ∀ c ∈ tok, wordByte c = true)
    (hlen : MaxScanTokenSize ≤ tok.length) : scanWord tok = none := by
  have hne : tok ≠ [] := by
    intro e; subst e; simp [MaxScanTokenSize] at hlen
  obtain ⟨c, t, rfl⟩ := List.exists_cons_of_ne_nil hne
  have hs : skipSpaces (c :: t).length (c :: t) = c :: t := skipSpaces_word _ c _ (h c (by simp))
  have hfs := findSpace_word_none (c :: t) h (c :: t).length 0
  simp only [scanWord, hs, hfs]
  simp only [List.length_cons] at hlen
  simp [hlen]

/-! ## Escaping -/

set_option maxRecDepth 100000 in
theorem escapeByte_facts : ∀ c < 256,
    (∀ x ∈ escapeByte c, escByte x = true) ∧
      (c ≠ 32 → shouldEscape c = true →
        ishex (upperhex (c >>> 4)) = true ∧ ishex (upperhex (c &&& 15)) = true ∧
          (((unhex (upperhex (c >>> 4)) <<< 4) % 256) ||| unhex (upperhex (c &&& 15))) = c) := by
  decide

set_option maxRecDepth 100000 in
theorem escByte_facts_lt : ∀ x < 128, escByte x = true →
    wordByte x = true ∧ x ≠ 59 ∧ x ≠ 32 ∧ x ≠ 44 ∧ x ≠ 61 := by
  decide

theorem escByte_lt (x : Nat) (h : escByte x = true) : x < 128 := by
  unfold escByte shouldEscape at h
  split_ifs at h <;> first | omega | (simp at h; omega)

theorem escByte_facts (x : Nat) (h : escByte x = true) :
    wordByte x = true ∧ x ≠ 59 ∧ x ≠ 32 ∧ x ≠ 44 ∧ x ≠ 61 :=
  escByte_facts_lt x (escByte_lt x h) h

theorem QueryEscape_escByte (s : GoString) (hs : IsBytes s) :
    ∀ x ∈ QueryEscape s, escByte x = true := by
  induction s with
  | nil => simp [QueryEscape]
  | cons c t ih =>
    intro x hx
    simp only [QueryEscape, List.mem_append] at hx
    rcases hx with hx | hx
    · exact (escapeByte_facts c (hs c (by simp))).1 x hx
    · exact ih (fun b hb => hs b (by simp [hb])) x hx

theorem QueryEscape_append (s t : GoString) :
    QueryEscape (s ++ t) = QueryEscape s ++ QueryEscape t := by
  induction s with
  | nil => rfl
  | cons c u ih => simp [QueryEscape, ih]

theorem QueryEscape_eq_nil (s : GoString) : QueryEscape s = [] ↔ s = [] := by
  cases s with
  | nil => simp [QueryEscape]
  | cons c t =>
    simp only [QueryEscape, List.append_eq_nil, reduceCtorEq, iff_false, not_and]
    intro h
    unfold escapeByte at h
    split_ifs at h

theorem QueryUnescape_cons (c : Nat) (t : GoString) (h : c ≠ 37) :
    QueryUnescape (c :: t) =
      match QueryUnescape t with
      | .ok r => .ok ((if c = 43 then 32 else c) :: r)
      | .error e => .error e := by
  rcases t with _ | ⟨a, _ | ⟨b, u⟩⟩ <;> simp [QueryUnescape, h]

theorem QueryUnescape_percent (h1 h2 : Nat) (t : GoString) :
    QueryUnescape (37 :: h1 :: h2 :: t) =
      if ishex h1 && ishex h2 then
        match QueryUnescape t with
        | .ok r => .ok ((((unhex h1 <<< 4) % 256) ||| unhex h2) :: r)
        | .error e => .error e
      else .error (.EscapeError [37, h1, h2]) := by
  rw [QueryUnescape]
  simp

theorem QueryUnescape_escapeByte (c : Nat) (hc : c < 256) (rest : GoString) :
    QueryUnescape (escapeByte c ++ rest) =
      match QueryUnescape rest with
      | .ok r => .ok (c :: r)
      | .error e => .error e := by
  by_cases h32 : c = 32
  · subst h32
    simp [escapeByte, QueryUnescape_cons]
  · by_cases hsh : shouldEscape c = true
    · obtain ⟨h1, h2, h3⟩ := (escapeByte_facts c hc).2 h32 hsh
      simp [escapeByte, h32, hsh, QueryUnescape_percent, h1, h2, h3]
    · have h37 : c ≠ 37 := by
        intro e; subst e; exact hsh (by decide)
      have h43 : c ≠ 43 := by
        intro e; subst e; exact hsh (by decide)
      simp [escapeByte, h32, hsh, QueryUnescape_cons, h37, h43]

theorem QueryUnescape_QueryEscape (s : GoString) (hs : IsBytes s) :
    QueryUnescape (QueryEscape s) = .ok s := by
  induction s with
  | nil => rfl
  | cons c t ih =>
    rw [QueryEscape, QueryUnescape_escapeByte c (hs c (by simp)),
      ih (fun b hb => hs b (by simp [hb]))]

/-! ## Decimal numbers -/

theorem digitsAux_value (f n : Nat) (acc : GoString) (hf : n < f) :
    (digitsAux f n acc).foldl (fun a c => 10 * a + (c - 48)) 0 =
      acc.foldl (fun a c => 10 * a + (c - 48)) n := by
  induction f generalizing n acc with
  | zero => omega
  | succ k ih =>
    unfold digitsAux
    split_ifs with h
    · simp
    · rw [ih (n / 10) _ (by omega)]
      simp only [List.foldl_cons]
      congr 1
      omega

theorem digitsAux_all (f n : Nat) (acc : GoString) (hacc : ∀ c ∈ acc, isDigit c = true) :
    ∀ c ∈ digitsAux f n acc, isDigit c = true := by
  induction f generalizing n acc with
  | zero => simpa [digitsAux] using hacc
  | succ k ih =>
    unfold digitsAux
    split_ifs with h
    · intro c hc
      rcases List.mem_cons.mp hc with e | e
      · subst e; simp [isDigit]; omega
      · exact hacc c e
    · apply ih
      intro c hc
      rcases List.mem_cons.mp hc with e | e
      · subst e; simp [isDigit]; omega
      · exact hacc c e

theorem digitsAux_ne_nil (f n : Nat) (acc : GoString) (hf : 0 < f) : digitsAux f n acc ≠ [] := by
  induction f generalizing n acc with
  | zero => omega
  | succ k ih =>
    unfold digitsAux
    split_ifs with h
    · simp
    · rcases k with _ | k
      · simp [digitsAux]
      · exact ih _ _ (by omega)

theorem Atoi_Itoa (n : Int) (h0 : 0 < n) (h1 : n < 2 ^ 63) : Atoi (Itoa n) = some n := by
  obtain ⟨m, rfl⟩ := Int.eq_ofNat_of_zero_le (le_of_lt h0)
  have hd := digitsAux_all (m + 1) m [] (by simp)
  have hne := digitsAux_ne_nil (m + 1) m [] (by omega)
  have hv := digitsAux_value (m + 1) m [] (by omega)
  simp only [List.foldl_nil] at hv
  obtain ⟨c, t, hct⟩ := List.exists_cons_of_ne_nil hne
  have hc : isDigit c = true := hd c (by simp [hct])
  have hc45 : c ≠ 45 := by
    intro e; subst e; simp [isDigit] at hc
  have hc43 : c ≠ 43 := by
    intro e; subst e; simp [isDigit] at hc
  have hm : m < 2 ^ 63 := by exact_mod_cast h1
  have hI : Itoa (m : Int) = c :: t := by
    simp [Itoa, hct]
  have hall : (c :: t).all isDigit = true := by
    rw [List.all_eq_true]; rw [← hct]; exact hd
  rw [hI]
  simp only [Atoi, List.head?_cons, Option.some.injEq, hc45, hc43, or_self, if_false,
    reduceCtorEq, hall, Bool.not_true, Bool.false_eq_true, digitsValue]
  rw [← hct, hv]
  have hm2 : m < 9223372036854775808 := by norm_num at hm; exact hm
  simp [hm2]

/-! ## Splitting -/

theorem splitAux_single_none (x : Nat) (a : GoString) (h : x ∉ a) (f : Nat) (hf : a.length ≤ f) :
    splitAux [x] f a = [a] := by
  induction a generalizing f with
  | nil => cases f <;> rfl
  | cons c t ih =>
    cases f with
    | zero => simp at hf
    | succ n =>
      have hc : ¬ x = c := fun e => h (by simp [e])
      have ht : x ∉ t := fun e => h (by simp [e])
      have hp : ¬ ([x] <+: c :: t) := by
        intro hp
        obtain ⟨u, hu⟩ := hp
        simp at hu
        exact hc hu.1
      simp only [splitAux, hp, if_false]
      rw [ih ht n (by simpa using hf)]

theorem splitAux_single (x : Nat) (a b : GoString) (h : x ∉ a) (f : Nat)
    (hf : (a ++ x :: b).length ≤ f) :
    splitAux [x] f (a ++ x :: b) = a :: splitAux [x] (f - a.length - 1) b := by
  induction a generalizing f with
  | nil =>
    cases f with
    | zero => simp at hf
    | succ n =>
      have hp : [x] <+: x :: b := ⟨b, rfl⟩
      simp [splitAux, hp]
  | cons c t ih =>
    cases f with
    | zero => simp at hf
    | succ n =>
      have hc : ¬ x = c := fun e => h (by simp [e])
      have ht : x ∉ t := fun e => h (by simp [e])
      have hp : ¬ ([x] <+: c :: (t ++ x :: b)) := by
        intro hp
        obtain ⟨u, hu⟩ := hp
        simp at hu
        exact hc hu.1
      simp only [List.cons_append, splitAux, hp, if_false]
      rw [ih ht n (by simpa using hf)]
      simp only [List.length_cons]
      have e : n + 1 - (t.length + 1) - 1 = n - t.length - 1 := by omega
      rw [e]

theorem Split_single_none (x : Nat) (a : GoString) (h : x ∉ a) : Split a [x] = [a] :=
  splitAux_single_none x a h _ (by omega)

theorem Split_single_one (x : Nat) (a b : GoString) (ha : x ∉ a) (hb : x ∉ b) :
    Split (a ++ x :: b) [x] = [a, b] := by
  unfold Split
  rw [splitAux_single x a b ha _ (by omega), splitAux_single_none x b hb _ (by
    simp only [List.length_append, List.length_cons]; omega)]

theorem splitAux_dots_none (s : GoString) (h : hasDotDot s = false) (f : Nat)
    (hf : s.length ≤ f) : splitAux [46, 46] f s = [s] := by
  induction s generalizing f with
  | nil => cases f <;> rfl
  | cons c t ih =>
    cases f with
    | zero => simp at hf
    | succ n =>
      have hp : ¬ ([46, 46] <+: c :: t) := by
        intro hp
        obtain ⟨u, hu⟩ := hp
        simp at hu
        obtain ⟨rfl, rfl⟩ := hu
        simp [hasDotDot] at h
      have ht : hasDotDot t = false := by
        cases t with
        | nil => rfl
        | cons d u =>
          simp only [hasDotDot, Bool.or_eq_false_iff] at h
          exact h.2
      simp only [splitAux, hp, if_false]
      rw [ih ht n (by simpa using hf)]

theorem splitAux_dots (a b : GoString) (h : hasDotDot (a ++ [46]) = false) (f : Nat)
    (hf : (a ++ 46 :: 46 :: b).length ≤ f) :
    splitAux [46, 46] f (a ++ 46 :: 46 :: b) = a :: splitAux [46, 46] (f - a.length - 1) b := by
  induction a generalizing f with
  | nil =>
    cases f with
    | zero => simp at hf
    | succ n =>
      have hp : [46, 46] <+: 46 :: 46 :: b := ⟨b, rfl⟩
      simp [splitAux, hp]
  | cons c t ih =>
    cases f with
    | zero => simp at hf
    | succ n =>
      have ht : hasDotDot (t ++ [46]) = false := by
        cases t with
        | nil => rfl
        | cons d u =>
          simp only [List.cons_append, hasDotDot, Bool.or_eq_false_iff] at h
          exact h.2
      have hp : ¬ ([46, 46] <+: c :: (t ++ 46 :: 46 :: b)) := by
        intro hp
        obtain ⟨u, hu⟩ := hp
        cases t with
        | nil =>
          simp at hu
          obtain ⟨rfl, -⟩ := hu
          simp [hasDotDot] at h
        | cons d v =>
          simp at hu
          obtain ⟨rfl, rfl, -⟩ := hu
          simp [hasDotDot] at h
      simp only [List.cons_append, splitAux, hp, if_false]
      rw [ih ht n (by simpa using hf)]
      simp only [List.length_cons]
      have e : n + 1 - (t.length + 1) - 1 = n - t.length - 1 := by omega
      rw [e]

theorem Split_dots_one (a b : GoString) (ha : hasDotDot (a ++ [46]) = false)
    (hb : hasDotDot b = false) : Split (a ++ 46 :: 46 :: b) (ascii "..") = [a, b] := by
  have e : ascii ".." = [46, 46] := rfl
  rw [e]
  unfold Split
  rw [splitAux_dots a b ha _ (by omega), splitAux_dots_none b hb _ (by
    simp only [List.length_append, List.length_cons]; omega)]

/-! ## Trimming -/

theorem wordByte_ascii (c : Nat) (h : wordByte c = true) :
    ¬ 128 ≤ c ∧ asciiSpace c = false := by
  simp only [wordByte, isSpace, Bool.and_eq_true, decide_eq_true_eq, Bool.not_eq_true'] at h
  obtain ⟨h1, h2⟩ := h
  refine ⟨by omega, ?_⟩
  have h3 : c ≤ 255 := by omega
  simp only [h3, if_true, decide_eq_false_iff_not] at h2
  simp only [asciiSpace, decide_eq_false_iff_not]
  omega

theorem TrimSpace_space (t : GoString) : TrimSpace (32 :: t) = TrimSpace t := by
  simp [TrimSpace, asciiSpace]

theorem TrimSpace_words (s : GoString) (h : ∀ x ∈ s, wordByte x = true) : TrimSpace s = s := by
  cases s with
  | nil => rfl
  | cons c t =>
    obtain ⟨h1, h2⟩ := wordByte_ascii c (h c (by simp))
    simp only [TrimSpace, h1, if_false, h2, Bool.false_eq_true]
    rcases hr : (c :: t).reverse with _ | ⟨l, u⟩
    · simp at hr
    · have hl : l ∈ c :: t := by
        have : l ∈ (c :: t).reverse := by rw [hr]; simp
        exact List.mem_reverse.mp this
      obtain ⟨h3, h4⟩ := wordByte_ascii l (h l hl)
      simp only [trimSpaceTail, h3, if_false, h4, Bool.false_eq_true]
      rw [← hr, List.reverse_reverse]

/-! ## Options -/

theorem isDigit_facts (c : Nat) (h : isDigit c = true) :
    wordByte c = true ∧ c ≠ 44 ∧ c ≠ 59 ∧ c ≠ 61 := by
  simp only [isDigit, Bool.decide_and, Bool.and_eq_true, decide_eq_true_eq] at h
  have h3 : c ≤ 255 := by omega
  have h4 : c < 128 := by omega
  refine ⟨?_, by omega, by omega, by omega⟩
  simp only [wordByte, isSpace, h3, h4, if_true, decide_True, Bool.true_and, Bool.not_eq_true',
    decide_eq_false_iff_not]
  omega

theorem parseOption_max (o : options) (ds : GoString) (h : ∀ c ∈ ds, isDigit c = true) :
    parseOption o (ascii "max=" ++ ds) = .ok { o with max := ds } := by
  have e : ascii "max=" ++ ds = [109, 97, 120] ++ 61 :: ds := rfl
  have hw : ∀ x ∈ ascii "max=" ++ ds, wordByte x = true := by
    intro x hx
    rcases List.mem_append.mp hx with hx | hx
    · have hall : ∀ y ∈ ascii "max=", wordByte y = true := by decide
      exact hall x hx
    · exact (isDigit_facts x (h x hx)).1
  have h61 : 61 ∉ ds := fun hm => (isDigit_facts 61 (h 61 hm)).2.2.2 rfl
  have hsp : Split ([109, 97, 120] ++ 61 :: ds) (ascii "=") = [[109, 97, 120], ds] :=
    Split_single_one 61 [109, 97, 120] ds (by decide) h61
  simp only [parseOption, TrimSpace_words _ hw]
  rw [e, hsp]
  simp [ascii]

theorem parseOption_desc (o : options) :
    parseOption o (ascii "order=desc") = .ok { o with order := ascii "desc" } := by
  have hsp : Split (TrimSpace (ascii "order=desc")) (ascii "=") = [ascii "order", ascii "desc"] := by
    decide
  simp only [parseOption, hsp]
  simp [ascii]

theorem String_eq (d : Range) :
    d.String = QueryEscape d.Sort' ++ 32 :: (boundsText d ++ 59 :: optionsText d.Limit d.Desc) := by
  unfold Range.String boundsText optionsText
  by_cases hl : d.Limit > 0 <;> by_cases hd : d.Desc = true <;>
    by_cases hs : d.Start = [] <;> by_cases he : d.End = [] <;>
    by_cases hx : d.StartExclusive = true <;>
    simp [hl, hd, hs, he, hx, Join, ascii, QueryEscape, List.length_pos]

theorem Itoa_pos (n : Int) (h : 0 < n) :
    (∀ c ∈ Itoa n, isDigit c = true) ∧ Itoa n ≠ [] := by
  have h' : ¬ n < 0 := by omega
  simp only [Itoa, h', if_false]
  exact ⟨digitsAux_all _ _ [] (by simp), digitsAux_ne_nil _ _ [] (by omega)⟩

theorem parseOptions_max (ds : GoString) (h : ∀ c ∈ ds, isDigit c = true) :
    parseOptions (32 :: (ascii "max=" ++ ds)) = .ok ⟨ds, []⟩ := by
  have hw : ∀ x ∈ ascii "max=" ++ ds, wordByte x = true := by
    intro x hx
    rcases List.mem_append.mp hx with hx | hx
    · have hall : ∀ y ∈ ascii "max=", wordByte y = true := by decide
      exact hall x hx
    · exact (isDigit_facts x (h x hx)).1
  have h44 : 44 ∉ ascii "max=" ++ ds := by
    intro hm
    rcases List.mem_append.mp hm with hx | hx
    · revert hx; decide
    · exact (isDigit_facts 44 (h 44 hx)).2.1 rfl
  have hsp : Split (ascii "max=" ++ ds) (ascii ",") = [ascii "max=" ++ ds] :=
    Split_single_none 44 _ h44
  have hne : (ascii "max=" ++ ds).length ≠ 0 := by simp [ascii]
  simp only [parseOptions, TrimSpace_space, TrimSpace_words _ hw, hne, if_false, hsp,
    parseOptionsLoop, parseOption_max _ ds h]

theorem parseOptions_max_desc (ds : GoString) (h : ∀ c ∈ ds, isDigit c = true) :
    parseOptions (32 :: (ascii "max=" ++ ds ++ ascii ",order=desc")) = .ok ⟨ds, ascii "desc"⟩ := by
  have hw : ∀ x ∈ ascii "max=" ++ ds ++ ascii ",order=desc", wordByte x = true := by
    intro x hx
    rcases List.mem_append.mp hx with hx | hx
    · rcases List.mem_append.mp hx with hx | hx
      · have hall : ∀ y ∈ ascii "max=", wordByte y = true := by decide
        exact hall x hx
      · exact (isDigit_facts x (h x hx)).1
    · have hall : ∀ y ∈ ascii ",order=desc", wordByte y = true := by decide
      exact hall x hx
  have h44 : 44 ∉ ascii "max=" ++ ds := by
    intro hm
    rcases List.mem_append.mp hm with hx | hx
    · revert hx; decide
    · exact (isDigit_facts 44 (h 44 hx)).2.1 rfl
  have e : ascii "max=" ++ ds ++ ascii ",order=desc"
      = (ascii "max=" ++ ds) ++ 44 :: ascii "order=desc" := rfl
  have hsp : Split ((ascii "max=" ++ ds) ++ 44 :: ascii "order=desc") (ascii ",")
      = [ascii "max=" ++ ds, ascii "order=desc"] :=
    Split_single_one 44 _ _ h44 (by decide)
  have hne : (ascii "max=" ++ ds ++ ascii ",order=desc").length ≠ 0 := by simp [ascii]
  simp only [parseOptions, TrimSpace_space, TrimSpace_words _ hw, hne, if_false]
  rw [e, hsp]
  simp only [parseOptionsLoop, parseOption_max _ ds h, parseOption_desc]

theorem parseTail_optionsText (r : Range) (l : Int) (d : Bool) (hl : l < 2 ^ 63) :
    parseTail r (optionsText l d) =
      .ok { r with Limit := if l > 0 then l else r.Limit, Desc := if d then true else r.Desc } := by
  unfold optionsText
  by_cases hp : l > 0
  · obtain ⟨hd, hne⟩ := Itoa_pos l hp
    have h59 : 59 ∉ Itoa l := fun hm => (isDigit_facts 59 (hd 59 hm)).2.2.1 rfl
    cases d with
    | false =>
      have e : ascii " max=" ++ Itoa l ++ ascii ";" = (32 :: (ascii "max=" ++ Itoa l)) ++ 59 :: [] := by
        simp [ascii]
      have h59' : 59 ∉ 32 :: (ascii "max=" ++ Itoa l) := by
        simp [ascii, h59]
      simp only [hp, if_true, Bool.false_eq_true, if_false, parseTail]
      rw [e, readString_append 59 _ [] h59']
      simp only [TrimSuffix_semicolon, parseOptions_max _ hd, applyOptions, ne_eq, hne,
        not_false_eq_true, if_true, Atoi_Itoa l hp hl, not_true_eq_false, if_false]
    | true =>
      have e : ascii " max=" ++ Itoa l ++ ascii ",order=desc;"
          = (32 :: (ascii "max=" ++ Itoa l ++ ascii ",order=desc")) ++ 59 :: [] := by
        simp [ascii]
      have h59' : 59 ∉ 32 :: (ascii "max=" ++ Itoa l ++ ascii ",order=desc") := by
        simp [ascii, h59]
      simp only [hp, if_true, parseTail]
      rw [e, readString_append 59 _ [] h59']
      simp only [TrimSuffix_semicolon, parseOptions_max_desc _ hd, applyOptions, ne_eq, hne,
        not_false_eq_true, if_true, Atoi_Itoa l hp hl]
      simp [ascii]
  · cases d with
    | false => simp [hp, parseTail, readString]
    | true =>
      have e : parseTail r (ascii " order=desc;") = .ok { r with Desc := true } := by
        have h1 : readString 59 (ascii " order=desc;") = some (ascii " order=desc;", []) := by
          decide
        have h2 : parseOptions (TrimSuffix (ascii " order=desc;") (ascii ";"))
            = .ok ⟨[], ascii "desc"⟩ := by decide
        simp only [parseTail, h1, h2, applyOptions]
        simp [ascii]
      simp [hp, e]

/-! ## Dots in escaped text -/

set_option maxRecDepth 100000 in
theorem escapeByte_shape : ∀ c < 256,
    (c = 46 → escapeByte c = [46]) ∧ (c ≠ 46 → 46 ∉ escapeByte c) ∧ escapeByte c ≠ [] ∧
      ((escapeByte c).head? = some 126 ↔ c = 126) ∧
      (c = 126 → escapeByte c = [126]) := by
  decide

theorem hasDotDot_block (b X : GoString) (hb : 46 ∉ b) (hne : b ≠ []) :
    hasDotDot (b ++ X) = hasDotDot X := by
  induction b with
  | nil => exact absurd rfl hne
  | cons c t ih =>
    have hc : c ≠ 46 := fun e => hb (by simp [e])
    cases t with
    | nil =>
      cases X with
      | nil => rfl
      | cons x X' => simp [hasDotDot, hc]
    | cons d u =>
      have := ih (fun hm => hb (by simp [List.mem_cons] at hm ⊢; tauto)) (by simp)
      simp only [List.cons_append, hasDotDot, hc, decide_False, Bool.false_and, Bool.false_or]
      simpa using this

theorem hasDotDot_dot (X : GoString) :
    hasDotDot (46 :: X) = (decide (X.head? = some 46) || hasDotDot X) := by
  cases X with
  | nil => rfl
  | cons x X' => simp [hasDotDot]

theorem head_block (b X : GoString) (hne : b ≠ []) :
    (b ++ X).head? = b.head? := by
  cases b with
  | nil => exact absurd rfl hne
  | cons c t => rfl

theorem head_esc_dot (s t : GoString) (hs : IsBytes s) :
    ((QueryEscape s ++ t).head? = some 46) ↔ ((s ++ t).head? = some 46) := by
  cases s with
  | nil => simp [QueryEscape]
  | cons c u =>
    obtain ⟨h1, h2, h3, -, -⟩ := escapeByte_shape c (hs c (by simp))
    simp only [QueryEscape, List.append_assoc, List.cons_append, List.head?_cons,
      Option.some.injEq]
    by_cases hc : c = 46
    · rw [h1 hc]; simp [hc]
    · obtain ⟨x, v, hxv⟩ := List.exists_cons_of_ne_nil h3
      have hx : x ≠ 46 := by
        intro e
        apply h2 hc
        rw [hxv, e]; simp
      rw [hxv]; simp [hx, hc]

theorem hasDotDot_esc (s t : GoString) (hs : IsBytes s) :
    hasDotDot (QueryEscape s ++ t) = hasDotDot (s ++ t) := by
  induction s with
  | nil => rfl
  | cons c u ih =>
    have hu : IsBytes u := fun b hb => hs b (by simp [hb])
    obtain ⟨h1, h2, h3, -, -⟩ := escapeByte_shape c (hs c (by simp))
    simp only [QueryEscape, List.append_assoc, List.cons_append]
    by_cases hc : c = 46
    · rw [h1 hc, hc]
      simp only [List.singleton_append, hasDotDot_dot, ih hu]
      congr 1
      exact decide_eq_decide.mpr (head_esc_dot u t hu)
    · rw [hasDotDot_block _ _ (h2 hc) h3, ih hu]
      have := hasDotDot_block [c] (u ++ t) (by simpa using fun e : 46 = c => hc e.symm) (by simp)
      simpa using this.symm

theorem head_esc_tilde (s : GoString) (hs : IsBytes s) :
    ((QueryEscape s).head? = some 126) ↔ (s.head? = some 126) := by
  cases s with
  | nil => simp [QueryEscape]
  | cons c u =>
    obtain ⟨-, -, h3, h4, -⟩ := escapeByte_shape c (hs c (by simp))
    simp only [QueryEscape, List.head?_cons, Option.some.injEq]
    rw [head_block _ _ h3]
    exact h4

/-! ## Parsing a header clause by clause -/

theorem parseRange_clause (b rest : GoString) (hb : 59 ∉ b) :
    parseRange (b ++ 59 :: rest) =
      match parseProperty b with
      | .error e => .error e
      | .ok p =>
        match decodeProperty p with
        | .error e => .error e
        | .ok r => parseTail r rest := by
  simp only [parseRange, readString_append 59 b rest hb, TrimSuffix_semicolon]

theorem parseProperty_two (t1 t2 : GoString) (h1 : ∀ c ∈ t1, wordByte c = true)
    (h1ne : t1 ≠ []) (h1len : t1.length < MaxScanTokenSize)
    (h2 : ∀ c ∈ t2, wordByte c = true) (h2ne : t2 ≠ []) (h2len : t2.length < MaxScanTokenSize) :
    parseProperty (t1 ++ 32 :: t2) =
      if (Split t2 (ascii "..")).length > 2 then .error .InvalidFormat
      else .ok ⟨t1, (Split t2 (ascii "..")).getD 0 [],
        if (Split t2 (ascii "..")).length = 2 then (Split t2 (ascii "..")).getD 1 [] else []⟩ := by
  simp only [parseProperty, scanWord_word_space t1 t2 h1 h1ne h1len,
    scanWord_word_end t2 h2 h2ne h2len]

theorem boundsText_words (d : Range) (hs : IsBytes d.Start) (he : IsBytes d.End) :
    (∀ c ∈ boundsText d, wordByte c = true) ∧ 59 ∉ boundsText d ∧ boundsText d ≠ [] := by
  have hS := QueryEscape_escByte d.Start hs
  have hE := QueryEscape_escByte d.End he
  have key : ∀ c ∈ boundsText d, escByte c = true := by
    intro c hc
    unfold boundsText at hc
    simp only [List.mem_append, List.mem_cons, List.mem_singleton, List.not_mem_nil,
      or_false] at hc
    rcases hc with (hc | hc) | hc
    · split_ifs at hc with h1 h2
      · simp only [List.singleton_append, List.mem_cons] at hc
        rcases hc with rfl | hc
        · decide
        · exact hS c hc
      · simp only [List.nil_append] at hc
        exact hS c hc
      · simp at hc
    · rcases hc with rfl | rfl <;> decide
    · exact hE c hc
  refine ⟨fun c hc => (escByte_facts c (key c hc)).1,
    fun hm => (escByte_facts 59 (key 59 hm)).2.1 rfl, ?_⟩
  unfold boundsText
  simp

theorem String_clause (d : Range) (hs : IsBytes d.Sort') (hst : IsBytes d.Start)
    (he : IsBytes d.End) : 59 ∉ QueryEscape d.Sort' ++ 32 :: boundsText d := by
  intro hm
  rcases List.mem_append.mp hm with h | h
  · exact (escByte_facts 59 (QueryEscape_escByte _ hs 59 h)).2.1 rfl
  · rcases List.mem_cons.mp h with h | h
    · revert h; decide
    · exact (boundsText_words d hst he).2.1 h

theorem ParseString_String_eq (d : Range) (hs : IsBytes d.Sort') (hst : IsBytes d.Start)
    (he : IsBytes d.End) (hne : d.Sort' ≠ [])
    (hlen1 : (QueryEscape d.Sort').length < MaxScanTokenSize)
    (hlen2 : (boundsText d).length < MaxScanTokenSize) :
    ParseString d.String =
      if (Split (boundsText d) (ascii "..")).length > 2 then .error .InvalidFormat
      else
        match decodeProperty ⟨QueryEscape d.Sort', (Split (boundsText d) (ascii "..")).getD 0 [],
          if (Split (boundsText d) (ascii "..")).length = 2 then
            (Split (boundsText d) (ascii "..")).getD 1 [] else []⟩ with
        | .error e => .error e
        | .ok r => parseTail r (optionsText d.Limit d.Desc) := by
  obtain ⟨hb1, hb2, hb3⟩ := boundsText_words d hst he
  have hsw : ∀ c ∈ QueryEscape d.Sort', wordByte c = true :=
    fun c hc => (escByte_facts c (QueryEscape_escByte _ hs c hc)).1
  have hsne : QueryEscape d.Sort' ≠ [] := fun e => hne ((QueryEscape_eq_nil _).mp e)
  have e : d.String = (QueryEscape d.Sort' ++ 32 :: boundsText d) ++
      59 :: optionsText d.Limit d.Desc := by
    rw [String_eq]; simp
  rw [ParseString, e, parseRange_clause _ _ (String_clause d hs hst he),
    parseProperty_two _ _ hsw hsne hlen1 hb1 hb3 hlen2]
  split_ifs <;> rfl

/-! ## Decoding what was encoded -/

theorem startText_dots (d : Range) (hst : IsBytes d.Start)
    (hd : hasDotDot (d.Start ++ [46]) = false) :
    hasDotDot (startText d ++ [46]) = false := by
  unfold startText
  split_ifs with h1 h2
  · rw [List.append_assoc, hasDotDot_block [126] _ (by decide) (by simp),
      hasDotDot_esc _ _ hst, hd]
  · rw [List.nil_append, hasDotDot_esc _ _ hst, hd]
  · rfl

theorem boundsText_eq (d : Range) :
    boundsText d = startText d ++ 46 :: 46 :: QueryEscape d.End := by
  simp [boundsText, startText]

theorem Split_boundsText (d : Range) (hst : IsBytes d.Start) (he : IsBytes d.End)
    (hd : hasDotDot (d.Start ++ [46]) = false) (hde : hasDotDot d.End = false) :
    Split (boundsText d) (ascii "..") = [startText d, QueryEscape d.End] := by
  rw [boundsText_eq]
  apply Split_dots_one _ _ (startText_dots d hst hd)
  have := hasDotDot_esc d.End [] he
  simp only [List.append_nil] at this
  rw [this, hde]

theorem decodeProperty_String (d : Range) (hs : IsBytes d.Sort') (hst : IsBytes d.Start)
    (he : IsBytes d.End) (hx : d.StartExclusive = true → d.Start ≠ [])
    (ht : d.StartExclusive = false → d.Start.head? ≠ some 126) :
    decodeProperty ⟨QueryEscape d.Sort', startText d, QueryEscape d.End⟩ =
      .ok { d with Limit := 0, Desc := false } := by
  have e1 := QueryUnescape_QueryEscape _ hs
  have e2 := QueryUnescape_QueryEscape _ hst
  have e3 := QueryUnescape_QueryEscape _ he
  have hE : (QueryEscape d.End).length > 0 ↔ d.End ≠ [] := by
    rw [gt_iff_lt, List.length_pos, ne_eq, ne_eq, QueryEscape_eq_nil]
  obtain ⟨so, st, sx, en, li, de⟩ := d
  simp only at *
  by_cases hs0 : st = []
  · subst hs0
    have hx' : sx = false := by
      cases sx with
      | false => rfl
      | true => exact absurd rfl (hx rfl)
    subst hx'
    by_cases he0 : en = []
    · subst he0
      simp [decodeProperty, startText, e1, QueryEscape, Range.zero]
    · have := hE.mpr he0
      simp [decodeProperty, startText, e1, e3, this, Range.zero]
  · have hS : (QueryEscape st).length > 0 := by
      rw [gt_iff_lt, List.length_pos, ne_eq, QueryEscape_eq_nil]; exact hs0
    have hS' : st.length > 0 := List.length_pos.mpr hs0
    cases sx with
    | true =>
      by_cases he0 : en = []
      · subst he0
        simp [decodeProperty, startText, e1, e2, hS', QueryEscape, Range.zero]
      · have := hE.mpr he0
        simp [decodeProperty, startText, e1, e2, e3, hS', this, Range.zero]
    | false =>
      have hh : ¬ (QueryEscape st).head? = some 126 := by
        rw [head_esc_tilde _ hst]; exact ht rfl
      by_cases he0 : en = []
      · subst he0
        simp [decodeProperty, startText, e1, e2, hS', hS, hh, QueryEscape, Range.zero]
      · have := hE.mpr he0
        simp [decodeProperty, startText, e1, e2, e3, hS', hS, hh, this, Range.zero]

theorem ParseString_String_core (d : Range) (hs : IsBytes d.Sort') (hst : IsBytes d.Start)
    (he : IsBytes d.End) (hint : d.Limit < 2 ^ 63) (hne : d.Sort' ≠ [])
    (hd : hasDotDot (d.Start ++ [46]) = false) (hde : hasDotDot d.End = false)
    (hx : d.StartExclusive = true → d.Start ≠ [])
    (ht : d.StartExclusive = false → d.Start.head? ≠ some 126)
    (hl : 0 ≤ d.Limit)
    (hlen1 : (QueryEscape d.Sort').length < MaxScanTokenSize)
    (hlen2 : (boundsText d).length < MaxScanTokenSize) :
    ParseString d.String = .ok d := by
  rw [ParseString_String_eq d hs hst he hne hlen1 hlen2, Split_boundsText d hst he hd hde]
  simp only [List.length_cons, List.length_nil, gt_iff_lt, lt_self_iff_false, if_false,
    List.getD_cons_zero, List.getD_cons_succ, Nat.reduceAdd, if_true,
    decodeProperty_String d hs hst he hx ht, parseTail_optionsText _ _ _ hint]
  obtain ⟨so, st, sx, en, li, de⟩ := d
  simp only at hl
  simp only [Range.mk.injEq, Except.ok.injEq, true_and]
  constructor
  · split_ifs <;> omega
  · cases de <;> rfl

/-! ## Inputs longer than the scanner's buffer -/

theorem scanWord_word_space_long (tok rest : GoString) (h : ∀ c ∈ tok, wordByte c = true)
    (hlen : MaxScanTokenSize ≤ tok.length) : scanWord (tok ++ 32 :: rest) = none := by
  have hne : tok ≠ [] := by
    intro e; subst e; simp [MaxScanTokenSize] at hlen
  obtain ⟨c, t, rfl⟩ := List.exists_cons_of_ne_nil hne
  have hs : skipSpaces ((c :: t) ++ 32 :: rest).length ((c :: t) ++ 32 :: rest)
      = (c :: t) ++ 32 :: rest := skipSpaces_word _ c _ (h c (by simp))
  have hfs := findSpace_word (c :: t) h (32 :: rest) ((c :: t) ++ 32 :: rest).length 0 (le_refl _)
  have hsub : ((c :: t) ++ 32 :: rest).length - (c :: t).length = rest.length + 1 := by
    simp only [List.length_append, List.length_cons]; omega
  rw [hsub, findSpace_space] at hfs
  simp only [scanWord, hs, hfs]
  rw [if_neg (by omega)]

theorem QueryEscape_plain (s : GoString) (h : ∀ c ∈ s, shouldEscape c = false) :
    QueryEscape s = s := by
  induction s with
  | nil => rfl
  | cons c t ih =>
    have hc := h c (by simp)
    have h32 : c ≠ 32 := by
      intro e; subst e; exact absurd hc (by decide)
    simp [QueryEscape, escapeByte, h32, hc, ih (fun x hx => h x (by simp [hx]))]

theorem replicate_a_plain (n : Nat) :
    (∀ c ∈ List.replicate n 97, shouldEscape c = false) ∧
      (∀ c ∈ List.replicate n 97, wordByte c = true) ∧ IsBytes (List.replicate n 97) := by
  refine ⟨?_, ?_, ?_⟩ <;> intro c hc <;> obtain ⟨-, rfl⟩ := List.mem_replicate.mp hc <;> decide

theorem hasDotDot_append_dot (s : GoString) :
    hasDotDot (s ++ [46]) = (hasDotDot s || decide (s.getLast? = some 46)) := by
  induction s with
  | nil => rfl
  | cons c t ih =>
    cases t with
    | nil => simp [hasDotDot]
    | cons d u =>
      have e : hasDotDot (c :: d :: u ++ [46])
          = (decide (c = 46) && decide (d = 46) || hasDotDot (d :: u ++ [46])) := rfl
      rw [e, ih]
      simp [hasDotDot, List.getLast?_cons_cons, Bool.or_assoc]

theorem ParseString_long_sort (n : Nat) (hn : MaxScanTokenSize ≤ n) :
    ParseString (Range.mk (List.replicate n 97) [] false [] 0 false).String
      = .error .InvalidFormat := by
  obtain ⟨h1, h2, h3⟩ := replicate_a_plain n
  have e : (Range.mk (List.replicate n 97) [] false [] 0 false).String
      = (List.replicate n 97 ++ 32 :: [46, 46]) ++ 59 :: [] := by
    rw [String_eq]
    simp [QueryEscape_plain _ h1, boundsText, optionsText, QueryEscape]
  have h59 : 59 ∉ List.replicate n 97 ++ 32 :: [46, 46] := by
    simp [List.mem_replicate]
  rw [ParseString, e, parseRange_clause _ _ h59]
  simp only [parseProperty, scanWord_word_space_long _ _ h2
    (by simpa [List.length_replicate] using hn)]

theorem ParseString_long_start (n : Nat) (hn : MaxScanTokenSize ≤ n) :
    ParseString (Range.mk (ascii "name") (List.replicate n 97) false [] 0 false).String
      = .ok ⟨ascii "name", [], false, [], 0, false⟩ := by
  obtain ⟨h1, h2, h3⟩ := replicate_a_plain n
  have hb := boundsText_words (Range.mk (ascii "name") (List.replicate n 97) false [] 0 false)
    h3 (fun b hb => absurd hb (List.not_mem_nil b))
  have e : (Range.mk (ascii "name") (List.replicate n 97) false [] 0 false).String
      = (ascii "name" ++ 32 :: boundsText
          (Range.mk (ascii "name") (List.replicate n 97) false [] 0 false)) ++ 59 :: [] := by
    rw [String_eq]
    have : QueryEscape (ascii "name") = ascii "name" := by decide
    simp [optionsText, this]
  have hlen : MaxScanTokenSize ≤ (boundsText
      (Range.mk (ascii "name") (List.replicate n 97) false [] 0 false)).length := by
    have hpos : 0 < n := by
      have : 0 < MaxScanTokenSize := by decide
      omega
    simp only [boundsText, List.length_replicate, gt_iff_lt, hpos, if_true, Bool.false_eq_true,
      if_false, List.nil_append, QueryEscape_plain _ h1, QueryEscape, List.append_nil,
      List.length_append, List.length_cons, List.length_nil]
    omega
  have h59 : 59 ∉ ascii "name" ++ 32 :: boundsText
      (Range.mk (ascii "name") (List.replicate n 97) false [] 0 false) := by
    intro hm
    rcases List.mem_append.mp hm with h | h
    · revert h; decide
    · rcases List.mem_cons.mp h with h | h
      · revert h; decide
      · exact hb.2.1 h
  rw [ParseString, e, parseRange_clause _ _ h59]
  simp only [parseProperty, scanWord_word_space (ascii "name") _ (by decide) (by decide)
    (by decide), scanWord_word_long _ hb.1 hlen]
  rfl

/-! ## Splitting escaped text -/

theorem splitAux_ne_nil (sep : GoString) (f : Nat) (s : GoString) : splitAux sep f s ≠ [] := by
  cases f with
  | zero => simp [splitAux]
  | succ n =>
    cases s with
    | nil => simp [splitAux]
    | cons c t =>
      simp only [splitAux]
      split_ifs
      · simp
      · split <;> simp

theorem splitAux_fuel (sep : GoString) (hsep : sep ≠ []) (f1 f2 : Nat) (s : GoString)
    (h1 : s.length ≤ f1) (h2 : s.length ≤ f2) : splitAux sep f1 s = splitAux sep f2 s := by
  induction f1 generalizing f2 s with
  | zero =>
    have : s = [] := List.length_eq_zero.mp (by omega)
    subst this
    cases f2 <;> rfl
  | succ n ih =>
    cases s with
    | nil => cases f2 <;> rfl
    | cons c t =>
      cases f2 with
      | zero => simp at h2
      | succ m =>
        have hl : 0 < sep.length := List.length_pos.mpr hsep
        simp only [splitAux]
        split_ifs
        · rw [ih m _ (by simp only [List.length_drop, List.length_cons] at *; omega)
            (by simp only [List.length_drop, List.length_cons] at *; omega)]
        · rw [ih m t (by simpa using h1) (by simpa using h2)]

theorem splitAux_cons_nomatch (sep : GoString) (c : Nat) (t : GoString) (f : Nat)
    (h : ¬ sep <+: c :: t) :
    splitAux sep (f + 1) (c :: t) = consHead [c] (splitAux sep f t) := by
  simp only [splitAux, h, if_false, consHead]
  split <;> simp_all

theorem splitAux_cons_match (sep : GoString) (c : Nat) (t : GoString) (f : Nat)
    (h : sep <+: c :: t) :
    splitAux sep (f + 1) (c :: t) = [] :: splitAux sep f ((c :: t).drop sep.length) := by
  simp only [splitAux, h, if_true]

theorem consHead_consHead (a b : GoString) (r : List GoString) (hr : r ≠ []) :
    consHead a (consHead b r) = consHead (a ++ b) r := by
  cases r with
  | nil => exact absurd rfl hr
  | cons p ps => simp [consHead]

theorem consHead_ne_nil (a : GoString) (r : List GoString) : consHead a r ≠ [] := by
  cases r <;> simp [consHead]

theorem dots_match_iff (s : GoString) :
    ([46, 46] <+: s) ↔ (s.head? = some 46 ∧ s.tail.head? = some 46) := by
  constructor
  · rintro ⟨u, rfl⟩
    simp
  · intro ⟨h1, h2⟩
    rcases s with _ | ⟨a, _ | ⟨b, u⟩⟩
    · simp at h1
    · simp at h2
    · simp at h1 h2
      subst h1 h2
      exact ⟨u, rfl⟩

theorem splitAux_block (blk X : GoString) (hb : 46 ∉ blk) (f : Nat)
    (hf : (blk ++ X).length ≤ f) :
    splitAux [46, 46] f (blk ++ X) = consHead blk (splitAux [46, 46] (f - blk.length) X) := by
  induction blk generalizing f with
  | nil =>
    have := splitAux_ne_nil [46, 46] f X
    rcases hr : splitAux [46, 46] f X with _ | ⟨p, ps⟩
    · exact absurd hr this
    · simp [consHead, hr]
  | cons c t ih =>
    cases f with
    | zero => simp at hf
    | succ n =>
      have hc : c ≠ 46 := fun e => hb (by simp [e])
      have hm : ¬ [46, 46] <+: c :: (t ++ X) := by
        rw [dots_match_iff]
        simp [hc]
      rw [List.cons_append, splitAux_cons_nomatch _ _ _ _ hm,
        ih (fun h => hb (by simp [h])) n (by simpa using hf),
        consHead_consHead _ _ _ (splitAux_ne_nil _ _ _)]
      simp

theorem splitAux_dot (X : GoString) (hX : X.head? ≠ some 46) (f : Nat)
    (hf : (46 :: X).length ≤ f) :
    splitAux [46, 46] f (46 :: X) = consHead [46] (splitAux [46, 46] (f - 1) X) := by
  cases f with
  | zero => simp at hf
  | succ n =>
    have hm : ¬ [46, 46] <+: 46 :: X := by
      rw [dots_match_iff]
      simpa using hX
    rw [splitAux_cons_nomatch _ _ _ _ hm]
    simp

theorem splitAux_esc (f : Nat) : ∀ (Y : GoString), Y.length ≤ f → IsBytes Y → ∀ f' : Nat,
    (QueryEscape Y).length ≤ f' →
    splitAux [46, 46] f' (QueryEscape Y) = (splitAux [46, 46] f Y).map QueryEscape := by
  induction f with
  | zero =>
    intro Y hY _ f' _
    have : Y = [] := List.length_eq_zero.mp (by omega)
    subst this
    cases f' <;> rfl
  | succ n ih =>
    intro Y hY hB f' hf'
    cases Y with
    | nil => cases f' <;> rfl
    | cons c t =>
      have hc : c < 256 := hB c (by simp)
      have ht : IsBytes t := fun b hb => hB b (by simp [hb])
      obtain ⟨h1, h2, h3, -, -⟩ := escapeByte_shape c hc
      by_cases hm : [46, 46] <+: c :: t
      · obtain ⟨u, hu⟩ := hm
        simp only [List.cons_append, List.cons.injEq, List.nil_append] at hu
        obtain ⟨rfl, rfl⟩ := hu
        have e : QueryEscape (46 :: 46 :: u) = 46 :: 46 :: QueryEscape u := by
          simp [QueryEscape, escapeByte, shouldEscape]
        have hu : IsBytes u := fun b hb => hB b (by simp [hb])
        rw [e] at hf' ⊢
        cases f' with
        | zero => simp at hf'
        | succ m =>
          rw [splitAux_cons_match _ _ _ _ ⟨_, rfl⟩, splitAux_cons_match _ _ _ _ ⟨_, rfl⟩]
          simp only [List.length_cons, List.length_nil, List.drop_succ_cons, List.drop_zero,
            List.map_cons]
          rw [ih u (by simp only [List.length_cons] at hY; omega) hu m
            (by simp only [List.length_cons] at hf'; omega)]
          rfl
      · rw [splitAux_cons_nomatch _ _ _ _ hm]
        have hrec := fun f'' (hf'' : (QueryEscape t).length ≤ f'') =>
          ih t (by simpa using hY) ht f'' hf''
        have hne := splitAux_ne_nil [46, 46] n t
        rcases hr : splitAux [46, 46] n t with _ | ⟨p, ps⟩
        · exact absurd hr hne
        · rw [hr] at hrec
          simp only [QueryEscape] at hf' ⊢
          by_cases hc46 : c = 46
          · subst hc46
            have hh : (QueryEscape t).head? ≠ some 46 := by
              intro hq
              have := (head_esc_dot t [] ht).mp (by simpa using hq)
              apply hm
              rw [dots_match_iff]
              simpa using this
            have e46 : escapeByte 46 = [46] := h1 rfl
            rw [e46] at hf' ⊢
            rw [List.singleton_append, splitAux_dot _ hh _ (by simpa using hf'),
              hrec _ (by simp only [List.singleton_append, List.length_cons] at hf'; omega)]
            simp [consHead, QueryEscape, e46]
          · rw [splitAux_block _ _ (h2 hc46) _ hf',
              hrec _ (by simp only [List.length_append] at hf'; omega)]
            simp [consHead, QueryEscape]

theorem Split_esc (Y : GoString) (hB : IsBytes Y) :
    Split (QueryEscape Y) (ascii "..") = (Split Y (ascii "..")).map QueryEscape :=
  splitAux_esc (Y.length + 1) Y (by omega) hB _ (by omega)

theorem QueryEscape_nil : QueryEscape [] = [] := rfl

theorem Join_cons (a : GoString) (r : List GoString) (sep : GoString) (hr : r ≠ []) :
    Join (a :: r) sep = a ++ sep ++ Join r sep := by
  cases r with
  | nil => exact absurd rfl hr
  | cons b t => rfl

theorem Join_consHead (c : Nat) (r : List GoString) (sep : GoString) (hr : r ≠ []) :
    Join (consHead [c] r) sep = c :: Join r sep := by
  rcases r with _ | ⟨p, _ | ⟨q, t⟩⟩
  · exact absurd rfl hr
  · rfl
  · simp [consHead, Join]

theorem Join_splitAux (sep : GoString) (hsep : sep ≠ []) (f : Nat) (s : GoString)
    (hf : s.length ≤ f) : Join (splitAux sep f s) sep = s := by
  have hl : 0 < sep.length := List.length_pos.mpr hsep
  induction f generalizing s with
  | zero =>
    have : s = [] := List.length_eq_zero.mp (by omega)
    subst this
    rfl
  | succ n ih =>
    cases s with
    | nil => rfl
    | cons c t =>
      by_cases hm : sep <+: c :: t
      · rw [splitAux_cons_match _ _ _ _ hm, Join_cons _ _ _ (splitAux_ne_nil _ _ _),
          ih _ (by simp only [List.length_drop, List.length_cons] at *; omega)]
        obtain ⟨u, hu⟩ := hm
        rw [← hu]
        simp
      · rw [splitAux_cons_nomatch _ _ _ _ hm, Join_consHead _ _ _ (splitAux_ne_nil _ _ _),
          ih t (by simpa using hf)]

theorem Split_two (s a b : GoString) (h : Split s (ascii "..") = [a, b]) :
    s = a ++ 46 :: 46 :: b := by
  have := Join_splitAux (ascii "..") (by decide) (s.length + 1) s (by omega)
  unfold Split at h
  rw [h] at this
  rw [← this]
  simp [Join, ascii]

theorem boundsText_esc (d : Range) : boundsText d = QueryEscape (rawBounds d) := by
  unfold boundsText rawBounds
  have e1 : QueryEscape [46, 46] = [46, 46] := by decide
  have e2 : QueryEscape [126] = [126] := by decide
  rw [QueryEscape_append, QueryEscape_append, e1]
  split_ifs
  · rw [QueryEscape_append, e2]
  · rw [QueryEscape_append]; rfl
  · rfl

theorem rawBounds_bytes (d : Range) (hst : IsBytes d.Start) (he : IsBytes d.End) :
    IsBytes (rawBounds d) := by
  intro b hb
  unfold rawBounds at hb
  simp only [List.mem_append, List.mem_cons, List.mem_singleton, List.not_mem_nil,
    or_false] at hb
  rcases hb with (hb | hb) | hb
  · split_ifs at hb
    · simp only [List.singleton_append, List.mem_cons] at hb
      rcases hb with rfl | hb
      · decide
      · exact hst b hb
    · exact hst b (by simpa using hb)
    · simp at hb
  · rcases hb with rfl | rfl <;> decide
  · exact he b hb

/-- The range `parseRange` builds from the start spec `y1` and end spec `y2`
before it reads the options. -/
theorem decodeProperty_esc (so y1 y2 : GoString) (hs : IsBytes so) (h1 : IsBytes y1)
    (h2 : IsBytes y2) :
    decodeProperty ⟨QueryEscape so, QueryEscape y1, QueryEscape y2⟩ =
      .ok ⟨so, if y1.head? = some 126 then y1.tail else y1, decide (y1.head? = some 126),
        y2, 0, false⟩ := by
  have e1 := QueryUnescape_QueryEscape _ hs
  have e2 := QueryUnescape_QueryEscape _ h1
  have e3 := QueryUnescape_QueryEscape _ h2
  have hE : (QueryEscape y2).length > 0 ↔ y2 ≠ [] := by
    rw [gt_iff_lt, List.length_pos, ne_eq, ne_eq, QueryEscape_eq_nil]
  have key : (if (QueryEscape y2).length > 0 then
        (match QueryUnescape (QueryEscape y2) with
          | .error e => (Except.error e : Except Error GoString)
          | .ok en => .ok en)
      else .ok []) = .ok y2 := by
    by_cases h : y2 = []
    · subst h; rfl
    · simp [hE.mpr h, e3]
  rcases y1 with _ | ⟨c, u⟩
  · by_cases h : y2 = []
    · subst h
      simp [decodeProperty, e1, QueryEscape, Range.zero]
    · have := hE.mpr h
      simp [decodeProperty, e1, e3, QueryEscape, Range.zero, this]
  · have hu : IsBytes u := fun b hb => h1 b (by simp [hb])
    have e4 := QueryUnescape_QueryEscape _ hu
    obtain ⟨-, -, h3, h4, h5⟩ := escapeByte_shape c (h1 c (by simp))
    have hpos : (QueryEscape (c :: u)).length > 0 := by
      rw [gt_iff_lt, List.length_pos, ne_eq, QueryEscape_eq_nil]; simp
    by_cases hc : c = 126
    · subst hc
      have e5 : QueryEscape (126 :: u) = 126 :: QueryEscape u := by
        simp [QueryEscape, h5 rfl]
      by_cases h : y2 = []
      · subst h
        simp [decodeProperty, e1, e4, e5, QueryEscape_nil, Range.zero]
      · have := hE.mpr h
        simp [decodeProperty, e1, e3, e4, e5, Range.zero, this]
    · have hh : ¬ (QueryEscape (c :: u)).head? = some 126 := by
        rw [head_esc_tilde _ h1]; simpa using hc
      by_cases h : y2 = []
      · subst h
        simp [decodeProperty, e1, e2, hpos, hh, hc, Range.zero]
        simp [QueryEscape]
      · have := hE.mpr h
        simp [decodeProperty, e1, e2, e3, hpos, hh, hc, Range.zero, this]

theorem optionsText_norm (l : Int) (d : Bool) :
    optionsText (if l > 0 then l else 0) (if d then true else false) = optionsText l d := by
  unfold optionsText
  by_cases h : l > 0 <;> cases d <;> simp [h]

theorem rawBounds_decoded (so y1 y2 : GoString) (l : Int) (de : Bool) (h : y1 ≠ [126]) :
    rawBounds ⟨so, if y1.head? = some 126 then y1.tail else y1, decide (y1.head? = some 126),
      y2, l, de⟩ = y1 ++ 46 :: 46 :: y2 := by
  rcases y1 with _ | ⟨c, u⟩
  · simp [rawBounds]
  · by_cases hc : c = 126
    · subst hc
      have hu : u ≠ [] := fun e => h (by rw [e])
      have hp : 0 < u.length := List.length_pos.mpr hu
      simp [rawBounds, hp]
    · simp [rawBounds, hc]

theorem ParseString_canonical_core (d : Range) (hs : IsBytes d.Sort') (hst : IsBytes d.Start)
    (he : IsBytes d.End) (hint : d.Limit < 2 ^ 63) (hne : d.Sort' ≠ [])
    (h2 : (Split (boundsText d) (ascii "..")).length = 2)
    (h1 : (Split (boundsText d) (ascii "..")).head? ≠ some (ascii "~"))
    (hlen1 : (QueryEscape d.Sort').length < MaxScanTokenSize)
    (hlen2 : (boundsText d).length < MaxScanTokenSize) :
    ∃ r, ParseString d.String = .ok r ∧ r.String = d.String := by
  have hY := rawBounds_bytes d hst he
  have hsp := Split_esc (rawBounds d) hY
  rw [← boundsText_esc] at hsp
  rw [hsp] at h1 h2
  rw [List.length_map] at h2
  obtain ⟨y1, y2, hy⟩ : ∃ y1 y2, Split (rawBounds d) (ascii "..") = [y1, y2] := by
    rcases hq : Split (rawBounds d) (ascii "..") with _ | ⟨a, _ | ⟨b, _ | ⟨c, t⟩⟩⟩ <;>
      rw [hq] at h2 <;> simp at h2
    exact ⟨a, b, rfl⟩
  have hYeq := Split_two _ _ _ hy
  have hy1 : IsBytes y1 := fun b hb => hY b (by rw [hYeq]; simp [hb])
  have hy2 : IsBytes y2 := fun b hb => hY b (by rw [hYeq]; simp [hb])
  have hy1ne : y1 ≠ [126] := by
    intro e
    apply h1
    rw [hy, e]
    rfl
  refine ⟨⟨d.Sort', if y1.head? = some 126 then y1.tail else y1, decide (y1.head? = some 126),
    y2, if d.Limit > 0 then d.Limit else 0, if d.Desc then true else false⟩, ?_, ?_⟩
  · rw [ParseString_String_eq d hs hst he hne hlen1 hlen2, hsp, hy]
    simp only [List.map_cons, List.map_nil, List.length_cons, List.length_nil, gt_iff_lt,
      lt_self_iff_false, if_false, List.getD_cons_zero, List.getD_cons_succ, Nat.reduceAdd,
      if_true, decodeProperty_esc _ _ _ hs hy1 hy2, parseTail_optionsText _ _ _ hint]
  · rw [String_eq, String_eq d, boundsText_esc, boundsText_esc d, rawBounds_decoded _ _ _ _ _ hy1ne,
      ← hYeq]
    simp only [optionsText_norm]

/-! ## The marker byte -/

theorem escapeByte_head_tilde (c : Nat) : (escapeByte c).head? = some 126 ↔ c = 126 := by
  unfold escapeByte
  by_cases h32 : c = 32
  · subst h32; simp
  · by_cases hsh : shouldEscape c = true
    · have : c ≠ 126 := by
        intro e; subst e; exact absurd hsh (by decide)
      simp [h32, hsh, this]
    · simp [h32, hsh]

theorem QueryEscape_head_tilde (s : GoString) :
    (QueryEscape s).head? = some 126 ↔ s.head? = some 126 := by
  cases s with
  | nil => simp [QueryEscape]
  | cons c u =>
    have hne : escapeByte c ≠ [] := by
      unfold escapeByte; split_ifs <;> simp
    simp only [QueryEscape, List.head?_cons, Option.some.injEq]
    rw [head_block _ _ hne]
    exact escapeByte_head_tilde c

/-! ## The options clause -/

theorem splitAux_single_length (x : Nat) (f : Nat) (t : GoString) (hf : t.length ≤ f) :
    (splitAux [x] f t).length = t.count x + 1 := by
  induction f generalizing t with
  | zero =>
    have : t = [] := List.length_eq_zero.mp (by omega)
    subst this
    rfl
  | succ n ih =>
    cases t with
    | nil => rfl
    | cons c u =>
      by_cases hm : [x] <+: c :: u
      · have hc : c = x := by
          obtain ⟨v, hv⟩ := hm
          simp at hv
          exact hv.1.symm
        rw [splitAux_cons_match _ _ _ _ hm]
        simp only [List.length_cons, List.length_nil, List.drop_succ_cons, List.drop_zero]
        rw [ih u (by simpa using hf), hc]
        simp
      · have hc : c ≠ x := by
          intro e
          exact hm ⟨u, by simp [e]⟩
        rw [splitAux_cons_nomatch _ _ _ _ hm]
        have hne := splitAux_ne_nil [x] n u
        rcases hr : splitAux [x] n u with _ | ⟨p, ps⟩
        · exact absurd hr hne
        · have := ih u (by simpa using hf)
          rw [hr] at this
          simp only [consHead, List.length_cons] at this ⊢
          rw [this, List.count_cons_of_ne (Ne.symm hc)]

theorem splitAux_single_head (x : Nat) (f : Nat) (t : GoString) (hf : t.length ≤ f) :
    (splitAux [x] f t).getD 0 [] = t.takeWhile (fun c => decide (c ≠ x)) := by
  induction f generalizing t with
  | zero =>
    have : t = [] := List.length_eq_zero.mp (by omega)
    subst this
    rfl
  | succ n ih =>
    cases t with
    | nil => rfl
    | cons c u =>
      by_cases hm : [x] <+: c :: u
      · have hc : c = x := by
          obtain ⟨v, hv⟩ := hm
          simp at hv
          exact hv.1.symm
        rw [splitAux_cons_match _ _ _ _ hm]
        simp [hc]
      · have hc : c ≠ x := by
          intro e
          exact hm ⟨u, by simp [e]⟩
        rw [splitAux_cons_nomatch _ _ _ _ hm]
        have hne := splitAux_ne_nil [x] n u
        rcases hr : splitAux [x] n u with _ | ⟨p, ps⟩
        · exact absurd hr hne
        · have := ih u (by simpa using hf)
          rw [hr] at this
          simp only [List.getD_cons_zero] at this
          simp [consHead, hc, this]

theorem parseOption_error (o : options) (tok : GoString) (e : Error)
    (h : parseOption o tok = .error e) : e = .InvalidFormat := by
  simp only [parseOption] at h
  split_ifs at h <;> cases h <;> rfl

theorem parseOptionsLoop_error (o : options) (toks : List GoString) (e : Error)
    (h : parseOptionsLoop o toks = .error e) : e = .InvalidFormat := by
  induction toks generalizing o with
  | nil => cases h
  | cons t ts ih =>
    simp only [parseOptionsLoop] at h
    rcases hq : parseOption o t with e' | o1
    · rw [hq] at h
      cases h
      exact parseOption_error o t _ hq
    · rw [hq] at h
      exact ih o1 h

/-- The option token has no single `=`, or its key is neither `max` nor `order`. -/
theorem parseOption_bad (o : options) (tok : GoString)
    (h : (TrimSpace tok).count 61 ≠ 1 ∨
      ((TrimSpace tok).takeWhile (fun c => decide (c ≠ 61)) ≠ ascii "max" ∧
        (TrimSpace tok).takeWhile (fun c => decide (c ≠ 61)) ≠ ascii "order")) :
    parseOption o tok = .error .InvalidFormat := by
  have hl : (Split (TrimSpace tok) (ascii "=")).length = (TrimSpace tok).count 61 + 1 :=
    splitAux_single_length 61 _ _ (by omega)
  have hh : (Split (TrimSpace tok) (ascii "=")).getD 0 []
      = (TrimSpace tok).takeWhile (fun c => decide (c ≠ 61)) :=
    splitAux_single_head 61 _ _ (by omega)
  simp only [parseOption]
  by_cases h2 : (Split (TrimSpace tok) (ascii "=")).length ≠ 2
  · rw [if_pos h2]
  · have hc : (TrimSpace tok).count 61 = 1 := by
      have : (Split (TrimSpace tok) (ascii "=")).length = 2 := not_not.mp h2
      omega
    rcases h with h | ⟨h3, h4⟩
    · exact absurd hc h
    · rw [← hh] at h3 h4
      rw [if_neg h2, if_neg h3, if_neg h4]

theorem parseOptionsLoop_bad (o : options) (toks : List GoString)
    (h : ∃ tok ∈ toks, ∀ o', parseOption o' tok = .error .InvalidFormat) :
    parseOptionsLoop o toks = .error .InvalidFormat := by
  induction toks generalizing o with
  | nil =>
    obtain ⟨tok, hm, -⟩ := h
    cases hm
  | cons t ts ih =>
    obtain ⟨tok, hm, hbad⟩ := h
    simp only [parseOptionsLoop]
    rcases hq : parseOption o t with e' | o1
    · rw [parseOption_error o t _ hq]
    · rcases List.mem_cons.mp hm with rfl | hm'
      · rw [hbad o] at hq
        cases hq
      · exact ih o1 ⟨tok, hm', hbad⟩

theorem parseTail_clause (r : Range) (o x : GoString) (ho : 59 ∉ o) :
    parseTail r (o ++ 59 :: x) =
      match parseOptions o with
      | .error e => .error e
      | .ok opts => applyOptions r opts := by
  simp only [parseTail, readString_append 59 o x ho, TrimSuffix_semicolon]

theorem ParseString_clauses (b o x : GoString) (hb : 59 ∉ b) (ho : 59 ∉ o) (p : property)
    (r : Range) (hp : parseProperty b = .ok p) (hr : decodeProperty p = .ok r) :
    ParseString (b ++ 59 :: (o ++ 59 :: x)) =
      match parseOptions o with
      | .error e => .error e
      | .ok opts => applyOptions r opts := by
  rw [ParseString, parseRange_clause b _ hb, hp]
  simp only [hr]
  exact parseTail_clause r o x ho

theorem parseOption_ok (o o1 : options) (t : GoString) (h : parseOption o t = .ok o1) :
    ∃ v, (o1 = { o with max := v } ∧ TrimSpace t = ascii "max=" ++ v) ∨
      (o1 = { o with order := v } ∧ TrimSpace t = ascii "order=" ++ v) := by
  have hj := Join_splitAux (ascii "=") (by decide) ((TrimSpace t).length + 1) (TrimSpace t)
    (by omega)
  simp only [parseOption] at h
  by_cases h2 : (Split (TrimSpace t) (ascii "=")).length ≠ 2
  · rw [if_pos h2] at h
    cases h
  · rw [if_neg h2] at h
    obtain ⟨k, v, hkv⟩ : ∃ k v, Split (TrimSpace t) (ascii "=") = [k, v] := by
      rcases hq : Split (TrimSpace t) (ascii "=") with _ | ⟨a, _ | ⟨b, _ | ⟨c, u⟩⟩⟩ <;>
        rw [hq] at h2 <;> simp at h2
      exact ⟨a, b, rfl⟩
    have hj' : TrimSpace t = k ++ ascii "=" ++ v := by
      unfold Split at hkv
      rw [hkv] at hj
      exact hj.symm
    rw [hkv] at h
    simp only [List.getD_cons_zero, List.getD_cons_succ] at h
    refine ⟨v, ?_⟩
    by_cases hk : k = ascii "max"
    · rw [if_pos hk] at h
      left
      refine ⟨(Except.ok.inj h).symm, ?_⟩
      rw [hj', hk]
      rfl
    · rw [if_neg hk] at h
      by_cases hk2 : k = ascii "order"
      · rw [if_pos hk2] at h
        right
        refine ⟨(Except.ok.inj h).symm, ?_⟩
        rw [hj', hk2]
        rfl
      · rw [if_neg hk2] at h
        cases h

theorem parseOptionsLoop_keep_max (o opts : options) (post : List GoString)
    (hp : ∀ t ∈ post, ¬ ascii "max=" <+: TrimSpace t)
    (h : parseOptionsLoop o post = .ok opts) : opts.max = o.max := by
  induction post generalizing o with
  | nil =>
    cases h
    rfl
  | cons t ts ih =>
    simp only [parseOptionsLoop] at h
    rcases hq : parseOption o t with e | o1
    · rw [hq] at h
      cases h
    · rw [hq] at h
      have := ih o1 (fun u hu => hp u (by simp [hu])) h
      rw [this]
      obtain ⟨v, ⟨-, hv⟩ | ⟨rfl, -⟩⟩ := parseOption_ok o o1 t hq
      · exact absurd ⟨v, hv.symm⟩ (hp t (by simp))
      · rfl

theorem parseOptionsLoop_keep_order (o opts : options) (post : List GoString)
    (hp : ∀ t ∈ post, ¬ ascii "order=" <+: TrimSpace t)
    (h : parseOptionsLoop o post = .ok opts) : opts.order = o.order := by
  induction post generalizing o with
  | nil =>
    cases h
    rfl
  | cons t ts ih =>
    simp only [parseOptionsLoop] at h
    rcases hq : parseOption o t with e | o1
    · rw [hq] at h
      cases h
    · rw [hq] at h
      have := ih o1 (fun u hu => hp u (by simp [hu])) h
      rw [this]
      obtain ⟨v, ⟨rfl, -⟩ | ⟨-, hv⟩⟩ := parseOption_ok o o1 t hq
      · rfl
      · exact absurd ⟨v, hv.symm⟩ (hp t (by simp))

theorem parseOptionsLoop_last_max (o opts : options) (pre post : List GoString)
    (tok v : GoString) (ht : TrimSpace tok = ascii "max=" ++ v)
    (hp : ∀ t ∈ post, ¬ ascii "max=" <+: TrimSpace t)
    (h : parseOptionsLoop o (pre ++ tok :: post) = .ok opts) : opts.max = v := by
  induction pre generalizing o with
  | nil =>
    simp only [List.nil_append, parseOptionsLoop] at h
    rcases hq : parseOption o tok with e | o1
    · rw [hq] at h
      cases h
    · rw [hq] at h
      rw [parseOptionsLoop_keep_max o1 opts post hp h]
      obtain ⟨v', ⟨rfl, hv⟩ | ⟨-, hv⟩⟩ := parseOption_ok o o1 tok hq
      · rw [ht] at hv
        exact (List.append_cancel_left hv).symm
      · rw [ht] at hv
        have := congrArg List.head? hv
        simp [ascii] at this
  | cons t ts ih =>
    simp only [List.cons_append, parseOptionsLoop] at h
    rcases hq : parseOption o t with e | o1
    · rw [hq] at h
      cases h
    · rw [hq] at h
      exact ih o1 h

theorem parseOptionsLoop_last_order (o opts : options) (pre post : List GoString)
    (tok v : GoString) (ht : TrimSpace tok = ascii "order=" ++ v)
    (hp : ∀ t ∈ post, ¬ ascii "order=" <+: TrimSpace t)
    (h : parseOptionsLoop o (pre ++ tok :: post) = .ok opts) : opts.order = v := by
  induction pre generalizing o with
  | nil =>
    simp only [List.nil_append, parseOptionsLoop] at h
    rcases hq : parseOption o tok with e | o1
    · rw [hq] at h
      cases h
    · rw [hq] at h
      rw [parseOptionsLoop_keep_order o1 opts post hp h]
      obtain ⟨v', ⟨-, hv⟩ | ⟨rfl, hv⟩⟩ := parseOption_ok o o1 tok hq
      · rw [ht] at hv
        have := congrArg List.head? hv
        simp [ascii] at this
      · rw [ht] at hv
        exact (List.append_cancel_left hv).symm
  | cons t ts ih =>
    simp only [List.cons_append, parseOptionsLoop] at h
    rcases hq : parseOption o t with e | o1
    · rw [hq] at h
      cases h
    · rw [hq] at h
      exact ih o1 h

theorem applyOptions_error (r : Range) (o : options) (e : Error)
    (h : applyOptions r o = .error e) : e = .InvalidFormat := by
  simp only [applyOptions] at h
  split at h
  · rename_i e' he
    split_ifs at he <;> (try split at he) <;> (try cases he) <;> (try cases h) <;> (try rfl)
  · split_ifs at h <;> cases h <;> rfl

theorem applyOptions_bad_max (r : Range) (o : options) (hv : o.max ≠ [])
    (ha : Atoi o.max = none) : applyOptions r o = .error .InvalidFormat := by
  simp only [applyOptions, ne_eq, hv, not_false_eq_true, if_true, ha]

theorem applyOptions_bad_order (r : Range) (o : options) (hv : o.order ≠ [])
    (h1 : o.order ≠ ascii "asc") (h2 : o.order ≠ ascii "desc") :
    applyOptions r o = .error .InvalidFormat := by
  rcases hq : applyOptions r o with e | r1
  · rw [applyOptions_error r o e hq]
  · exfalso
    simp only [applyOptions] at hq
    split at hq
    · cases hq
    · rw [if_pos hv, if_neg h2, if_neg h1] at hq
      cases hq

/-! ## A bounds token longer than the scanner's buffer -/

theorem hasDotDot_plain (s : GoString) (h : 46 ∉ s) : hasDotDot s = false := by
  rcases s with _ | ⟨c, t⟩
  · rfl
  · have := hasDotDot_block (c :: t) [] h (by simp)
    simpa using this

theorem Split_three (a b c : GoString) (ha : 46 ∉ a) (hb : 46 ∉ b) (hc : 46 ∉ c) :
    Split (a ++ 46 :: 46 :: (b ++ 46 :: 46 :: c)) (ascii "..") = [a, b, c] := by
  have e : ascii ".." = [46, 46] := rfl
  have hda : hasDotDot (a ++ [46]) = false := by
    rw [hasDotDot_append_dot, hasDotDot_plain a ha]
    simp only [Bool.false_or, decide_eq_false_iff_not]
    intro h
    exact ha (List.mem_of_mem_getLast? h)
  have hdb : hasDotDot (b ++ [46]) = false := by
    rw [hasDotDot_append_dot, hasDotDot_plain b hb]
    simp only [Bool.false_or, decide_eq_false_iff_not]
    intro h
    exact hb (List.mem_of_mem_getLast? h)
  rw [e]
  unfold Split
  rw [splitAux_dots a _ hda _ (by omega), splitAux_dots b c hdb _ (by
      simp only [List.length_append, List.length_cons]; omega),
    splitAux_dots_none c (hasDotDot_plain c hc) _ (by
      simp only [List.length_append, List.length_cons]; omega)]

theorem ParseString_long_bounds (n : Nat) (hn : MaxScanTokenSize ≤ 7 + n) :
    (Split (ascii "a..b..c" ++ List.replicate n 120) (ascii "..")).length = 3 ∧
      ParseString (ascii "name " ++ (ascii "a..b..c" ++ List.replicate n 120) ++ ascii ";")
        = .ok ⟨ascii "name", [], false, [], 0, false⟩ := by
  have hx : ∀ c ∈ List.replicate n 120, c = 120 := fun c hc => (List.mem_replicate.mp hc).2
  constructor
  · have e : ascii "a..b..c" ++ List.replicate n 120
        = [97] ++ 46 :: 46 :: ([98] ++ 46 :: 46 :: (99 :: List.replicate n 120)) := rfl
    rw [e, Split_three [97] [98] _ (by decide) (by decide) (by
      intro h
      rcases List.mem_cons.mp h with h | h
      · cases h
      · cases hx 46 h)]
    rfl
  · have hw : ∀ c ∈ ascii "a..b..c" ++ List.replicate n 120, wordByte c = true := by
      intro c hc
      rcases List.mem_append.mp hc with h | h
      · have hall : ∀ y ∈ ascii "a..b..c", wordByte y = true := by decide
        exact hall c h
      · rw [hx c h]; decide
    have h59 : 59 ∉ ascii "name" ++ 32 :: (ascii "a..b..c" ++ List.replicate n 120) := by
      intro hm
      rcases List.mem_append.mp hm with h | h
      · revert h; decide
      · rcases List.mem_cons.mp h with h | h
        · cases h
        · rcases List.mem_append.mp h with h | h
          · revert h; decide
          · cases hx 59 h
    have e : ascii "name " ++ (ascii "a..b..c" ++ List.replicate n 120) ++ ascii ";"
        = (ascii "name" ++ 32 :: (ascii "a..b..c" ++ List.replicate n 120)) ++ 59 :: [] := by
      simp [ascii]
    have hlen : MaxScanTokenSize ≤ (ascii "a..b..c" ++ List.replicate n 120).length := by
      simp only [List.length_append, List.length_replicate]
      exact hn
    rw [ParseString, e, parseRange_clause _ _ h59]
    simp only [parseProperty, scanWord_word_space (ascii "name") _ (by decide) (by decide)
      (by decide), scanWord_word_long _ hw hlen]
    rfl

/-- The check C8 describes, on a bounds token the scanner delivers: when the
second `Scan` of the bounds clause returns a token that splits at `..` into
more than two parts, `ParseString` returns `InvalidFormat`. -/
theorem ParseString_many_separators (b rest t1 r1 t2 r2 : GoString) (hb : 59 ∉ b)
    (h1 : scanWord b = some (t1, r1)) (h2 : scanWord r1 = some (t2, r2))
    (h3 : (Split t2 (ascii "..")).length > 2) :
    ParseString (b ++ 59 :: rest) = .error .InvalidFormat := by
  rw [ParseString, parseRange_clause b rest hb]
  simp only [parseProperty, h1, h2, h3, if_true]

/-! ## Segments after the bounds clause -/

theorem parseTail_unterminated (r : Range) (t : GoString) (ht : 59 ∉ t) :
    parseTail r t = .ok r := by
  simp only [parseTail, readString_none 59 t ht]

theorem parseRange_unterminated (b t : GoString) (hb : 59 ∉ b) (ht : 59 ∉ t) :
    parseRange (b ++ 59 :: t) = parseRange (b ++ [59]) := by
  rw [parseRange_clause b t hb, parseRange_clause b [] hb]
  rcases parseProperty b with e | p
  · rfl
  · dsimp only
    rcases decodeProperty p with e | r
    · rfl
    · simp only [parseTail_unterminated r t ht, parseTail_unterminated r [] (by simp)]

theorem parseRange_third_segment (b o x : GoString) (hb : 59 ∉ b) (ho : 59 ∉ o) :
    parseRange (b ++ 59 :: (o ++ 59 :: x)) = parseRange (b ++ 59 :: (o ++ [59])) := by
  rw [parseRange_clause b _ hb, parseRange_clause b _ hb]
  rcases parseProperty b with e | p
  · rfl
  · dsimp only
    rcases decodeProperty p with e | r
    · rfl
    · simp only [parseTail_clause r o x ho, parseTail_clause r o [] ho]

/-! ## White space trimmed away -/

theorem spaceRunes_head (w : GoString) (h : w ∈ spaceRunes) :
    (∃ c, w = [c] ∧ c < 128 ∧ asciiSpace c = true) ∨
      (∃ c t, w = c :: t ∧ 128 ≤ c) := by
  simp only [spaceRunes, List.mem_cons, List.mem_singleton, List.not_mem_nil, or_false] at h
  rcases h with h | h | h | h | h | h | h | h | h | h | h | h | h | h | h | h | h | h | h |
    h | h | h | h | h | h <;> subst h <;> simp [asciiSpace]

theorem spaceRunes_no_delim (w : GoString) (h : w ∈ spaceRunes) : 59 ∉ w ∧ 44 ∉ w := by
  simp only [spaceRunes, List.mem_cons, List.mem_singleton, List.not_mem_nil, or_false] at h
  rcases h with h | h | h | h | h | h | h | h | h | h | h | h | h | h | h | h | h | h | h |
    h | h | h | h | h | h <;> subst h <;> simp

theorem WhiteOnly_no_delim (w : GoString) (h : WhiteOnly w) : 59 ∉ w ∧ 44 ∉ w := by
  induction h with
  | nil => simp
  | @cons w rest hw _ ih =>
    have := spaceRunes_no_delim w hw
    simp only [List.mem_append, not_or]
    exact ⟨⟨this.1, ih.1⟩, ⟨this.2, ih.2⟩⟩

theorem TrimRightSpace_nil : TrimRightSpace [] = [] := rfl

theorem TrimSpace_white (w : GoString) (h : WhiteOnly w) : TrimSpace w = [] := by
  induction h with
  | nil => rfl
  | @cons w rest hw hrest ih =>
    rcases spaceRunes_head w hw with ⟨c, rfl, hc, hsp⟩ | ⟨c, t, rfl, hc⟩
    · have h1 : ¬ 128 ≤ c := by omega
      simp only [List.singleton_append, TrimSpace, h1, if_false, hsp, if_true]
      exact ih
    · have hsk := skipSpaces_white ((c :: t) ++ rest) (WhiteOnly.cons hw hrest) []
      simp only [List.append_nil] at hsk
      have e : skipSpaces ([] : GoString).length ([] : GoString) = [] := rfl
      rw [e] at hsk
      simp only [List.cons_append, TrimSpace, hc, if_true, TrimFuncSpace, List.append_eq]
      simp only [List.cons_append] at hsk
      rw [hsk]
      rfl

theorem parseOptions_white (w : GoString) (h : WhiteOnly w) : parseOptions w = .ok ⟨[], []⟩ := by
  simp [parseOptions, TrimSpace_white w h]

theorem applyOptions_none (r : Range) : applyOptions r ⟨[], []⟩ = .ok r := by
  simp [applyOptions]

theorem decodeProperty_defaults (p : property) (r : Range) (h : decodeProperty p = .ok r) :
    r.Limit = 0 ∧ r.Desc = false := by
  simp only [decodeProperty] at h
  split at h
  · cases h
  · rename_i sort hs
    split at h
    · cases h
    · rename_i r1 h1
      have hr1 : r1.Limit = 0 ∧ r1.Desc = false := by
        split_ifs at h1
        · split at h1
          · cases h1
          · cases h1; exact ⟨rfl, rfl⟩
        · split at h1
          · cases h1
          · cases h1; exact ⟨rfl, rfl⟩
        · cases h1; exact ⟨rfl, rfl⟩
      split_ifs at h
      · split at h
        · cases h
        · cases h; exact hr1
      · cases h; exact hr1


/-! ## The sign of the limit -/

theorem readString_some (d : Nat) (s prop rest : GoString)
    (h : readString d s = some (prop, rest)) :
    ∃ b, d ∉ b ∧ s = b ++ d :: rest ∧ prop = b ++ [d] := by
  induction s generalizing prop with
  | nil => simp [readString] at h
  | cons c t ih =>
    simp only [readString] at h
    by_cases hc : c = d
    · rw [if_pos hc] at h
      simp only [Option.some.injEq, Prod.mk.injEq] at h
      obtain ⟨rfl, rfl⟩ := h
      exact ⟨[], by simp, by simp [hc], by simp [hc]⟩
    · rw [if_neg hc] at h
      rcases hq : readString d t with _ | ⟨line, rest'⟩
      · rw [hq] at h
        cases h
      · rw [hq] at h
        simp only [Option.some.injEq, Prod.mk.injEq] at h
        obtain ⟨rfl, rfl⟩ := h
        obtain ⟨b, hb, rfl, rfl⟩ := ih line hq
        refine ⟨c :: b, ?_, by simp, by simp⟩
        simp only [List.mem_cons, not_or]
        exact ⟨fun h => hc h.symm, hb⟩

theorem parseRange_ok (s : GoString) (r : Range) (h : parseRange s = .ok r) :
    ∃ b rest p r0, s = b ++ 59 :: rest ∧ 59 ∉ b ∧ parseProperty b = .ok p ∧
      decodeProperty p = .ok r0 ∧ parseTail r0 rest = .ok r := by
  rcases hq : readString 59 s with _ | ⟨prop, rest⟩
  · simp [parseRange, hq] at h
  · obtain ⟨b, hb, rfl, rfl⟩ := readString_some 59 s prop rest hq
    rw [parseRange_clause b rest hb] at h
    rcases hp : parseProperty b with e | p
    · rw [hp] at h
      cases h
    · rw [hp] at h
      dsimp only at h
      rcases hd : decodeProperty p with e | r0
      · rw [hd] at h
        cases h
      · rw [hd] at h
        exact ⟨b, rest, p, r0, rfl, hb, hp, hd, h⟩

theorem parseTail_ok (r0 r : Range) (rest : GoString) (h : parseTail r0 rest = .ok r) :
    r = r0 ∨ ∃ o x opts, rest = o ++ 59 :: x ∧ 59 ∉ o ∧ parseOptions o = .ok opts ∧
      applyOptions r0 opts = .ok r := by
  rcases hq : readString 59 rest with _ | ⟨prop, x⟩
  · simp only [parseTail, hq] at h
    cases h
    exact Or.inl rfl
  · obtain ⟨o, ho, rfl, rfl⟩ := readString_some 59 rest prop x hq
    rw [parseTail_clause r0 o x ho] at h
    rcases hp : parseOptions o with e | opts
    · rw [hp] at h
      cases h
    · rw [hp] at h
      exact Or.inr ⟨o, x, opts, rfl, ho, hp, h⟩

theorem applyOptions_Limit (r0 r : Range) (o : options) (h : applyOptions r0 o = .ok r) :
    r.Limit = r0.Limit ∨ Atoi o.max = some r.Limit := by
  simp only [applyOptions] at h
  by_cases hm : o.max ≠ []
  · rw [if_pos hm] at h
    rcases ha : Atoi o.max with _ | m
    · rw [ha] at h
      cases h
    · rw [ha] at h
      dsimp only at h
      right
      split_ifs at h <;> cases h <;> rfl
  · rw [if_neg hm] at h
    dsimp only at h
    left
    split_ifs at h <;> cases h <;> rfl

theorem parseOptionsLoop_max (o opts : options) (toks : List GoString)
    (h : parseOptionsLoop o toks = .ok opts) :
    opts.max = o.max ∨ ∃ tok ∈ toks, TrimSpace tok = ascii "max=" ++ opts.max := by
  induction toks generalizing o with
  | nil =>
    cases h
    exact Or.inl rfl
  | cons t ts ih =>
    simp only [parseOptionsLoop] at h
    rcases hq : parseOption o t with e | o1
    · rw [hq] at h
      cases h
    · rw [hq] at h
      dsimp only at h
      rcases ih o1 h with h1 | ⟨tok, htok, ht⟩
      · obtain ⟨v, ⟨rfl, hv⟩ | ⟨rfl, hv⟩⟩ := parseOption_ok o o1 t hq
        · right
          refine ⟨t, by simp, ?_⟩
          rw [hv, h1]
        · left
          rw [h1]
      · exact Or.inr ⟨tok, by simp [htok], ht⟩

theorem parseOptions_max_token (o : GoString) (opts : options) (h : parseOptions o = .ok opts) :
    opts.max = [] ∨
      ∃ tok ∈ Split (TrimSpace o) (ascii ","), TrimSpace tok = ascii "max=" ++ opts.max := by
  simp only [parseOptions] at h
  split_ifs at h
  · cases h
    exact Or.inl rfl
  · exact parseOptionsLoop_max _ _ _ h

theorem Atoi_neg (v : GoString) (m : Int) (h : Atoi v = some m) (hm : m < 0) :
    v.head? = some 45 := by
  by_contra hv
  simp only [Atoi, hv, decide_False, false_or, Bool.false_eq_true, if_false] at h
  split_ifs at h
  all_goals
    simp only [Option.some.injEq] at h
    omega

theorem Atoi_nil : Atoi [] = none := rfl

theorem ParseString_Limit_core (s : GoString) (r : Range) (h : ParseString s = .ok r) :
    0 ≤ r.Limit ∨
      ∃ b o x tok v, s = b ++ ascii ";" ++ o ++ ascii ";" ++ x ∧ 59 ∉ b ∧ 59 ∉ o ∧
        tok ∈ Split (TrimSpace o) (ascii ",") ∧ TrimSpace tok = ascii "max=-" ++ v ∧
        Atoi (45 :: v) = some r.Limit := by
  by_cases hl : 0 ≤ r.Limit
  · exact Or.inl hl
  right
  obtain ⟨b, rest, p, r0, rfl, hb, hp, hd, ht⟩ := parseRange_ok s r h
  have h0 := (decodeProperty_defaults p r0 hd).1
  rcases parseTail_ok r0 r rest ht with rfl | ⟨o, x, opts, rfl, ho, hpo, ha⟩
  · omega
  rcases applyOptions_Limit r0 r opts ha with h1 | h1
  · omega
  have hh := Atoi_neg opts.max r.Limit h1 (by omega)
  rcases hm : opts.max with _ | ⟨c, v⟩
  · rw [hm] at hh
    cases hh
  rw [hm] at hh h1
  simp only [List.head?_cons, Option.some.injEq] at hh
  subst hh
  rcases parseOptions_max_token o opts hpo with h2 | ⟨tok, htok, h2⟩
  · rw [hm] at h2
    cases h2
  refine ⟨b, o, x, tok, v, by simp [ascii], hb, ho, htok, ?_, h1⟩
  rw [h2, hm]
  rfl

/-! ## Percent-decoding errors -/

theorem QueryUnescape_error_aux (n : Nat) (t : GoString) (hn : t.length ≤ n) (e : Error)
    (h : QueryUnescape t = .error e) : ∃ u, e = .EscapeError u := by
  induction n generalizing t e with
  | zero =>
    have : t = [] := List.length_eq_zero.mp (by omega)
    subst this
    cases h
  | succ n ih =>
    rcases t with _ | ⟨c, t⟩
    · cases h
    · by_cases hc : c = 37
      · subst hc
        rcases t with _ | ⟨h1, _ | ⟨h2, rest⟩⟩
        · simp [QueryUnescape] at h
          exact ⟨_, h.symm⟩
        · simp [QueryUnescape] at h
          exact ⟨_, h.symm⟩
        · rw [QueryUnescape_percent] at h
          by_cases hx : (ishex h1 && ishex h2) = true
          · rw [if_pos hx] at h
            rcases hq : QueryUnescape rest with e' | r
            · rw [hq] at h
              cases h
              exact ih rest (by simp only [List.length_cons] at hn; omega) _ hq
            · rw [hq] at h
              cases h
          · rw [if_neg hx] at h
            cases h
            exact ⟨_, rfl⟩
      · rw [QueryUnescape_cons c t hc] at h
        rcases hq : QueryUnescape t with e' | r
        · rw [hq] at h
          cases h
          exact ih t (by simp only [List.length_cons] at hn; omega) _ hq
        · rw [hq] at h
          cases h

theorem QueryUnescape_error (t : GoString) (e : Error) (h : QueryUnescape t = .error e) :
    ∃ u, e = .EscapeError u :=
  QueryUnescape_error_aux t.length t (le_refl _) e h

theorem decodeProperty_sort_error (p : property) (e : Error)
    (h : QueryUnescape p.sort = .error e) : decodeProperty p = .error e := by
  simp only [decodeProperty, h]

theorem decodeProperty_start_error (p : property) (so : GoString) (e : Error)
    (hs : QueryUnescape p.sort = .ok so) (h : QueryUnescape (startBody p.start) = .error e) :
    decodeProperty p = .error e := by
  have hne : p.start.length > 0 := by
    rcases hq : p.start with _ | ⟨c, t⟩
    · rw [hq] at h
      cases h
    · simp
  simp only [decodeProperty, hs, hne, if_true]
  by_cases ht : p.start.head? = some 126
  · simp only [startBody, ht, if_true] at h
    simp only [ht, if_true, h]
  · simp only [startBody, ht, if_false] at h
    simp only [ht, if_false, h]

theorem decodeProperty_end_error (p : property) (so st : GoString) (e : Error)
    (hs : QueryUnescape p.sort = .ok so) (ht : QueryUnescape (startBody p.start) = .ok st)
    (h : QueryUnescape p.«end» = .error e) : decodeProperty p = .error e := by
  have hne : p.«end».length > 0 := by
    rcases hq : p.«end» with _ | ⟨c, t⟩
    · rw [hq] at h
      cases h
    · simp
  simp only [decodeProperty, hs, hne, if_true, h]
  by_cases h0 : p.start.length > 0
  · by_cases h1 : p.start.head? = some 126
    · simp only [startBody, h1, if_true] at ht
      simp only [h0, h1, if_true, ht]
    · simp only [startBody, h1, if_false] at ht
      simp only [h0, h1, if_true, if_false, ht]
  · simp only [h0, if_false]

theorem ParseString_decode_error_core (b rest : GoString) (p : property) (e : Error)
    (hb : 59 ∉ b) (hp : parseProperty b = .ok p)
    (hbad : QueryUnescape p.sort = .error e ∨
      (∃ so, QueryUnescape p.sort = .ok so ∧ QueryUnescape (startBody p.start) = .error e) ∨
      (∃ so st, QueryUnescape p.sort = .ok so ∧ QueryUnescape (startBody p.start) = .ok st ∧
        QueryUnescape p.«end» = .error e)) :
    ParseString (b ++ ascii ";" ++ rest) = .error e ∧ (∃ u, e = .EscapeError u) ∧
      e ≠ .InvalidFormat := by
  have hd : decodeProperty p = .error e := by
    rcases hbad with h | ⟨so, hs, h⟩ | ⟨so, st, hs, ht, h⟩
    · exact decodeProperty_sort_error p e h
    · exact decodeProperty_start_error p so e hs h
    · exact decodeProperty_end_error p so st e hs ht h
  have he : ∃ u, e = .EscapeError u := by
    rcases hbad with h | ⟨so, hs, h⟩ | ⟨so, st, hs, ht, h⟩
    · exact QueryUnescape_error _ e h
    · exact QueryUnescape_error _ e h
    · exact QueryUnescape_error _ e h
  refine ⟨?_, he, ?_⟩
  · have e1 : b ++ ascii ";" ++ rest = b ++ 59 :: rest := by simp [ascii]
    rw [e1, ParseString, parseRange_clause b rest hb, hp]
    simp only [hd]
  · obtain ⟨u, rfl⟩ := he
    intro h
    cases h

theorem replicate_a_word (n : Nat) (pre : GoString) (hpre : ∀ c ∈ pre, wordByte c = true) :
    ∀ c ∈ pre ++ List.replicate n 97, wordByte c = true := by
  intro c hc
  rcases List.mem_append.mp hc with h | h
  · exact hpre c h
  · exact (replicate_a_plain n).2.1 c h

theorem ParseString_long_bad_start (n : Nat) (hn : MaxScanTokenSize ≤ n) :
    ParseString (ascii "name %zz" ++ List.replicate n 97 ++ ascii "..;")
      = .ok ⟨ascii "name", [], false, [], 0, false⟩ := by
  have hw : ∀ c ∈ ascii "%zz" ++ List.replicate n 97 ++ ascii "..", wordByte c = true := by
    intro c hc
    rcases List.mem_append.mp hc with h | h
    · exact replicate_a_word n _ (by decide) c h
    · have hall : ∀ y ∈ ascii "..", wordByte y = true := by decide
      exact hall c h
  have h59 : 59 ∉ ascii "name" ++ 32 :: (ascii "%zz" ++ List.replicate n 97 ++ ascii "..") := by
    simp [ascii, List.mem_replicate]
  have e : ascii "name %zz" ++ List.replicate n 97 ++ ascii "..;"
      = (ascii "name" ++ 32 :: (ascii "%zz" ++ List.replicate n 97 ++ ascii "..")) ++ 59 :: [] := by
    simp [ascii]
  have hlen : MaxScanTokenSize ≤ (ascii "%zz" ++ List.replicate n 97 ++ ascii "..").length := by
    simp only [List.length_append, List.length_replicate]
    omega
  rw [ParseString, e, parseRange_clause _ _ h59]
  simp only [parseProperty, scanWord_word_space (ascii "name") _ (by decide) (by decide)
    (by decide), scanWord_word_long _ hw hlen]
  rfl

theorem ParseString_long_bad_sort (n : Nat) (hn : MaxScanTokenSize ≤ n) :
    ParseString (ascii "%zz" ++ List.replicate n 97 ++ ascii " a..b;")
      = .error .InvalidFormat := by
  have hw := replicate_a_word n (ascii "%zz") (by decide)
  have h59 : 59 ∉ (ascii "%zz" ++ List.replicate n 97) ++ 32 :: ascii "a..b" := by
    simp [ascii, List.mem_replicate]
  have e : ascii "%zz" ++ List.replicate n 97 ++ ascii " a..b;"
      = ((ascii "%zz" ++ List.replicate n 97) ++ 32 :: ascii "a..b") ++ 59 :: [] := by
    simp [ascii]
  have hlen : MaxScanTokenSize ≤ (ascii "%zz" ++ List.replicate n 97).length := by
    simp only [List.length_append, List.length_replicate]
    omega
  rw [ParseString, e, parseRange_clause _ _ h59]
  simp only [parseProperty, scanWord_word_space_long _ _ hw hlen]

/-! ## A sort key alone -/

theorem keyByte_facts (c : Nat) (h : keyByte c = true) :
    wordByte c = true ∧ shouldEscape c = false ∧ c < 256 ∧ c ≠ 59 := by
  have hlt : c < 123 := by
    simp only [keyByte, Bool.decide_or, Bool.decide_and, Bool.or_eq_true, Bool.and_eq_true,
      decide_eq_true_eq] at h
    omega
  have hall : ∀ x < 123, keyByte x = true →
      wordByte x = true ∧ shouldEscape x = false ∧ x < 256 ∧ x ≠ 59 := by decide
  exact hall c hlt h

theorem decodeProperty_plain (k : GoString) (hk : ∀ c ∈ k, keyByte c = true) :
    decodeProperty ⟨k, [], []⟩ = .ok ⟨k, [], false, [], 0, false⟩ := by
  have h1 : QueryEscape k = k := QueryEscape_plain k (fun c hc => (keyByte_facts c (hk c hc)).2.1)
  have h2 := QueryUnescape_QueryEscape k (fun c hc => (keyByte_facts c (hk c hc)).2.2.1)
  rw [h1] at h2
  simp [decodeProperty, h2, Range.zero]

theorem ParseString_sort_only_core (k : GoString) (hk : ∀ c ∈ k, keyByte c = true)
    (hne : k ≠ []) (hlen : k.length < MaxScanTokenSize) :
    ParseString (k ++ ascii ";") = .ok ⟨k, [], false, [], 0, false⟩ ∧
      ParseString (k ++ ascii " ..;") = .ok ⟨k, [], false, [], 0, false⟩ := by
  have hw : ∀ c ∈ k, wordByte c = true := fun c hc => (keyByte_facts c (hk c hc)).1
  have h59 : 59 ∉ k := fun h => (keyByte_facts 59 (hk 59 h)).2.2.2 rfl
  have hd := decodeProperty_plain k hk
  constructor
  · have e : k ++ ascii ";" = k ++ 59 :: [] := rfl
    have hp : parseProperty k = .ok ⟨k, [], []⟩ := by
      have h2 : scanWord [] = none := by decide
      simp only [parseProperty, scanWord_word_end k hw hne hlen, h2]
    rw [ParseString, e, parseRange_clause k [] h59, hp]
    simp only [hd, parseTail_unterminated _ [] (by simp)]
  · have e : k ++ ascii " ..;" = (k ++ 32 :: ascii "..") ++ 59 :: [] := by simp [ascii]
    have hp : parseProperty (k ++ 32 :: ascii "..") = .ok ⟨k, [], []⟩ := by
      rw [parseProperty_two k (ascii "..") hw hne hlen (by decide) (by decide) (by decide)]
      have hs : Split (ascii "..") (ascii "..") = [[], []] := by decide
      rw [hs]
      rfl
    have h59b : 59 ∉ k ++ 32 :: ascii ".." := by
      simp [ascii, h59]
    rw [ParseString, e, parseRange_clause _ [] h59b, hp]
    simp only [hd, parseTail_unterminated _ [] (by simp)]

theorem String_sort_only (k : GoString) (hk : ∀ c ∈ k, keyByte c = true) :
    (Range.mk k [] false [] 0 false).String = k ++ ascii " ..;" := by
  rw [String_eq]
  simp [QueryEscape_plain k (fun c hc => (keyByte_facts c (hk c hc)).2.1), boundsText,
    optionsText, QueryEscape, ascii]

theorem replicate_a_key (n : Nat) :
    (∀ c ∈ List.replicate n 97, keyByte c = true) ∧ (0 < n → List.replicate n 97 ≠ []) := by
  refine ⟨fun c hc => ?_, fun hn h => ?_⟩
  · rw [(List.mem_replicate.mp hc).2]
    decide
  · have := congrArg List.length h
    rw [List.length_replicate] at this
    simp only [List.length_nil] at this
    omega

theorem ParseString_long_key (n : Nat) (hn : MaxScanTokenSize ≤ n) :
    ParseString (List.replicate n 97 ++ ascii ";") = .error .InvalidFormat := by
  have hw := (replicate_a_plain n).2.1
  have h59 : 59 ∉ List.replicate n 97 := by simp [List.mem_replicate]
  have e : List.replicate n 97 ++ ascii ";" = List.replicate n 97 ++ 59 :: [] := rfl
  rw [ParseString, e, parseRange_clause _ _ h59]
  simp only [parseProperty, scanWord_word_long _ hw (by simpa [List.length_replicate] using hn)]

/-! ## The text `order=asc` -/

theorem hasREq_append_left (u w : GoString) (h : hasREq w = true) : hasREq (u ++ w) = true := by
  induction u with
  | nil => exact h
  | cons a t ih =>
    rcases ht : t ++ w with _ | ⟨b, v⟩
    · rw [ht] at ih
      cases ih
    · rw [ht] at ih
      simp [hasREq, ht, ih]

theorem hasREq_of_infix (s : GoString) (h : ascii "order=asc" <:+: s) : hasREq s = true := by
  obtain ⟨u, v, rfl⟩ := h
  rw [List.append_assoc]
  apply hasREq_append_left
  simp [hasREq, ascii]

theorem hasREq_no_eq (x : GoString) (h : 61 ∉ x) : hasREq x = false := by
  induction x with
  | nil => rfl
  | cons a t ih =>
    rcases t with _ | ⟨b, v⟩
    · rfl
    · have hb : b ≠ 61 := fun e => h (by simp [e])
      have := ih (fun hm => h (by simp [List.mem_cons.mp hm]))
      simp [hasREq, hb, this]

theorem hasREq_append_no_eq (x y : GoString) (c : Nat) (h : 61 ∉ x) (hc : c ≠ 61) :
    hasREq (x ++ c :: y) = hasREq (c :: y) := by
  induction x with
  | nil => rfl
  | cons a t ih =>
    have ih1 := ih (fun hm => h (by simp [hm]))
    rcases ht : t ++ c :: y with _ | ⟨b, v⟩
    · simp at ht
    · have hb : b ≠ 61 := by
        rcases t with _ | ⟨b', t'⟩
        · simp only [List.nil_append, List.cons.injEq] at ht
          rw [← ht.1]
          exact hc
        · simp only [List.cons_append, List.cons.injEq] at ht
          rw [← ht.1]
          exact fun e => h (by simp [e])
      rw [ht] at ih1
      simp only [List.cons_append, ht]
      simp only [hasREq, hb, decide_False, Bool.and_false, Bool.false_or]
      exact ih1

theorem upperhex_ne_eq (n : Nat) : upperhex n ≠ 61 := by
  unfold upperhex
  split_ifs <;> omega

theorem QueryEscape_no_eq (s : GoString) : 61 ∉ QueryEscape s := by
  induction s with
  | nil => simp [QueryEscape]
  | cons c t ih =>
    simp only [QueryEscape, List.mem_append, not_or]
    refine ⟨?_, ih⟩
    unfold escapeByte
    split_ifs with h1 h2
    · simp
    · simp only [List.mem_cons, List.mem_singleton, List.not_mem_nil, or_false, not_or]
      exact ⟨by omega, (upperhex_ne_eq _).symm, (upperhex_ne_eq _).symm⟩
    · simp only [List.mem_singleton]
      intro e
      subst e
      exact h2 (by decide)

theorem boundsText_no_eq (d : Range) : 61 ∉ boundsText d := by
  have h1 := QueryEscape_no_eq d.Start
  have h2 := QueryEscape_no_eq d.End
  unfold boundsText
  split_ifs <;> simp [h1, h2]

theorem Itoa_no_eq (l : Int) (h : 0 < l) : 61 ∉ Itoa l := fun hm =>
  (isDigit_facts 61 ((Itoa_pos l h).1 61 hm)).2.2.2 rfl

theorem String_no_REq (d : Range) (hd : d.Desc = false) : hasREq d.String = false := by
  have hA : 61 ∉ QueryEscape d.Sort' ++ 32 :: boundsText d := by
    simp [QueryEscape_no_eq, boundsText_no_eq]
  have e : d.String = (QueryEscape d.Sort' ++ 32 :: boundsText d)
      ++ 59 :: optionsText d.Limit d.Desc := by
    rw [String_eq]
    simp
  rw [e, hasREq_append_no_eq _ _ 59 hA (by decide), hd]
  unfold optionsText
  by_cases hl : d.Limit > 0
  · have hI := Itoa_no_eq d.Limit hl
    have hI2 : hasREq (61 :: (Itoa d.Limit ++ [59])) = false := by
      rcases hq : Itoa d.Limit ++ [59] with _ | ⟨b, v⟩
      · rfl
      · have hv : 61 ∉ b :: v := by
          rw [← hq]
          simp [hI]
        have hb : hasREq (b :: v) = false := hasREq_no_eq _ hv
        simp [hasREq, hb]
    have e2 : (59 : Nat) :: (ascii " max=" ++ Itoa d.Limit ++ ascii ";")
        = 59 :: 32 :: 109 :: 97 :: 120 :: 61 :: (Itoa d.Limit ++ [59]) := by
      simp [ascii]
    simp only [hl, if_true, Bool.false_eq_true, if_false, e2]
    simp only [hasREq, hI2]
    decide
  · simp only [hl, if_false, Bool.false_eq_true]
    rfl

theorem parseOptions_asc : parseOptions (ascii " order=asc") = .ok ⟨[], ascii "asc"⟩ := by
  decide

theorem ParseString_asc_core (b : GoString) (p : property) (r : Range) (hb : 59 ∉ b)
    (hp : parseProperty b = .ok p) (hq : decodeProperty p = .ok r) :
    ParseString (b ++ ascii "; order=asc;") = .ok r ∧ r.Desc = false := by
  have hdf := (decodeProperty_defaults p r hq).2
  have e : b ++ ascii "; order=asc;" = b ++ 59 :: (ascii " order=asc" ++ 59 :: []) := by
    simp [ascii]
  rw [e, ParseString_clauses b (ascii " order=asc") [] hb (by decide) p r hp hq,
    parseOptions_asc]
  refine ⟨?_, hdf⟩
  have e3 : ({ r with Desc := false } : Range) = r := by
    cases r
    simp only [Range.mk.injEq, true_and] at hdf ⊢
    exact hdf.symm
  simp [applyOptions, ascii, e3]

/-! ## Round trips without dots -/

theorem hasDotDot_no_dot (s : GoString) (h : 46 ∉ s) :
    hasDotDot (s ++ [46]) = false ∧ hasDotDot s = false := by
  refine ⟨?_, hasDotDot_plain s h⟩
  rw [hasDotDot_append_dot, hasDotDot_plain s h]
  simp only [Bool.false_or, decide_eq_false_iff_not]
  intro hl
  exact h (List.mem_of_mem_getLast? hl)

theorem ParseString_String_no_dot (d : Range) (hs : IsBytes d.Sort') (hst : IsBytes d.Start)
    (he : IsBytes d.End) (hint : d.Limit < 2 ^ 63) (hne : d.Sort' ≠ []) (hl : 0 ≤ d.Limit)
    (hds : 46 ∉ d.Start) (hde : 46 ∉ d.End)
    (hx : d.StartExclusive = true → d.Start ≠ [])
    (ht : d.StartExclusive = false → d.Start.head? ≠ some 126)
    (hlen1 : (QueryEscape d.Sort').length < MaxScanTokenSize)
    (hlen2 : (boundsText d).length < MaxScanTokenSize) :
    ParseString d.String = .ok d :=
  ParseString_String_core d hs hst he hint hne (hasDotDot_no_dot _ hds).1
    (hasDotDot_no_dot _ hde).2 hx ht hl hlen1 hlen2

theorem replicate_a_no_dot (n : Nat) :
    46 ∉ List.replicate n 97 ∧ (List.replicate n 97).head? ≠ some 126 ∧
      (∀ c ∈ List.replicate n 97, letterOrSpace c = true) := by
  refine ⟨?_, ?_, ?_⟩
  · simp [List.mem_replicate]
  · cases n <;> simp [List.replicate]
  · intro c hc
    rw [(List.mem_replicate.mp hc).2]
    decide

theorem letterOrSpace_facts (c : Nat) (h : letterOrSpace c = true) :
    c < 256 ∧ c ≠ 46 ∧ c ≠ 126 ∧ escapeByte c = [if c = 32 then 43 else c] := by
  have hlt : c < 123 := by
    simp only [letterOrSpace, Bool.decide_or, Bool.decide_and, Bool.or_eq_true,
      Bool.and_eq_true, decide_eq_true_eq] at h
    omega
  have hall : ∀ x < 123, letterOrSpace x = true →
      x < 256 ∧ x ≠ 46 ∧ x ≠ 126 ∧ escapeByte x = [if x = 32 then 43 else x] := by decide
  exact hall c hlt h

theorem QueryEscape_letters (s : GoString) (h : ∀ c ∈ s, letterOrSpace c = true) :
    QueryEscape s = plusForSpace s := by
  induction s with
  | nil => rfl
  | cons c t ih =>
    rw [QueryEscape, (letterOrSpace_facts c (h c (by simp))).2.2.2,
      ih (fun x hx => h x (by simp [hx]))]
    rfl

theorem letters_facts (s : GoString) (h : ∀ c ∈ s, letterOrSpace c = true) :
    IsBytes s ∧ 46 ∉ s ∧ s.head? ≠ some 126 := by
  refine ⟨fun c hc => (letterOrSpace_facts c (h c hc)).1,
    fun hm => (letterOrSpace_facts 46 (h 46 hm)).2.1 rfl, ?_⟩
  rcases s with _ | ⟨c, t⟩
  · simp
  · simp only [List.head?_cons, ne_eq, Option.some.injEq]
    exact (letterOrSpace_facts c (h c (by simp))).2.2.1

theorem String_normal (d : Range) :
    (Range.mk d.Sort' d.Start (d.StartExclusive && decide (d.Start ≠ [])) d.End
      (if d.Limit > 0 then d.Limit else 0) d.Desc).String = d.String := by
  rw [String_eq, String_eq]
  have e1 : boundsText (Range.mk d.Sort' d.Start (d.StartExclusive && decide (d.Start ≠ []))
      d.End (if d.Limit > 0 then d.Limit else 0) d.Desc) = boundsText d := by
    unfold boundsText
    by_cases h : d.Start = []
    · simp [h]
    · simp [h]
  have e2 : optionsText (if d.Limit > 0 then d.Limit else 0) d.Desc
      = optionsText d.Limit d.Desc := by
    unfold optionsText
    by_cases h : d.Limit > 0
    · simp [h]
    · simp [h]
  rw [e1]
  simp only [e2]

theorem ParseString_String_letters (d : Range) (hso : ∀ c ∈ d.Sort', letterOrSpace c = true)
    (hst : ∀ c ∈ d.Start, letterOrSpace c = true) (hen : ∀ c ∈ d.End, letterOrSpace c = true)
    (hne : d.Sort' ≠ []) (hint : d.Limit < 2 ^ 63)
    (hlen1 : (QueryEscape d.Sort').length < MaxScanTokenSize)
    (hlen2 : (boundsText d).length < MaxScanTokenSize) :
    ParseString d.String = .ok (Range.mk d.Sort' d.Start
      (d.StartExclusive && decide (d.Start ≠ [])) d.End (if d.Limit > 0 then d.Limit else 0)
      d.Desc) := by
  obtain ⟨a1, -, -⟩ := letters_facts _ hso
  obtain ⟨b1, b2, b3⟩ := letters_facts _ hst
  obtain ⟨c1, c2, -⟩ := letters_facts _ hen
  have hb : boundsText (Range.mk d.Sort' d.Start (d.StartExclusive && decide (d.Start ≠ []))
      d.End (if d.Limit > 0 then d.Limit else 0) d.Desc) = boundsText d := by
    unfold boundsText
    by_cases h : d.Start = []
    · simp [h]
    · simp [h]
  rw [← String_normal d]
  refine ParseString_String_no_dot (Range.mk d.Sort' d.Start
    (d.StartExclusive && decide (d.Start ≠ [])) d.End (if d.Limit > 0 then d.Limit else 0)
    d.Desc) a1 b1 c1 ?_ hne ?_ b2 c2 ?_ ?_ hlen1 ?_
  · show (if d.Limit > 0 then d.Limit else 0) < 2 ^ 63
    split_ifs
    · exact hint
    · decide
  · show 0 ≤ (if d.Limit > 0 then d.Limit else 0)
    split_ifs <;> omega
  · intro h
    simp only [Bool.and_eq_true, decide_eq_true_eq] at h
    exact h.2
  · intro _
    exact b3
  · rw [hb]
    exact hlen2

theorem String_letters (d : Range) (hso : ∀ c ∈ d.Sort', letterOrSpace c = true)
    (hst : ∀ c ∈ d.Start, letterOrSpace c = true) (hen : ∀ c ∈ d.End, letterOrSpace c = true) :
    d.String = plusForSpace d.Sort' ++ ascii " " ++
      (if d.Start ≠ [] ∧ d.StartExclusive = true then ascii "~" else []) ++
      plusForSpace d.Start ++ ascii ".." ++ plusForSpace d.End ++ ascii ";" ++
      optionsText d.Limit d.Desc := by
  rw [String_eq, boundsText, QueryEscape_letters _ hso, QueryEscape_letters _ hst,
    QueryEscape_letters _ hen]
  by_cases h : d.Start = []
  · simp [h, ascii, plusForSpace]
  · by_cases hx : d.StartExclusive = true
    · simp [h, hx, ascii, List.length_pos]
    · simp [h, hx, ascii, List.length_pos]

/-! ## Runes and their encodings -/

theorem rune2_eq (p0 b1 : Nat) : rune2 p0 b1 = (p0 % 32) * 64 + b1 % 64 := by
  have h1 : p0 &&& 31 = p0 % 32 := Nat.and_pow_two_sub_one_eq_mod p0 5
  have h2 : b1 &&& 63 = b1 % 64 := Nat.and_pow_two_sub_one_eq_mod b1 6
  have h3 := Nat.mul_add_lt_is_or (show b1 % 64 < 2 ^ 6 by omega) (p0 % 32)
  unfold rune2
  rw [h1, h2, Nat.shiftLeft_eq, Nat.mul_comm, ← h3]

theorem rune3_eq (p0 b1 b2 : Nat) :
    rune3 p0 b1 b2 = (p0 % 16) * 4096 + (b1 % 64) * 64 + b2 % 64 := by
  have h1 : p0 &&& 15 = p0 % 16 := Nat.and_pow_two_sub_one_eq_mod p0 4
  have h2 : b1 &&& 63 = b1 % 64 := Nat.and_pow_two_sub_one_eq_mod b1 6
  have h3 : b2 &&& 63 = b2 % 64 := Nat.and_pow_two_sub_one_eq_mod b2 6
  have h4 := Nat.mul_add_lt_is_or (show (b1 % 64) * 64 < 2 ^ 12 by omega) (p0 % 16)
  have h5 := Nat.mul_add_lt_is_or (show b2 % 64 < 2 ^ 6 by omega) ((p0 % 16) * 64 + b1 % 64)
  unfold rune3
  rw [h1, h2, h3, Nat.shiftLeft_eq, Nat.shiftLeft_eq]
  have e1 : p0 % 16 * 2 ^ 12 = 2 ^ 12 * (p0 % 16) := Nat.mul_comm _ _
  rw [e1, ← h4]
  have e2 : 2 ^ 12 * (p0 % 16) + b1 % 64 * 64 = 2 ^ 6 * (p0 % 16 * 64 + b1 % 64) := by omega
  rw [e2, ← h5]
  omega

theorem rune4_eq (p0 b1 b2 b3 : Nat) :
    rune4 p0 b1 b2 b3 = (p0 % 8) * 262144 + (b1 % 64) * 4096 + (b2 % 64) * 64 + b3 % 64 := by
  have h1 : p0 &&& 7 = p0 % 8 := Nat.and_pow_two_sub_one_eq_mod p0 3
  have h2 : b1 &&& 63 = b1 % 64 := Nat.and_pow_two_sub_one_eq_mod b1 6
  have h3 : b2 &&& 63 = b2 % 64 := Nat.and_pow_two_sub_one_eq_mod b2 6
  have h4 : b3 &&& 63 = b3 % 64 := Nat.and_pow_two_sub_one_eq_mod b3 6
  have h5 := Nat.mul_add_lt_is_or (show (b1 % 64) * 2 ^ 12 < 2 ^ 18 by omega) (p0 % 8)
  have h6 := Nat.mul_add_lt_is_or (show (b2 % 64) * 2 ^ 6 < 2 ^ 12 by omega)
    ((p0 % 8) * 64 + b1 % 64)
  have h7 := Nat.mul_add_lt_is_or (show b3 % 64 < 2 ^ 6 by omega)
    ((p0 % 8) * 4096 + (b1 % 64) * 64 + b2 % 64)
  unfold rune4
  rw [h1, h2, h3, h4, Nat.shiftLeft_eq, Nat.shiftLeft_eq, Nat.shiftLeft_eq]
  have e1 : p0 % 8 * 2 ^ 18 = 2 ^ 18 * (p0 % 8) := Nat.mul_comm _ _
  rw [e1, ← h5]
  have e2 : 2 ^ 18 * (p0 % 8) + b1 % 64 * 2 ^ 12 = 2 ^ 12 * (p0 % 8 * 64 + b1 % 64) := by omega
  rw [e2, ← h6]
  have e3 : 2 ^ 12 * (p0 % 8 * 64 + b1 % 64) + b2 % 64 * 2 ^ 6
      = 2 ^ 6 * (p0 % 8 * 4096 + b1 % 64 * 64 + b2 % 64) := by omega
  rw [e3, ← h7]
  omega

theorem isSpace_iff (r : Nat) :
    isSpace r = true ↔
      (r = 32 ∨ r = 9 ∨ r = 10 ∨ r = 11 ∨ r = 12 ∨ r = 13 ∨ r = 133 ∨ r = 160 ∨
        (8192 ≤ r ∧ r ≤ 8202) ∨ r = 5760 ∨ r = 8232 ∨ r = 8233 ∨ r = 8239 ∨ r = 8287 ∨
        r = 12288) := by
  unfold isSpace
  split_ifs with h1 h2
  · simp only [Bool.decide_or, Bool.or_eq_true, decide_eq_true_eq]
    omega
  · simp only [true_iff]
    omega
  · simp only [Bool.decide_or, Bool.or_eq_true, decide_eq_true_eq]
    omega

theorem space_rune1 (p0 : Nat) (h0 : p0 < 128) (hs : isSpace p0 = true) : [p0] ∈ spaceRunes := by
  rw [isSpace_iff] at hs
  have : p0 = 32 ∨ p0 = 9 ∨ p0 = 10 ∨ p0 = 11 ∨ p0 = 12 ∨ p0 = 13 := by omega
  rcases this with h | h | h | h | h | h <;> subst h <;> decide

theorem space_rune2 (p0 b1 : Nat) (h1 : ¬ (p0 < 194 ∨ 244 < p0))
    (h2 : ¬ (b1 < acceptLo p0 ∨ acceptHi p0 < b1)) (h3 : runeSize p0 ≤ 2)
    (hs : isSpace (rune2 p0 b1) = true) : [p0, b1] ∈ spaceRunes := by
  have hp : p0 < 224 := by
    unfold runeSize at h3
    split_ifs at h3 <;> omega
  have hlo : acceptLo p0 = 128 := by
    unfold acceptLo
    split_ifs <;> omega
  have hhi : acceptHi p0 = 191 := by
    unfold acceptHi
    split_ifs <;> omega
  rw [hlo, hhi] at h2
  rw [rune2_eq, isSpace_iff] at hs
  have : p0 = 194 ∧ (b1 = 133 ∨ b1 = 160) := by omega
  obtain ⟨rfl, rfl | rfl⟩ := this <;> decide

theorem space_rune3 (p0 b1 b2 : Nat) (h1 : ¬ (p0 < 194 ∨ 244 < p0))
    (h2 : ¬ (b1 < acceptLo p0 ∨ acceptHi p0 < b1)) (h3 : ¬ runeSize p0 ≤ 2)
    (h4 : ¬ (b2 < 128 ∨ 191 < b2)) (h5 : runeSize p0 ≤ 3)
    (hs : isSpace (rune3 p0 b1 b2) = true) : [p0, b1, b2] ∈ spaceRunes := by
  have hp : 224 ≤ p0 ∧ p0 < 240 := by
    unfold runeSize at h3 h5
    split_ifs at h3 h5 <;> omega
  have hlo : 128 ≤ acceptLo p0 ∧ (p0 = 224 → acceptLo p0 = 160) := by
    unfold acceptLo
    split_ifs <;> omega
  have hhi : acceptHi p0 ≤ 191 := by
    unfold acceptHi
    split_ifs <;> omega
  rw [rune3_eq, isSpace_iff] at hs
  have hA : p0 % 16 = p0 - 224 := by omega
  have hB : b1 % 64 = b1 - 128 := by omega
  have hC : b2 % 64 = b2 - 128 := by omega
  rw [hA, hB, hC] at hs
  rcases hs with h | h | h | h | h | h | h | h | h | h | h | h | h | h | h
  · omega
  · omega
  · omega
  · omega
  · omega
  · omega
  · omega
  · omega
  · have h6 : p0 = 226 ∧ b1 = 128 ∧ 128 ≤ b2 ∧ b2 ≤ 138 := by omega
    obtain ⟨rfl, rfl, h7, h8⟩ := h6
    interval_cases b2 <;> decide
  · have h6 : p0 = 225 ∧ b1 = 154 ∧ b2 = 128 := by omega
    obtain ⟨rfl, rfl, rfl⟩ := h6
    decide
  · have h6 : p0 = 226 ∧ b1 = 128 ∧ b2 = 168 := by omega
    obtain ⟨rfl, rfl, rfl⟩ := h6
    decide
  · have h6 : p0 = 226 ∧ b1 = 128 ∧ b2 = 169 := by omega
    obtain ⟨rfl, rfl, rfl⟩ := h6
    decide
  · have h6 : p0 = 226 ∧ b1 = 128 ∧ b2 = 175 := by omega
    obtain ⟨rfl, rfl, rfl⟩ := h6
    decide
  · have h6 : p0 = 226 ∧ b1 = 129 ∧ b2 = 159 := by omega
    obtain ⟨rfl, rfl, rfl⟩ := h6
    decide
  · have h6 : p0 = 227 ∧ b1 = 128 ∧ b2 = 128 := by omega
    obtain ⟨rfl, rfl, rfl⟩ := h6
    decide

theorem space_rune4 (p0 b1 b2 b3 : Nat) (h1 : ¬ (p0 < 194 ∨ 244 < p0))
    (h2 : ¬ (b1 < acceptLo p0 ∨ acceptHi p0 < b1)) (h3 : ¬ runeSize p0 ≤ 3) :
    isSpace (rune4 p0 b1 b2 b3) = false := by
  have hp : 240 ≤ p0 := by
    unfold runeSize at h3
    split_ifs at h3 <;> omega
  have hlo : 128 ≤ acceptLo p0 ∧ (p0 = 240 → acceptLo p0 = 144) := by
    unfold acceptLo
    split_ifs <;> omega
  have hhi : acceptHi p0 ≤ 191 := by
    unfold acceptHi
    split_ifs <;> omega
  have hv := rune4_eq p0 b1 b2 b3
  rw [Bool.eq_false_iff]
  intro hs
  rw [isSpace_iff] at hs
  omega

theorem isSpace_RuneError : ¬ isSpace RuneError = true := by decide

theorem DecodeRune_space (s : GoString) (h : isSpace (DecodeRune s).1 = true) :
    ∃ w ∈ spaceRunes, w <+: s ∧ (DecodeRune s).2 = w.length := by
  rcases s with _ | ⟨p0, rest⟩
  · exact absurd h (by decide)
  · by_cases h0 : p0 < 128
    · rw [DecodeRune_ascii p0 rest h0] at h ⊢
      exact ⟨[p0], space_rune1 p0 h0 h, ⟨rest, rfl⟩, rfl⟩
    · rcases rest with _ | ⟨b1, _ | ⟨b2, _ | ⟨b3, t⟩⟩⟩
      · simp only [DecodeRune, h0, if_false] at h ⊢
        split_ifs at h ⊢
        all_goals exact absurd h isSpace_RuneError
      · simp only [DecodeRune, h0, if_false] at h ⊢
        split_ifs at h ⊢
        · exact absurd h isSpace_RuneError
        · exact absurd h isSpace_RuneError
        · exact absurd h isSpace_RuneError
        · exact ⟨[p0, b1], space_rune2 p0 b1 (by assumption) (by assumption) (by assumption) h,
            ⟨_, rfl⟩, rfl⟩
        · exact absurd h isSpace_RuneError
      · simp only [DecodeRune, h0, if_false] at h ⊢
        split_ifs at h ⊢
        all_goals
          first
          | exact absurd h isSpace_RuneError
          | exact ⟨[p0, b1], space_rune2 p0 b1 (by assumption) (by assumption) (by assumption) h,
              ⟨_, rfl⟩, rfl⟩
          | exact ⟨[p0, b1, b2], space_rune3 p0 b1 b2 (by assumption) (by assumption)
              (by assumption) (by assumption) (by assumption) h, ⟨_, rfl⟩, rfl⟩
      · simp only [DecodeRune, h0, if_false] at h ⊢
        split_ifs at h ⊢
        all_goals
          first
          | exact absurd h isSpace_RuneError
          | exact ⟨[p0, b1], space_rune2 p0 b1 (by assumption) (by assumption) (by assumption) h,
              ⟨_, rfl⟩, rfl⟩
          | exact ⟨[p0, b1, b2], space_rune3 p0 b1 b2 (by assumption) (by assumption)
              (by assumption) (by assumption) (by assumption) h, ⟨_, rfl⟩, rfl⟩
          | exact absurd h (Bool.eq_false_iff.mp
              (space_rune4 p0 b1 b2 b3 (by assumption) (by assumption) (by assumption)))

theorem runeSize_bounds (a : Nat) : 2 ≤ runeSize a ∧ runeSize a ≤ 4 := by
  unfold runeSize
  split_ifs <;> omega

theorem accept_bounds (a : Nat) : 128 ≤ acceptLo a ∧ acceptHi a ≤ 191 := by
  unfold acceptLo acceptHi
  split_ifs <;> omega

theorem DecodeRune_width_le (c : Nat) (t : GoString) :
    (DecodeRune (c :: t)).2 ≤ (c :: t).length := by
  rcases t with _ | ⟨b1, _ | ⟨b2, _ | ⟨b3, t3⟩⟩⟩ <;>
    (simp only [DecodeRune]; split_ifs <;> simp)

theorem DecodeRune_bad_second (a c : Nat) (t : GoString) (h0 : ¬ a < 128)
    (hc : c < 128 ∨ 192 ≤ c) : DecodeRune (a :: c :: t) = (RuneError, 1) := by
  have ha := accept_bounds a
  have h2 : c < acceptLo a ∨ acceptHi a < c := by omega
  simp only [DecodeRune, h0, if_false, h2, if_true]
  split_ifs <;> rfl

theorem DecodeRune_one (a : Nat) (h0 : ¬ a < 128) : DecodeRune [a] = (RuneError, 1) := by
  have hr := runeSize_bounds a
  have h1 : [a].length < runeSize a := by
    simp only [List.length_cons, List.length_nil]
    omega
  simp only [DecodeRune, h0, if_false, h1, if_true]
  split_ifs <;> rfl

theorem DecodeRune_bad_third (a b c : Nat) (t : GoString) (h0 : ¬ a < 128)
    (h3 : ¬ runeSize a ≤ 2) (hc : c < 128 ∨ 192 ≤ c) :
    DecodeRune (a :: b :: c :: t) = (RuneError, 1) := by
  have h2 : c < 128 ∨ 191 < c := by omega
  simp only [DecodeRune, h0, if_false, h2, if_true, h3]
  split_ifs <;> rfl

theorem DecodeRune_two_short (a b : Nat) (h0 : ¬ a < 128) (h3 : ¬ runeSize a ≤ 2) :
    DecodeRune [a, b] = (RuneError, 1) := by
  have h1 : [a, b].length < runeSize a := by
    simp only [List.length_cons, List.length_nil]
    omega
  simp only [DecodeRune, h0, if_false, h1, if_true]
  split_ifs <;> rfl

theorem DecodeRune_two (a b : Nat) (t : GoString) (h3 : runeSize a ≤ 2) :
    DecodeRune (a :: b :: t) = DecodeRune [a, b] := by
  have h1 : ¬ [a, b].length < runeSize a := by
    simp only [List.length_cons, List.length_nil]
    omega
  have h2 : ¬ (a :: b :: t).length < runeSize a := by
    simp only [List.length_cons]
    omega
  simp only [DecodeRune, h1, h2, if_false, h3, if_true]

theorem DecodeRune_bad_fourth (a b c d : Nat) (t : GoString) (h0 : ¬ a < 128)
    (h3 : ¬ runeSize a ≤ 3) (hc : d < 128 ∨ 192 ≤ d) :
    DecodeRune (a :: b :: c :: d :: t) = (RuneError, 1) := by
  have h2 : d < 128 ∨ 191 < d := by omega
  have h4 : ¬ runeSize a ≤ 2 := by omega
  simp only [DecodeRune, h0, if_false, h2, if_true, h3, h4]
  split_ifs <;> rfl

theorem DecodeRune_three_short (a b c : Nat) (h0 : ¬ a < 128) (h3 : ¬ runeSize a ≤ 3) :
    DecodeRune [a, b, c] = (RuneError, 1) := by
  have h1 : [a, b, c].length < runeSize a := by
    simp only [List.length_cons, List.length_nil]
    omega
  simp only [DecodeRune, h0, if_false, h1, if_true]
  split_ifs <;> rfl

theorem DecodeRune_three (a b c : Nat) (t : GoString) (h3 : runeSize a ≤ 3) :
    DecodeRune (a :: b :: c :: t) = DecodeRune [a, b, c] := by
  have h1 : ¬ [a, b, c].length < runeSize a := by
    simp only [List.length_cons, List.length_nil]
    omega
  have h2 : ¬ (a :: b :: c :: t).length < runeSize a := by
    simp only [List.length_cons]
    omega
  simp only [DecodeRune, h1, h2, if_false, h3, if_true]

theorem DecodeRune_four (a b c d : Nat) (t : GoString) :
    DecodeRune (a :: b :: c :: d :: t) = DecodeRune [a, b, c, d] := by
  have hr := runeSize_bounds a
  have h1 : ¬ [a, b, c, d].length < runeSize a := by
    simp only [List.length_cons, List.length_nil]
    omega
  have h2 : ¬ (a :: b :: c :: d :: t).length < runeSize a := by
    simp only [List.length_cons]
    omega
  simp only [DecodeRune, h1, h2, if_false]

theorem DecodeRune_append_cons (x : GoString) (c : Nat) (t : GoString) (hx : x ≠ [])
    (hc : c < 128 ∨ 192 ≤ c) : DecodeRune (x ++ c :: t) = DecodeRune x := by
  rcases x with _ | ⟨a, u⟩
  · exact absurd rfl hx
  by_cases h0 : a < 128
  · rw [List.cons_append, DecodeRune_ascii a _ h0, DecodeRune_ascii a _ h0]
  rcases u with _ | ⟨b1, _ | ⟨b2, _ | ⟨b3, u⟩⟩⟩
  · rw [DecodeRune_one a h0]
    exact DecodeRune_bad_second a c t h0 hc
  · by_cases h2 : runeSize a ≤ 2
    · exact DecodeRune_two a b1 _ h2
    · rw [DecodeRune_two_short a b1 h0 h2]
      exact DecodeRune_bad_third a b1 c t h0 h2 hc
  · by_cases h3 : runeSize a ≤ 3
    · exact DecodeRune_three a b1 b2 _ h3
    · rw [DecodeRune_three_short a b1 b2 h0 h3]
      exact DecodeRune_bad_fourth a b1 b2 c t h0 h3 hc
  · show DecodeRune (a :: b1 :: b2 :: b3 :: (u ++ c :: t)) = DecodeRune (a :: b1 :: b2 :: b3 :: u)
    rw [DecodeRune_four, DecodeRune_four a b1 b2 b3 u]


/-! ## Scanning a token without white space -/

theorem DecodeRune_append (x y : GoString) (hx : x ≠ [])
    (hy : ∀ c, y.head? = some c → c < 128 ∨ 192 ≤ c) : DecodeRune (x ++ y) = DecodeRune x := by
  rcases y with _ | ⟨c, t⟩
  · rw [List.append_nil]
  · exact DecodeRune_append_cons x c t hx (hy c rfl)

theorem noWhite_cons (c : Nat) (t : GoString) (h : noWhite (c :: t) = true) :
    (∀ w ∈ spaceRunes, ¬ w <+: c :: t) ∧ noWhite t = true := by
  simp only [noWhite, Bool.and_eq_true, Bool.not_eq_true', List.any_eq_false,
    List.isPrefixOf_iff_prefix] at h
  exact ⟨fun w hw hp => h.1 w hw hp, h.2⟩

theorem noWhite_drop (n : Nat) (x : GoString) (h : noWhite x = true) :
    noWhite (x.drop n) = true := by
  induction n generalizing x with
  | zero => exact h
  | succ k ih =>
    rcases x with _ | ⟨c, t⟩
    · exact h
    · exact ih t (noWhite_cons c t h).2

theorem noWhite_first (c : Nat) (t y : GoString) (h : noWhite (c :: t) = true)
    (hy : ∀ d, y.head? = some d → d < 128 ∨ 192 ≤ d) :
    isSpace (DecodeRune (c :: t ++ y)).1 = false := by
  rw [DecodeRune_append (c :: t) y (by simp) hy, Bool.eq_false_iff]
  intro hs
  obtain ⟨w, hw, hp, -⟩ := DecodeRune_space (c :: t) hs
  exact (noWhite_cons c t h).1 w hw hp

theorem findSpace_token (f : Nat) (x y : GoString) (i : Nat) (h : noWhite x = true)
    (hy : ∀ d, y.head? = some d → d < 128 ∨ 192 ≤ d) (hf : (x ++ y).length ≤ f) :
    findSpace f (x ++ y) i = findSpace y.length y (i + x.length) := by
  induction f generalizing x i with
  | zero =>
    have hx : x = [] := List.length_eq_zero.mp (by
      simp only [List.length_append] at hf; omega)
    have hy0 : y = [] := List.length_eq_zero.mp (by
      simp only [List.length_append] at hf; omega)
    subst hx
    subst hy0
    rfl
  | succ n ih =>
    rcases x with _ | ⟨c, t⟩
    · simp only [List.nil_append, List.length_nil, Nat.add_zero]
      exact findSpace_fuel _ _ y i (by simpa using hf) (le_refl _)
    · have h1 := noWhite_first c t y h hy
      have h2 : DecodeRune (c :: t ++ y) = DecodeRune (c :: t) :=
        DecodeRune_append (c :: t) y (by simp) hy
      have h3 := DecodeRune_width_pos c t
      have h4 := DecodeRune_width_le c t
      have e : (c :: t ++ y) = c :: (t ++ y) := rfl
      rw [e] at h1 h2 ⊢
      simp only [findSpace, h1, Bool.false_eq_true, if_false]
      rw [h2, ← e, List.drop_append_of_le_length h4,
        ih _ _ (noWhite_drop _ _ h) (by
          simp only [List.length_append, List.length_drop, List.length_cons] at hf h4 ⊢
          omega)]
      congr 1
      simp only [List.length_drop]
      omega

theorem skipSpaces_token (f : Nat) (c : Nat) (t y : GoString) (h : noWhite (c :: t) = true)
    (hy : ∀ d, y.head? = some d → d < 128 ∨ 192 ≤ d) :
    skipSpaces f (c :: t ++ y) = c :: t ++ y := by
  cases f with
  | zero => rfl
  | succ n =>
    have h1 := noWhite_first c t y h hy
    have e : (c :: t ++ y) = c :: (t ++ y) := rfl
    rw [e] at h1 ⊢
    simp only [skipSpaces, h1, Bool.false_eq_true, if_false]

theorem scanWord_token_space (x rest : GoString) (h : noWhite x = true) (hne : x ≠ [])
    (hlen : x.length < MaxScanTokenSize) : scanWord (x ++ 32 :: rest) = some (x, rest) := by
  obtain ⟨c, t, rfl⟩ := List.exists_cons_of_ne_nil hne
  have hy : ∀ d, (32 :: rest).head? = some d → d < 128 ∨ 192 ≤ d := by
    intro d hd
    simp only [List.head?_cons, Option.some.injEq] at hd
    omega
  have hs := skipSpaces_token ((c :: t) ++ 32 :: rest).length c t (32 :: rest) h hy
  have hfs := findSpace_token ((c :: t) ++ 32 :: rest).length (c :: t) (32 :: rest) 0 h hy
    (le_refl _)
  rw [List.length_cons, findSpace_space] at hfs
  simp only [scanWord, hs, hfs]
  rw [if_pos (by omega)]
  have e1 : 0 + (c :: t).length = (c :: t).length := by omega
  have e : (c :: t).length + 1 = (c :: t ++ [32]).length := by simp
  have e2 : c :: t ++ 32 :: rest = (c :: t ++ [32]) ++ rest := by simp
  rw [e1, e, List.take_left, e2, List.drop_left]

theorem scanWord_bounds (S E : GoString) (hS : noWhite S = true) (hE : noWhite E = true)
    (hlen : (S ++ 46 :: 46 :: E).length < MaxScanTokenSize) :
    scanWord (S ++ 46 :: 46 :: E) = some (S ++ 46 :: 46 :: E, []) := by
  have hy : ∀ d, (46 :: 46 :: E).head? = some d → d < 128 ∨ 192 ≤ d := by
    intro d hd
    simp only [List.head?_cons, Option.some.injEq] at hd
    omega
  have hs : skipSpaces (S ++ 46 :: 46 :: E).length (S ++ 46 :: 46 :: E) = S ++ 46 :: 46 :: E := by
    rcases S with _ | ⟨c, t⟩
    · exact skipSpaces_word _ 46 _ (by decide)
    · exact skipSpaces_token _ c t _ hS hy
  have hfs : findSpace (S ++ 46 :: 46 :: E).length (S ++ 46 :: 46 :: E) 0 = none := by
    rw [findSpace_token _ S (46 :: 46 :: E) 0 hS hy (le_refl _)]
    have h1 := findSpace_word [46, 46] (by decide) E (46 :: 46 :: E).length (0 + S.length)
      (le_refl _)
    simp only [List.cons_append, List.nil_append] at h1
    rw [h1]
    have h2 := findSpace_token ((46 :: 46 :: E).length - [46, 46].length) E [] (0 + S.length + 2)
      hE (by simp) (by simp)
    simp only [List.append_nil] at h2
    rw [show [46, 46].length = 2 from rfl] at h2 ⊢
    rw [h2]
    rfl
  have hne : (S ++ 46 :: 46 :: E).length ≠ 0 := by simp
  have hl : ¬ MaxScanTokenSize ≤ (S ++ 46 :: 46 :: E).length := by omega
  simp only [scanWord, hs, hfs, hne, hl, if_false]

theorem parseProperty_bounds (k S E : GoString) (hk : noWhite k = true) (hS : noWhite S = true)
    (hE : noWhite E = true) (hne : k ≠ []) (hSd : hasDotDot (S ++ [46]) = false)
    (hEd : hasDotDot E = false) (hlen1 : k.length < MaxScanTokenSize)
    (hlen2 : (S ++ 46 :: 46 :: E).length < MaxScanTokenSize) :
    parseProperty (k ++ 32 :: (S ++ 46 :: 46 :: E)) = .ok ⟨k, S, E⟩ := by
  simp only [parseProperty, scanWord_token_space k _ hk hne hlen1, scanWord_bounds S E hS hE hlen2,
    Split_dots_one S E hSd hEd]
  rfl

theorem QueryUnescape_tilde (t us : GoString) (h : QueryUnescape (126 :: t) = .ok us) :
    QueryUnescape t = .ok us.tail ∧ us.head? = some 126 := by
  rw [QueryUnescape_cons 126 t (by decide)] at h
  rcases hq : QueryUnescape t with e | r
  · rw [hq] at h
    cases h
  · rw [hq] at h
    cases h
    exact ⟨rfl, rfl⟩

theorem decodeProperty_bounds (k S E uk us ue : GoString) (hku : QueryUnescape k = .ok uk)
    (hSu : QueryUnescape S = .ok us) (hEu : QueryUnescape E = .ok ue) :
    decodeProperty ⟨k, S, E⟩ = .ok ⟨uk, if S.head? = some 126 then us.tail else us,
      decide (S.head? = some 126), ue, 0, false⟩ := by
  have hE0 : ¬ E.length > 0 → ue = [] := by
    intro h
    have : E = [] := List.length_eq_zero.mp (by omega)
    subst this
    cases hEu
    rfl
  by_cases hs0 : S.length > 0
  · by_cases ht : S.head? = some 126
    · obtain ⟨c, t, rfl⟩ := List.exists_cons_of_ne_nil (List.length_pos.mp hs0)
      simp only [List.head?_cons, Option.some.injEq] at ht
      subst ht
      have h1 := (QueryUnescape_tilde t us hSu).1
      by_cases he0 : E.length > 0
      · simp [decodeProperty, hku, h1, hEu, he0, Range.zero]
      · simp [decodeProperty, hku, h1, hEu, he0, Range.zero, hE0 he0]
    · by_cases he0 : E.length > 0
      · simp [decodeProperty, hku, hSu, hEu, he0, hs0, ht, Range.zero]
      · simp [decodeProperty, hku, hSu, hEu, he0, hs0, ht, Range.zero, hE0 he0]
  · have : S = [] := List.length_eq_zero.mp (by omega)
    subst this
    cases hSu
    by_cases he0 : E.length > 0
    · simp [decodeProperty, hku, hEu, he0, Range.zero]
    · simp [decodeProperty, hku, hEu, he0, Range.zero, hE0 he0]

theorem ParseString_bounds_core (k S E uk us ue : GoString) (hk : noWhite k = true)
    (hS : noWhite S = true) (hE : noWhite E = true) (hk59 : 59 ∉ k) (hS59 : 59 ∉ S)
    (hE59 : 59 ∉ E) (hSd : hasDotDot S = false) (hEd : hasDotDot E = false)
    (hku : QueryUnescape k = .ok uk) (hSu : QueryUnescape S = .ok us)
    (hEu : QueryUnescape E = .ok ue) (hne : k ≠ []) (hSl : S.getLast? ≠ some 46)
    (hlen1 : k.length < MaxScanTokenSize)
    (hlen2 : (S ++ ascii ".." ++ E).length < MaxScanTokenSize) :
    ParseString (k ++ ascii " " ++ S ++ ascii ".." ++ E ++ ascii ";")
      = .ok ⟨uk, if S.head? = some 126 then us.tail else us, decide (S.head? = some 126), ue, 0,
        false⟩ := by
  have e : k ++ ascii " " ++ S ++ ascii ".." ++ E ++ ascii ";"
      = (k ++ 32 :: (S ++ 46 :: 46 :: E)) ++ 59 :: [] := by simp [ascii]
  have h59 : 59 ∉ k ++ 32 :: (S ++ 46 :: 46 :: E) := by
    simp [hk59, hS59, hE59]
  have hSd2 : hasDotDot (S ++ [46]) = false := by
    rw [hasDotDot_append_dot, hSd]
    simp [hSl]
  have hl2 : (S ++ 46 :: 46 :: E).length < MaxScanTokenSize := by
    have : (S ++ ascii ".." ++ E).length = (S ++ 46 :: 46 :: E).length := by simp [ascii]
    omega
  rw [ParseString, e, parseRange_clause _ [] h59,
    parseProperty_bounds k S E hk hS hE hne hSd2 hEd hlen1 hl2]
  simp only [decodeProperty_bounds k S E uk us ue hku hSu hEu,
    parseTail_unterminated _ [] (by simp)]

theorem noWhite_words (x : GoString) (h : ∀ c ∈ x, wordByte c = true) : noWhite x = true := by
  induction x with
  | nil => rfl
  | cons c t ih =>
    have hc := h c (by simp)
    simp only [wordByte, Bool.and_eq_true, decide_eq_true_eq, Bool.not_eq_true'] at hc
    have hs : ¬ isSpace c = true := by simp [hc.2]
    rw [isSpace_iff] at hs
    have ht := ih (fun d hd => h d (by simp [hd]))
    simp only [noWhite, ht, Bool.and_true, Bool.not_eq_true', List.any_eq_false,
      List.isPrefixOf_iff_prefix]
    intro w hw hp
    obtain ⟨r, hr⟩ := hp
    simp only [spaceRunes, List.mem_cons, List.mem_singleton, List.not_mem_nil, or_false] at hw
    rcases hw with e | e | e | e | e | e | e | e | e | e | e | e | e | e | e | e | e | e | e |
      e | e | e | e | e | e <;> subst e <;>
      simp only [List.cons_append, List.cons.injEq] at hr <;> omega

theorem ParseString_long_first (n : Nat) (hn : MaxScanTokenSize ≤ n) :
    ParseString (List.replicate n 97 ++ ascii " " ++ ascii "a" ++ ascii ".." ++ ascii "b"
      ++ ascii ";") = .error .InvalidFormat := by
  have hw := (replicate_a_plain n).2.1
  have h59 : 59 ∉ List.replicate n 97 ++ 32 :: ascii "a..b" := by
    simp [ascii, List.mem_replicate]
  have e : List.replicate n 97 ++ ascii " " ++ ascii "a" ++ ascii ".." ++ ascii "b" ++ ascii ";"
      = (List.replicate n 97 ++ 32 :: ascii "a..b") ++ 59 :: [] := by
    simp [ascii]
  rw [ParseString, e, parseRange_clause _ _ h59]
  simp only [parseProperty, scanWord_word_space_long _ _ hw
    (by simpa [List.length_replicate] using hn)]

theorem ParseString_long_second (n : Nat) (hn : MaxScanTokenSize ≤ n) :
    ParseString (ascii "name" ++ ascii " " ++ List.replicate n 97 ++ ascii ".." ++ ascii "b"
      ++ ascii ";") = .ok ⟨ascii "name", [], false, [], 0, false⟩ := by
  have hw : ∀ c ∈ List.replicate n 97 ++ ascii "..b", wordByte c = true := by
    intro c hc
    rcases List.mem_append.mp hc with h | h
    · exact (replicate_a_plain n).2.1 c h
    · have hall : ∀ y ∈ ascii "..b", wordByte y = true := by decide
      exact hall c h
  have h59 : 59 ∉ ascii "name" ++ 32 :: (List.replicate n 97 ++ ascii "..b") := by
    simp [ascii, List.mem_replicate]
  have e : ascii "name" ++ ascii " " ++ List.replicate n 97 ++ ascii ".." ++ ascii "b" ++ ascii ";"
      = (ascii "name" ++ 32 :: (List.replicate n 97 ++ ascii "..b")) ++ 59 :: [] := by
    simp [ascii]
  have hlen : MaxScanTokenSize ≤ (List.replicate n 97 ++ ascii "..b").length := by
    simp only [List.length_append, List.length_replicate]
    omega
  rw [ParseString, e, parseRange_clause _ _ h59]
  simp only [parseProperty, scanWord_word_space (ascii "name") _ (by decide) (by decide)
    (by decide), scanWord_word_long _ hw hlen]
  rfl

/-! ## The last rune -/

theorem getD_append_length (x w : GoString) (k : Nat) :
    (x ++ w).getD (x.length + k) 0 = w.getD k 0 := by
  induction x with
  | nil => simp
  | cons c t ih =>
    have e : (c :: t).length + k = (t.length + k) + 1 := by
      simp only [List.length_cons]
      omega
    rw [e, List.cons_append, List.getD_cons_succ]
    exact ih

theorem DecodeLastRune_cases (p : GoString) (hp : p ≠ []) :
    (p.getD (p.length - 1) 0 < 128 ∧ DecodeLastRune p = (p.getD (p.length - 1) 0, 1)) ∨
    (¬ p.getD (p.length - 1) 0 < 128 ∧ DecodeLastRune p = (RuneError, 1)) ∨
    (¬ p.getD (p.length - 1) 0 < 128 ∧ ∃ start, start < p.length ∧
      start + (DecodeRune (p.drop start)).2 = p.length ∧
      DecodeLastRune p = DecodeRune (p.drop start)) := by
  have he : ¬ p.length = 0 := fun h => hp (List.length_eq_zero.mp h)
  by_cases hr : p.getD (p.length - 1) 0 < 128
  · left
    simp only [DecodeLastRune, he, if_false, hr, if_true]
    exact ⟨trivial, trivial⟩
  · right
    simp only [DecodeLastRune, he, if_false, hr]
    split_ifs with h1 h2 h3 h4 h5 h6 h7
    · exact Or.inl ⟨not_false, rfl⟩
    · exact Or.inr ⟨not_false, p.length - 2, by omega, by omega, rfl⟩
    · exact Or.inl ⟨not_false, rfl⟩
    · exact Or.inr ⟨not_false, p.length - 3, by omega, by omega, rfl⟩
    · exact Or.inl ⟨not_false, rfl⟩
    · exact Or.inr ⟨not_false, p.length - 4, by omega, by omega, rfl⟩
    · exact Or.inl ⟨not_false, rfl⟩
    · exact Or.inr ⟨not_false, p.length - 5, by omega, by omega, rfl⟩

theorem drop_getD_cons (p : GoString) (i : Nat) (hi : i < p.length) :
    p.drop i = p.getD i 0 :: p.drop (i + 1) := by
  induction p generalizing i with
  | nil => simp at hi
  | cons c t ih =>
    cases i with
    | zero => rfl
    | succ k =>
      simp only [List.length_cons] at hi
      simp only [List.drop_succ_cons, List.getD_cons_succ]
      exact ih k (by omega)

theorem drop_last (p : GoString) (hp : p ≠ []) :
    p.drop (p.length - 1) = [p.getD (p.length - 1) 0] := by
  have hl : 0 < p.length := List.length_pos.mpr hp
  rw [drop_getD_cons p _ (by omega)]
  have e : p.length - 1 + 1 = p.length := by omega
  rw [e, List.drop_length]

theorem DecodeLastRune_width (p : GoString) (hp : p ≠ []) :
    1 ≤ (DecodeLastRune p).2 ∧ (DecodeLastRune p).2 ≤ p.length := by
  have hl : 0 < p.length := List.length_pos.mpr hp
  rcases DecodeLastRune_cases p hp with ⟨-, h⟩ | ⟨-, h⟩ | ⟨-, start, h1, h2, h⟩
  · rw [h]
    exact ⟨le_refl _, hl⟩
  · rw [h]
    exact ⟨le_refl _, hl⟩
  · rw [h]
    omega

theorem DecodeLastRune_consistent (p : GoString) (hp : p ≠ []) :
    (DecodeRune (p.drop (p.length - (DecodeLastRune p).2))).2 = (DecodeLastRune p).2 := by
  rcases DecodeLastRune_cases p hp with ⟨hr, h⟩ | ⟨hr, h⟩ | ⟨-, start, h1, h2, h⟩
  · rw [h, drop_last p hp, DecodeRune_ascii _ _ hr]
  · rw [h, drop_last p hp, DecodeRune_one _ hr]
  · rw [h]
    have e : p.length - (DecodeRune (p.drop start)).2 = start := by omega
    rw [e]

theorem DecodeLastRune_ascii_width (p : GoString) (hp : p ≠ [])
    (h : p.getD (p.length - (DecodeLastRune p).2) 0 < 128) : (DecodeLastRune p).2 = 1 := by
  have hw := DecodeLastRune_width p hp
  have hc := DecodeLastRune_consistent p hp
  rw [drop_getD_cons p _ (by omega), DecodeRune_ascii _ _ h] at hc
  exact hc.symm

theorem DecodeLastRune_space_suffix (p : GoString)
    (h : isSpace (DecodeLastRune p).1 = true) : ∃ w ∈ spaceRunes, w <:+ p := by
  rcases p with _ | ⟨c, t⟩
  · exact absurd h (by decide)
  rcases DecodeLastRune_cases (c :: t) (by simp) with ⟨hr, hd⟩ | ⟨hr, hd⟩ | ⟨-, start, h1, h2, hd⟩
  · rw [hd] at h
    refine ⟨_, space_rune1 _ hr h, ?_⟩
    rw [← drop_last (c :: t) (by simp)]
    exact List.drop_suffix _ _
  · rw [hd] at h
    exact absurd h isSpace_RuneError
  · rw [hd] at h
    obtain ⟨w, hw, hp, hlen⟩ := DecodeRune_space _ h
    refine ⟨w, hw, ?_⟩
    have e : w = (c :: t).drop start := by
      apply List.IsPrefix.eq_of_length hp
      rw [← hlen, List.length_drop]
      omega
    rw [e]
    exact List.drop_suffix _ _

theorem DecodeLastRune_snoc1 (x : GoString) (r : Nat) (hr : r < 128) :
    DecodeLastRune (x ++ [r]) = (r, 1) := by
  have e : (x ++ [r]).getD ((x ++ [r]).length - 1) 0 = r := by
    have : (x ++ [r]).length - 1 = x.length + 0 := by simp
    rw [this, getD_append_length]
    rfl
  rcases DecodeLastRune_cases (x ++ [r]) (by simp) with ⟨-, h⟩ | ⟨h, -⟩ | ⟨h, -⟩
  · rw [h, e]
  · rw [e] at h
    exact absurd hr h
  · rw [e] at h
    exact absurd hr h

theorem DecodeLastRune_snoc2 (x : GoString) (a b : Nat) (hb : ¬ b < 128)
    (ha : RuneStart a = true) (hd : (DecodeRune [a, b]).2 = 2) :
    DecodeLastRune (x ++ [a, b]) = DecodeRune [a, b] := by
  have e0 : ¬ (x ++ [a, b]).length = 0 := by simp
  have e1 : (x ++ [a, b]).length - 1 = x.length + 1 := by simp
  have e2 : (x ++ [a, b]).length - 2 = x.length + 0 := by simp
  have e3 : 2 ≤ (x ++ [a, b]).length := by simp
  have g1 : (x ++ [a, b]).getD (x.length + 1) 0 = b := by
    rw [getD_append_length]
    rfl
  have g2 : (x ++ [a, b]).getD (x.length + 0) 0 = a := by
    rw [getD_append_length]
    rfl
  have d : (x ++ [a, b]).drop (x.length + 0) = [a, b] := by
    rw [Nat.add_zero, List.drop_left]
  simp only [DecodeLastRune, e0, if_false, e1, g1, hb, e2, g2, ha, e3, and_self, if_true, d, hd]
  simp

theorem DecodeLastRune_snoc3 (x : GoString) (a b c : Nat) (hc : ¬ c < 128)
    (hb : RuneStart b = false) (ha : RuneStart a = true) (hd : (DecodeRune [a, b, c]).2 = 3) :
    DecodeLastRune (x ++ [a, b, c]) = DecodeRune [a, b, c] := by
  have e0 : ¬ (x ++ [a, b, c]).length = 0 := by simp
  have e1 : (x ++ [a, b, c]).length - 1 = x.length + 2 := by simp
  have e2 : (x ++ [a, b, c]).length - 2 = x.length + 1 := by simp
  have e3 : (x ++ [a, b, c]).length - 3 = x.length + 0 := by simp
  have e4 : 3 ≤ (x ++ [a, b, c]).length := by simp
  have g1 : (x ++ [a, b, c]).getD (x.length + 2) 0 = c := by
    rw [getD_append_length]
    rfl
  have g2 : (x ++ [a, b, c]).getD (x.length + 1) 0 = b := by
    rw [getD_append_length]
    rfl
  have g3 : (x ++ [a, b, c]).getD (x.length + 0) 0 = a := by
    rw [getD_append_length]
    rfl
  have d : (x ++ [a, b, c]).drop (x.length + 0) = [a, b, c] := by
    rw [Nat.add_zero, List.drop_left]
  simp only [DecodeLastRune, e0, if_false, e1, g1, hc, e2, g2, hb, e3, g3, ha, e4, and_self,
    if_true, d, hd, Bool.false_eq_true, and_false]
  simp

theorem DecodeLastRune_space (x w : GoString) (hw : w ∈ spaceRunes) :
    isSpace (DecodeLastRune (x ++ w)).1 = true ∧ (DecodeLastRune (x ++ w)).2 = w.length := by
  simp only [spaceRunes, List.mem_cons, List.mem_singleton, List.not_mem_nil, or_false] at hw
  rcases hw with h | h | h | h | h | h | h | h | h | h | h | h | h | h | h | h | h | h | h |
    h | h | h | h | h | h <;> subst h <;>
    first
    | (rw [DecodeLastRune_snoc1 x] <;> decide)
    | (rw [DecodeLastRune_snoc2 x] <;> decide)
    | (rw [DecodeLastRune_snoc3 x] <;> decide)

/-! ## Trimming white space around a text -/

theorem WhiteOnly_append (a b : GoString) (ha : WhiteOnly a) (hb : WhiteOnly b) :
    WhiteOnly (a ++ b) := by
  induction ha with
  | nil => exact hb
  | @cons w rest hw _ ih =>
    rw [List.append_assoc]
    exact WhiteOnly.cons hw ih

theorem WhiteOnly_single (w : GoString) (hw : w ∈ spaceRunes) : WhiteOnly w := by
  have := WhiteOnly.cons hw WhiteOnly.nil
  rwa [List.append_nil] at this

theorem WhiteOnly_snoc_induction (P : GoString → Prop) (h0 : P [])
    (hs : ∀ q w, WhiteOnly q → w ∈ spaceRunes → P q → P (q ++ w)) (q : GoString)
    (hq : WhiteOnly q) : P q := by
  induction hq generalizing P with
  | nil => exact h0
  | @cons w rest hw hrest ih =>
    apply ih (fun r => P (w ++ r))
    · have := hs [] w WhiteOnly.nil hw h0
      simpa using this
    · intro q w2 hq hw2 hP
      have := hs (w ++ q) w2 (WhiteOnly.cons hw hq) hw2 hP
      simpa using this

theorem spaceRunes_last (w : GoString) (h : w ∈ spaceRunes) :
    (∃ c, w = [c] ∧ c < 128 ∧ asciiSpace c = true) ∨ (∃ u c, w = u ++ [c] ∧ 128 ≤ c) := by
  simp only [spaceRunes, List.mem_cons, List.mem_singleton, List.not_mem_nil, or_false] at h
  rcases h with h | h | h | h | h | h | h | h | h | h | h | h | h | h | h | h | h | h | h |
    h | h | h | h | h | h <;> subst h
  · exact Or.inl ⟨_, rfl, by decide, by decide⟩
  · exact Or.inl ⟨_, rfl, by decide, by decide⟩
  · exact Or.inl ⟨_, rfl, by decide, by decide⟩
  · exact Or.inl ⟨_, rfl, by decide, by decide⟩
  · exact Or.inl ⟨_, rfl, by decide, by decide⟩
  · exact Or.inl ⟨_, rfl, by decide, by decide⟩
  · exact Or.inr ⟨[194], 133, rfl, by decide⟩
  · exact Or.inr ⟨[194], 160, rfl, by decide⟩
  · exact Or.inr ⟨[225, 154], 128, rfl, by decide⟩
  · exact Or.inr ⟨[226, 128], 128, rfl, by decide⟩
  · exact Or.inr ⟨[226, 128], 129, rfl, by decide⟩
  · exact Or.inr ⟨[226, 128], 130, rfl, by decide⟩
  · exact Or.inr ⟨[226, 128], 131, rfl, by decide⟩
  · exact Or.inr ⟨[226, 128], 132, rfl, by decide⟩
  · exact Or.inr ⟨[226, 128], 133, rfl, by decide⟩
  · exact Or.inr ⟨[226, 128], 134, rfl, by decide⟩
  · exact Or.inr ⟨[226, 128], 135, rfl, by decide⟩
  · exact Or.inr ⟨[226, 128], 136, rfl, by decide⟩
  · exact Or.inr ⟨[226, 128], 137, rfl, by decide⟩
  · exact Or.inr ⟨[226, 128], 138, rfl, by decide⟩
  · exact Or.inr ⟨[226, 128], 168, rfl, by decide⟩
  · exact Or.inr ⟨[226, 128], 169, rfl, by decide⟩
  · exact Or.inr ⟨[226, 128], 175, rfl, by decide⟩
  · exact Or.inr ⟨[226, 129], 159, rfl, by decide⟩
  · exact Or.inr ⟨[227, 128], 128, rfl, by decide⟩

theorem spaceRunes_first (w : GoString) (h : w ∈ spaceRunes) :
    ∃ c t, w = c :: t ∧ (c < 128 ∨ 192 ≤ c) := by
  simp only [spaceRunes, List.mem_cons, List.mem_singleton, List.not_mem_nil, or_false] at h
  rcases h with h | h | h | h | h | h | h | h | h | h | h | h | h | h | h | h | h | h | h |
    h | h | h | h | h | h <;> subst h <;> exact ⟨_, _, rfl, by decide⟩

theorem WhiteOnly_head (q : GoString) (hq : WhiteOnly q) :
    ∀ d, q.head? = some d → d < 128 ∨ 192 ≤ d := by
  cases hq with
  | nil =>
    intro d hd
    cases hd
  | @cons w rest hw _ =>
    obtain ⟨c, t, rfl, hc⟩ := spaceRunes_first w hw
    intro d hd
    simp only [List.cons_append, List.head?_cons, Option.some.injEq] at hd
    rw [← hd]
    exact hc

theorem lastIndexNotSpace_white (s : GoString) (hs : s ≠ [])
    (hl : ¬ isSpace (DecodeLastRune s).1 = true) (q : GoString) (hq : WhiteOnly q) :
    ∀ f, (s ++ q).length ≤ f →
      lastIndexNotSpace f (s ++ q) = some (s.length - (DecodeLastRune s).2) := by
  refine WhiteOnly_snoc_induction
    (fun q => ∀ f, (s ++ q).length ≤ f →
      lastIndexNotSpace f (s ++ q) = some (s.length - (DecodeLastRune s).2)) ?_ ?_ q hq
  · intro f hf
    rw [List.append_nil] at hf ⊢
    obtain ⟨c, t, rfl⟩ := List.exists_cons_of_ne_nil hs
    have hl : isSpace (DecodeLastRune (c :: t)).1 = false := by simpa using hl
    cases f with
    | zero => simp at hf
    | succ n => simp only [lastIndexNotSpace, hl, if_false, Bool.false_eq_true]
  · intro q w _ hw ih f hf
    obtain ⟨h1, h2⟩ := DecodeLastRune_space (s ++ q) w hw
    have hwl : 0 < w.length := (decode_spaceRune w hw []).2.2
    rw [← List.append_assoc] at hf ⊢
    cases f with
    | zero =>
      simp only [List.length_append] at hf
      omega
    | succ n =>
      rcases hsq : s ++ q ++ w with _ | ⟨c, t⟩
      · have := congrArg List.length hsq
        simp only [List.length_append, List.length_nil] at this
        omega
      · rw [hsq] at h1 h2
        simp only [lastIndexNotSpace, h1, if_true]
        rw [h2, ← hsq]
        have e : (s ++ q ++ w).length - w.length = (s ++ q).length := by
          simp only [List.length_append]
          omega
        rw [e, List.take_left]
        apply ih
        simp only [List.length_append] at hf ⊢
        omega

theorem TrimRightSpace_white (s q : GoString) (hs : s ≠ [])
    (hl : ¬ isSpace (DecodeLastRune s).1 = true) (hq : WhiteOnly q) :
    TrimRightSpace (s ++ q) = s := by
  have hw := DecodeLastRune_width s hs
  have hi : s.length - (DecodeLastRune s).2 < s.length := by omega
  have hg : (s ++ q).getD (s.length - (DecodeLastRune s).2) 0
      = s.getD (s.length - (DecodeLastRune s).2) 0 := by
    rw [List.getD_append _ _ _ _ hi]
  have hd : (s ++ q).drop (s.length - (DecodeLastRune s).2)
      = s.drop (s.length - (DecodeLastRune s).2) ++ q :=
    List.drop_append_of_le_length (by omega)
  have hne : s.drop (s.length - (DecodeLastRune s).2) ≠ [] := by
    intro h
    have := congrArg List.length h
    simp only [List.length_drop, List.length_nil] at this
    omega
  simp only [TrimRightSpace, lastIndexNotSpace_white s hs hl q hq _ (le_refl _), hg, hd,
    DecodeRune_append _ q hne (WhiteOnly_head q hq), DecodeLastRune_consistent s hs]
  split_ifs with h
  · have e : s.length - (DecodeLastRune s).2 + (DecodeLastRune s).2 = s.length := by omega
    rw [e, List.take_left]
  · have h1 := DecodeLastRune_ascii_width s hs (by omega)
    rw [h1]
    have e : s.length - 1 + 1 = s.length := by omega
    rw [e, List.take_left]

theorem asciiSpace_isSpace (c : Nat) (h : asciiSpace c = true) : isSpace c = true := by
  simp only [asciiSpace, Bool.decide_or, Bool.or_eq_true, decide_eq_true_eq] at h
  rw [isSpace_iff]
  omega

theorem trimSpaceTail_white (s q : GoString) (hs : s ≠ [])
    (hl : ¬ isSpace (DecodeLastRune s).1 = true) (hq : WhiteOnly q) :
    trimSpaceTail (s ++ q).reverse = s := by
  refine WhiteOnly_snoc_induction (fun q => trimSpaceTail (s ++ q).reverse = s) ?_ ?_ q hq
  · show trimSpaceTail (s ++ []).reverse = s
    rw [List.append_nil]
    obtain ⟨u, r, rfl⟩ : ∃ u r, s = u ++ [r] := by
      rcases List.eq_nil_or_concat s with h | ⟨u, r, h⟩
      · exact absurd h hs
      · exact ⟨u, r, by simpa using h⟩
    by_cases hr : 128 ≤ r
    · have := TrimRightSpace_white (u ++ [r]) [] hs hl WhiteOnly.nil
      rw [List.append_nil] at this
      simp only [List.reverse_append, List.reverse_cons, List.reverse_nil, List.nil_append,
        List.singleton_append, trimSpaceTail, hr, if_true]
      simpa using this
    · have h1 : DecodeLastRune (u ++ [r]) = (r, 1) := DecodeLastRune_snoc1 u r (by omega)
      rw [h1] at hl
      have h2 : ¬ asciiSpace r = true := fun h => hl (asciiSpace_isSpace r h)
      simp [trimSpaceTail, hr, h2]
  · intro q w hq' hw ih
    show trimSpaceTail (s ++ (q ++ w)).reverse = s
    have ih : trimSpaceTail (s ++ q).reverse = s := ih
    rcases spaceRunes_last w hw with ⟨c, rfl, hc, hsp⟩ | ⟨u, c, rfl, hc⟩
    · have h1 : ¬ 128 ≤ c := by omega
      rw [← List.append_assoc, List.reverse_append]
      simp only [List.reverse_cons, List.reverse_nil, List.nil_append, List.singleton_append,
        trimSpaceTail, h1, if_false, hsp, if_true]
      exact ih
    · have h2 := TrimRightSpace_white s (q ++ (u ++ [c])) hs hl
        (WhiteOnly_append _ _ hq' (WhiteOnly_single _ hw))
      have e : (s ++ (q ++ (u ++ [c]))).reverse = c :: (s ++ (q ++ u)).reverse := by
        simp
      rw [e]
      simp only [trimSpaceTail, hc, if_true]
      rw [← e, List.reverse_reverse]
      exact h2

theorem skipSpaces_stop (f : Nat) (s : GoString) (h : ¬ isSpace (DecodeRune s).1 = true) :
    skipSpaces f s = s := by
  cases f with
  | zero => rfl
  | succ n =>
    rcases s with _ | ⟨c, t⟩
    · rfl
    · have h : isSpace (DecodeRune (c :: t)).1 = false := by simpa using h
      simp only [skipSpaces, h, if_false, Bool.false_eq_true]

theorem TrimSpace_core (p s q : GoString) (hp : WhiteOnly p) (hq : WhiteOnly q) (hs : s ≠ [])
    (hf : ¬ isSpace (DecodeRune (s ++ q)).1 = true)
    (hl : ¬ isSpace (DecodeLastRune s).1 = true) : TrimSpace (p ++ (s ++ q)) = s := by
  have hfun : TrimFuncSpace (s ++ q) = s := by
    rw [TrimFuncSpace, skipSpaces_stop _ _ hf]
    exact TrimRightSpace_white s q hs hl hq
  induction hp with
  | nil =>
    obtain ⟨c, t, rfl⟩ := List.exists_cons_of_ne_nil hs
    by_cases hc : 128 ≤ c
    · simp only [List.nil_append, List.cons_append, TrimSpace, hc, if_true]
      exact hfun
    · have h1 : DecodeRune (c :: t ++ q) = (c, 1) := DecodeRune_ascii c _ (by omega)
      rw [h1] at hf
      have h2 : ¬ asciiSpace c = true := fun h => hf (asciiSpace_isSpace c h)
      simp only [List.nil_append, List.cons_append, TrimSpace, hc, if_false, h2]
      exact trimSpaceTail_white (c :: t) q hs hl hq
  | @cons w rest hw hrest ih =>
    rcases spaceRunes_head w hw with ⟨c, rfl, hc, hsp⟩ | ⟨c, t, rfl, hc⟩
    · have h1 : ¬ 128 ≤ c := by omega
      simp only [List.singleton_append, List.cons_append, List.nil_append, TrimSpace, h1,
        if_false, hsp, if_true]
      exact ih
    · have hsk := skipSpaces_white ((c :: t) ++ rest) (WhiteOnly.cons hw hrest) (s ++ q)
      rw [skipSpaces_stop _ _ hf] at hsk
      have e : (c :: t) ++ rest ++ (s ++ q) = c :: (t ++ rest ++ (s ++ q)) := by simp
      rw [e] at hsk
      have e2 : (c :: t ++ rest) ++ (s ++ q) = c :: (t ++ rest ++ (s ++ q)) := by simp
      rw [e2]
      simp only [TrimSpace, hc, if_true, TrimFuncSpace, hsk]
      exact TrimRightSpace_white s q hs hl hq

/-! ## Option tokens between white space -/

theorem spaceRunes_ne_nil (w : GoString) (hw : w ∈ spaceRunes) : w ≠ [] := by
  intro h
  have := (decode_spaceRune w hw []).2.2
  rw [h] at this
  cases this

theorem noWhite_infix (o : GoString) (h : noWhite o = true) :
    ∀ w ∈ spaceRunes, ¬ w <:+: o := by
  induction o with
  | nil =>
    intro w hw hi
    exact spaceRunes_ne_nil w hw (List.eq_nil_of_infix_nil hi)
  | cons c t ih =>
    intro w hw hi
    rcases List.infix_cons_iff.mp hi with hp | hi'
    · exact (noWhite_cons c t h).1 w hw hp
    · exact ih (noWhite_cons c t h).2 w hw hi'

theorem token_first (o y : GoString) (h : noWhite o = true) (hne : o ≠ [])
    (hy : ∀ d, y.head? = some d → d < 128 ∨ 192 ≤ d) :
    ¬ isSpace (DecodeRune (o ++ y)).1 = true := by
  obtain ⟨c, t, rfl⟩ := List.exists_cons_of_ne_nil hne
  rw [noWhite_first c t y h hy]
  exact Bool.false_ne_true

theorem token_last (o : GoString) (h : noWhite o = true) :
    ¬ isSpace (DecodeLastRune o).1 = true := by
  intro hs
  obtain ⟨w, hw, hsuf⟩ := DecodeLastRune_space_suffix o hs
  exact noWhite_infix o h w hw hsuf.isInfix

theorem space_split (w a o : GoString) (hw : w ∈ spaceRunes) (e : w = a ++ o) (ha : a ≠ [])
    (ho : o ≠ []) :
    (∃ l, a = [l] ∧ 192 ≤ l) ∨ (∃ l c, a = [l, c] ∧ 192 ≤ l ∧ l ≠ 194 ∧ 128 ≤ c) := by
  simp only [spaceRunes, List.mem_cons, List.mem_singleton, List.not_mem_nil, or_false] at hw
  rcases a with _ | ⟨a1, _ | ⟨a2, _ | ⟨a3, a4⟩⟩⟩
  · exact absurd rfl ha
  · left
    refine ⟨a1, rfl, ?_⟩
    rcases o with _ | ⟨o1, o2⟩
    · exact absurd rfl ho
    rcases hw with h | h | h | h | h | h | h | h | h | h | h | h | h | h | h | h | h | h | h |
      h | h | h | h | h | h <;> rw [h] at e <;> simp at e <;> omega
  · right
    refine ⟨a1, a2, rfl, ?_⟩
    rcases o with _ | ⟨o1, o2⟩
    · exact absurd rfl ho
    rcases hw with h | h | h | h | h | h | h | h | h | h | h | h | h | h | h | h | h | h | h |
      h | h | h | h | h | h <;> rw [h] at e <;> simp at e <;> omega
  · exfalso
    rcases o with _ | ⟨o1, o2⟩
    · exact absurd rfl ho
    rcases hw with h | h | h | h | h | h | h | h | h | h | h | h | h | h | h | h | h | h | h |
      h | h | h | h | h | h <;> rw [h] at e <;> simp at e

theorem spaceRunes_tail (w : GoString) (hw : w ∈ spaceRunes ∨ w = [44]) :
    (∃ c, w = [c] ∧ c < 128) ∨ (∃ x, w = [194, x] ∧ x < 192) ∨
      (∃ a b c, w = [a, b, c] ∧ b < 192 ∧ c < 192) := by
  rcases hw with hw | rfl
  · simp only [spaceRunes, List.mem_cons, List.mem_singleton, List.not_mem_nil, or_false] at hw
    rcases hw with h | h | h | h | h | h | h | h | h | h | h | h | h | h | h | h | h | h | h |
      h | h | h | h | h | h <;> subst h <;>
      first
      | exact Or.inl ⟨_, rfl, by decide⟩
      | exact Or.inr (Or.inl ⟨_, rfl, by decide⟩)
      | exact Or.inr (Or.inr ⟨_, _, _, rfl, by decide, by decide⟩)
  · exact Or.inl ⟨_, rfl, by decide⟩

theorem no_straddle (Z w a : GoString) (hw : w ∈ spaceRunes ∨ w = [44]) (hsuf : a <:+ Z ++ w)
    (ha : (∃ l, a = [l] ∧ 192 ≤ l) ∨ (∃ l c, a = [l, c] ∧ 192 ≤ l ∧ l ≠ 194 ∧ 128 ≤ c)) :
    False := by
  obtain ⟨u, hu⟩ := hsuf
  have hr := congrArg List.reverse hu
  simp only [List.reverse_append] at hr
  rcases spaceRunes_tail w hw with ⟨c, rfl, hc⟩ | ⟨x, rfl, hx⟩ | ⟨a', b, c, rfl, hb, hc⟩ <;>
    rcases ha with ⟨l, rfl, hl⟩ | ⟨l, c0, rfl, hl, hl2, hc0⟩ <;>
    simp only [List.reverse_cons, List.reverse_nil, List.nil_append, List.cons_append,
      List.singleton_append, List.cons.injEq] at hr <;>
    omega

theorem WhiteOnly_snoc (q : GoString) (hq : WhiteOnly q) :
    q = [] ∨ ∃ q' w, q = q' ++ w ∧ w ∈ spaceRunes :=
  WhiteOnly_snoc_induction (fun q => q = [] ∨ ∃ q' w, q = q' ++ w ∧ w ∈ spaceRunes)
    (Or.inl rfl) (fun q w _ hw _ => Or.inr ⟨q, w, rfl, hw⟩) q hq

theorem token_last_context (U p o : GoString) (hp : WhiteOnly p) (h : noWhite o = true)
    (hne : o ≠ []) : ¬ isSpace (DecodeLastRune (U ++ 44 :: (p ++ o))).1 = true := by
  intro hs
  obtain ⟨w, hw, hsuf⟩ := DecodeLastRune_space_suffix _ hs
  have e : U ++ 44 :: (p ++ o) = (U ++ 44 :: p) ++ o := by simp
  rw [e] at hsuf
  obtain ⟨v, hv⟩ := hsuf
  rcases List.append_eq_append_iff.mp hv with ⟨a, h1, h2⟩ | ⟨c, h1, h2⟩
  · -- the rune starts inside what stands before the token
    by_cases ha : a = []
    · subst ha
      rw [List.nil_append] at h2
      subst h2
      exact noWhite_infix w h w hw (List.infix_refl _)
    · have hsp := space_split w a o hw h2 ha hne
      have hsa : a <:+ U ++ 44 :: p := ⟨v, h1.symm⟩
      rcases WhiteOnly_snoc p hp with rfl | ⟨p', w', rfl, hw'⟩
      · exact no_straddle U [44] a (Or.inr rfl) hsa hsp
      · have e2 : U ++ 44 :: (p' ++ w') = (U ++ 44 :: p') ++ w' := by simp
        rw [e2] at hsa
        exact no_straddle _ w' a (Or.inl hw') hsa hsp
  · -- the rune lies inside the token
    exact noWhite_infix o h w hw ⟨c, [], by simpa using h2.symm⟩

theorem TrimSpace_token (p o q : GoString) (hp : WhiteOnly p) (hq : WhiteOnly q)
    (ho : optionToken o) : TrimSpace (p ++ o ++ q) = o := by
  rw [List.append_assoc]
  exact TrimSpace_core p o q hp hq ho.1 (token_first o q ho.2.1 ho.1 (WhiteOnly_head q hq))
    (token_last o ho.2.1)

/-! ## Padded options -/

theorem Split_comma_cons (a b : GoString) (h : 44 ∉ a) :
    Split (a ++ 44 :: b) (ascii ",") = a :: Split b (ascii ",") := by
  have e : ascii "," = [44] := rfl
  rw [e]
  unfold Split
  rw [splitAux_single 44 a b h _ (by omega)]
  congr 1
  apply splitAux_fuel [44] (by simp)
  · simp only [List.length_append, List.length_cons]
    omega
  · omega

theorem Split_comma_none (a : GoString) (h : 44 ∉ a) : Split a (ascii ",") = [a] :=
  Split_single_none 44 a h

theorem parseOption_congr (o : options) (a b : GoString) (h : TrimSpace a = TrimSpace b) :
    parseOption o a = parseOption o b := by
  simp only [parseOption, h]

theorem parseOptionsLoop_congr (o : options) (xs ys : List GoString)
    (h : xs.map TrimSpace = ys.map TrimSpace) :
    parseOptionsLoop o xs = parseOptionsLoop o ys := by
  induction xs generalizing o ys with
  | nil =>
    cases ys with
    | nil => rfl
    | cons b t => simp at h
  | cons a s ih =>
    cases ys with
    | nil => simp at h
    | cons b t =>
      simp only [List.map_cons, List.cons.injEq] at h
      simp only [parseOptionsLoop, parseOption_congr o a b h.1]
      rcases parseOption o b with e | o1
      · rfl
      · exact ih o1 t h.2

theorem head_white_append (q y : GoString) (hq : WhiteOnly q)
    (hy : ∀ d, y.head? = some d → d < 128 ∨ 192 ≤ d) :
    ∀ d, (q ++ y).head? = some d → d < 128 ∨ 192 ≤ d := by
  cases hq with
  | nil => exact hy
  | @cons w rest hw hrest =>
    obtain ⟨c, t, rfl, hc⟩ := spaceRunes_first w hw
    intro d hd
    simp only [List.cons_append, List.head?_cons, Option.some.injEq] at hd
    rw [← hd]
    exact hc

theorem padded_shape (ts : List (GoString × GoString × GoString)) (hne : ts ≠ [])
    (h : ∀ t ∈ ts, WhiteOnly t.1 ∧ optionToken t.2.1 ∧ WhiteOnly t.2.2) :
    ∃ p X q, WhiteOnly p ∧ WhiteOnly q ∧
      Join (ts.map (fun t => t.1 ++ t.2.1 ++ t.2.2)) (ascii ",") = p ++ (X ++ q) ∧ X ≠ [] ∧
      (∀ y, (∀ d, y.head? = some d → d < 128 ∨ 192 ≤ d) →
        ¬ isSpace (DecodeRune (X ++ y)).1 = true) ∧
      ¬ isSpace (DecodeLastRune X).1 = true ∧
      (∀ U p', WhiteOnly p' → ¬ isSpace (DecodeLastRune (U ++ 44 :: (p' ++ X))).1 = true) ∧
      (∀ p', WhiteOnly p' →
        (Split (p' ++ X) (ascii ",")).map TrimSpace = ts.map (fun t => t.2.1)) ∧
      59 ∉ Join (ts.map (fun t => t.1 ++ t.2.1 ++ t.2.2)) (ascii ",") := by
  induction ts with
  | nil => exact absurd rfl hne
  | cons t rest ih =>
    obtain ⟨hp, ho, hq⟩ := h t (by simp)
    obtain ⟨p, o, q⟩ := t
    simp only at hp ho hq
    have hp59 := (WhiteOnly_no_delim p hp).1
    have hq59 := (WhiteOnly_no_delim q hq).1
    have hq44 := (WhiteOnly_no_delim q hq).2
    rcases rest with _ | ⟨t2, rest⟩
    · refine ⟨p, o, q, hp, hq, by simp [Join], ho.1, ?_, token_last o ho.2.1, ?_, ?_, ?_⟩
      · intro y hy
        exact token_first o y ho.2.1 ho.1 hy
      · intro U p' hp'
        exact token_last_context U p' o hp' ho.2.1 ho.1
      · intro p' hp'
        have h44 : 44 ∉ p' ++ o := by
          simp only [List.mem_append, not_or]
          exact ⟨(WhiteOnly_no_delim p' hp').2, ho.2.2.1⟩
        rw [Split_comma_none _ h44]
        have := TrimSpace_token p' o [] hp' WhiteOnly.nil ho
        rw [List.append_nil] at this
        simp [this]
      · simp only [List.map_cons, List.map_nil, Join, List.mem_append, not_or]
        exact ⟨⟨hp59, ho.2.2.2⟩, hq59⟩
    · obtain ⟨p2, X2, q2, hp2, hq2, hJ, hX2, hF, hB1, hB2, hS, h59⟩ :=
        ih (by simp) (fun u hu => h u (by simp [hu]))
      have eJ : Join ((t2 :: rest).map (fun t => t.1 ++ t.2.1 ++ t.2.2)) (ascii ",")
          = p2 ++ (X2 ++ q2) := hJ
      have eJ2 : Join (((p, o, q) :: t2 :: rest).map (fun t => t.1 ++ t.2.1 ++ t.2.2)) (ascii ",")
          = (p ++ o ++ q) ++ ascii "," ++
            Join ((t2 :: rest).map (fun t => t.1 ++ t.2.1 ++ t.2.2)) (ascii ",") := rfl
      refine ⟨p, o ++ q ++ 44 :: (p2 ++ X2), q2, hp, hq2, ?_, by simp [ho.1], ?_, ?_, ?_, ?_, ?_⟩
      · rw [eJ2, eJ]
        simp [ascii]
      · intro y hy
        have e : o ++ q ++ 44 :: (p2 ++ X2) ++ y = o ++ (q ++ (44 :: (p2 ++ X2) ++ y)) := by simp
        rw [e]
        apply token_first o _ ho.2.1 ho.1
        apply head_white_append q _ hq
        intro d hd
        simp only [List.cons_append, List.head?_cons, Option.some.injEq] at hd
        omega
      · exact hB2 (o ++ q) p2 hp2
      · intro U p' hp'
        have e : U ++ 44 :: (p' ++ (o ++ q ++ 44 :: (p2 ++ X2)))
            = (U ++ 44 :: (p' ++ (o ++ q))) ++ 44 :: (p2 ++ X2) := by simp
        rw [e]
        exact hB2 _ p2 hp2
      · intro p' hp'
        have e : p' ++ (o ++ q ++ 44 :: (p2 ++ X2)) = (p' ++ o ++ q) ++ 44 :: (p2 ++ X2) := by
          simp
        have h44 : 44 ∉ p' ++ o ++ q := by
          simp only [List.mem_append, not_or]
          exact ⟨⟨(WhiteOnly_no_delim p' hp').2, ho.2.2.1⟩, hq44⟩
        rw [e, Split_comma_cons _ _ h44]
        simp only [List.map_cons, TrimSpace_token p' o q hp' hq ho, hS p2 hp2]
      · rw [eJ2]
        simp only [List.mem_append, not_or]
        refine ⟨⟨⟨⟨hp59, ho.2.2.2⟩, hq59⟩, by decide⟩, h59⟩

theorem parseOptions_padded (w0 : GoString) (ts : List (GoString × GoString × GoString))
    (hw0 : WhiteOnly w0) (hne : ts ≠ [])
    (h : ∀ t ∈ ts, WhiteOnly t.1 ∧ optionToken t.2.1 ∧ WhiteOnly t.2.2) :
    parseOptions (w0 ++ Join (ts.map (fun t => t.1 ++ t.2.1 ++ t.2.2)) (ascii ","))
      = parseOptionsLoop ⟨[], []⟩ (ts.map (fun t => t.2.1)) := by
  obtain ⟨p, X, q, hp, hq, hJ, hX, hF, hB1, -, hS, -⟩ := padded_shape ts hne h
  have hT : TrimSpace (w0 ++ Join (ts.map (fun t => t.1 ++ t.2.1 ++ t.2.2)) (ascii ",")) = X := by
    rw [hJ, ← List.append_assoc]
    exact TrimSpace_core (w0 ++ p) X q (WhiteOnly_append _ _ hw0 hp) hq hX
      (hF q (WhiteOnly_head q hq)) hB1
  have hl : ¬ X.length = 0 := fun e => hX (List.length_eq_zero.mp e)
  simp only [parseOptions, hT, hl, if_false]
  apply parseOptionsLoop_congr
  have := hS [] WhiteOnly.nil
  rw [List.nil_append] at this
  rw [this, List.map_map]
  apply List.map_congr_left
  intro t ht
  have := TrimSpace_token [] t.2.1 [] WhiteOnly.nil WhiteOnly.nil (h t ht).2.1
  simpa using this.symm

theorem parseOptions_unpadded (w0 : GoString) (ts : List (GoString × GoString × GoString))
    (hw0 : WhiteOnly w0) (hne : ts ≠ [])
    (h : ∀ t ∈ ts, WhiteOnly t.1 ∧ optionToken t.2.1 ∧ WhiteOnly t.2.2) :
    parseOptions (w0 ++ Join (ts.map (fun t => t.2.1)) (ascii ","))
      = parseOptionsLoop ⟨[], []⟩ (ts.map (fun t => t.2.1)) := by
  have := parseOptions_padded w0 (ts.map (fun t => ([], t.2.1, []))) hw0 (by simpa using hne)
    (by
      intro t ht
      obtain ⟨u, hu, rfl⟩ := List.mem_map.mp ht
      exact ⟨WhiteOnly.nil, (h u hu).2.1, WhiteOnly.nil⟩)
  simpa [List.map_map, Function.comp_def] using this

theorem ParseString_second_segment (b x y : GoString) (hb : 59 ∈ b) :
    ParseString (b ++ 59 :: x) = ParseString (b ++ 59 :: y) := by
  obtain ⟨b1, b2, rfl, h1⟩ := List.eq_append_cons_of_mem hb
  by_cases h2 : 59 ∈ b2
  · obtain ⟨b3, b4, rfl, h3⟩ := List.eq_append_cons_of_mem h2
    have e : ∀ z, b1 ++ 59 :: (b3 ++ 59 :: b4) ++ 59 :: z
        = b1 ++ 59 :: (b3 ++ 59 :: (b4 ++ 59 :: z)) := by
      intro z
      simp
    rw [e x, e y, ParseString, ParseString, parseRange_third_segment b1 b3 _ h1 h3,
      parseRange_third_segment b1 b3 (b4 ++ 59 :: y) h1 h3]
  · have e : ∀ z, b1 ++ 59 :: b2 ++ 59 :: z = b1 ++ 59 :: (b2 ++ 59 :: z) := by
      intro z
      simp
    rw [e x, e y, ParseString, ParseString, parseRange_third_segment b1 b2 x h1 h2,
      parseRange_third_segment b1 b2 y h1 h2]

theorem ParseString_options_congr (b o o' : GoString) (ho : 59 ∉ o) (ho' : 59 ∉ o')
    (h : parseOptions o = parseOptions o') :
    ParseString (b ++ 59 :: (o ++ [59])) = ParseString (b ++ 59 :: (o' ++ [59])) := by
  by_cases hb : 59 ∈ b
  · exact ParseString_second_segment b _ _ hb
  · rw [ParseString, ParseString, parseRange_clause b _ hb, parseRange_clause b _ hb]
    rcases parseProperty b with e | p
    · rfl
    · dsimp only
      rcases decodeProperty p with e | r
      · rfl
      · simp only [parseTail_clause r o [] ho, parseTail_clause r o' [] ho', h]

theorem ParseString_padding_core (b w0 : GoString) (ts : List (GoString × GoString × GoString))
    (hw0 : WhiteOnly w0)
    (h : ∀ t ∈ ts, WhiteOnly t.1 ∧ optionToken t.2.1 ∧ WhiteOnly t.2.2) :
    ParseString (b ++ ascii ";" ++ w0 ++
        Join (ts.map (fun t => t.1 ++ t.2.1 ++ t.2.2)) (ascii ",") ++ ascii ";")
      = ParseString (b ++ ascii "; " ++ Join (ts.map (fun t => t.2.1)) (ascii ",") ++ ascii ";") := by
  have e1 : b ++ ascii ";" ++ w0 ++
      Join (ts.map (fun t => t.1 ++ t.2.1 ++ t.2.2)) (ascii ",") ++ ascii ";"
      = b ++ 59 :: ((w0 ++ Join (ts.map (fun t => t.1 ++ t.2.1 ++ t.2.2)) (ascii ",")) ++ [59]) := by
    simp [ascii]
  have e2 : b ++ ascii "; " ++ Join (ts.map (fun t => t.2.1)) (ascii ",") ++ ascii ";"
      = b ++ 59 :: (([32] ++ Join (ts.map (fun t => t.2.1)) (ascii ",")) ++ [59]) := by
    simp [ascii]
  have hs : WhiteOnly [32] := WhiteOnly_single [32] (by decide)
  rw [e1, e2]
  rcases ts with _ | ⟨t, rest⟩
  · apply ParseString_options_congr
    · simpa [Join] using (WhiteOnly_no_delim w0 hw0).1
    · simp [Join]
    · simp only [List.map_nil, Join, List.append_nil]
      rw [parseOptions_white w0 hw0, parseOptions_white [32] hs]
  · have hne : t :: rest ≠ [] := by simp
    obtain ⟨-, -, -, -, -, -, -, -, -, -, -, h59⟩ := padded_shape (t :: rest) hne h
    obtain ⟨-, -, -, -, -, -, -, -, -, -, -, h59'⟩ :=
      padded_shape ((t :: rest).map (fun t => ([], t.2.1, []))) (by simp) (by
        intro u hu
        obtain ⟨v, hv, rfl⟩ := List.mem_map.mp hu
        exact ⟨WhiteOnly.nil, (h v hv).2.1, WhiteOnly.nil⟩)
    have h59'' : 59 ∉ Join ((t :: rest).map (fun t => t.2.1)) (ascii ",") := by
      simpa [List.map_map, Function.comp_def] using h59'
    apply ParseString_options_congr
    · simp only [List.mem_append, not_or]
      exact ⟨(WhiteOnly_no_delim w0 hw0).1, h59⟩
    · simp only [List.mem_append, not_or]
      exact ⟨by decide, h59''⟩
    · rw [parseOptions_padded w0 _ hw0 hne h, parseOptions_unpadded [32] _ hs hne h]

/-! ## The words of a bounds clause -/

theorem head_space (y : GoString) (h : isSpace (DecodeRune y).1 = true) :
    ∀ d, y.head? = some d → d < 128 ∨ 192 ≤ d := by
  obtain ⟨w, hw, ⟨r, rfl⟩, -⟩ := DecodeRune_space y h
  obtain ⟨c, t, rfl, hc⟩ := spaceRunes_first w hw
  intro d hd
  simp only [List.cons_append, List.head?_cons, Option.some.injEq] at hd
  rw [← hd]
  exact hc

theorem scanWord_general (w0 k y : GoString) (hw0 : WhiteOnly w0) (hk : noWhite k = true)
    (hne : k ≠ []) (hy : y = [] ∨ isSpace (DecodeRune y).1 = true) (hfit : fitsScanner k y) :
    scanWord (w0 ++ (k ++ y)) = some (k, y.drop (DecodeRune y).2) := by
  obtain ⟨c, t, rfl⟩ := List.exists_cons_of_ne_nil hne
  have hy' : ∀ d, y.head? = some d → d < 128 ∨ 192 ≤ d := by
    rcases hy with rfl | hs
    · intro d hd
      cases hd
    · exact head_space y hs
  have hs1 : skipSpaces (w0 ++ (c :: t ++ y)).length (w0 ++ (c :: t ++ y)) = c :: t ++ y := by
    rw [skipSpaces_white w0 hw0, skipSpaces_token _ c t y hk hy']
  have hfs := findSpace_token (c :: t ++ y).length (c :: t) y 0 hk hy' (le_refl _)
  unfold fitsScanner at hfit
  rcases y with _ | ⟨d, u⟩
  · have h0 : findSpace ([] : GoString).length [] (0 + (c :: t).length) = none := rfl
    rw [h0] at hfs
    have hl : ¬ MaxScanTokenSize ≤ (c :: t ++ []).length := by
      simp only [List.append_nil]
      have : (DecodeRune []).2 = 0 := rfl
      rw [this] at hfit
      omega
    have hz : ¬ (c :: t ++ []).length = 0 := by simp
    simp only [scanWord, hs1, hfs, hz, hl, if_false]
    simp
  · have hs : isSpace (DecodeRune (d :: u)).1 = true := by
      rcases hy with h | h
      · cases h
      · exact h
    have h1 : findSpace (d :: u).length (d :: u) (0 + (c :: t).length)
        = some (0 + (c :: t).length, (DecodeRune (d :: u)).2) := by
      simp only [List.length_cons, findSpace, hs, if_true]
    rw [h1] at hfs
    have hle : 0 + (c :: t).length + (DecodeRune (d :: u)).2 ≤ MaxScanTokenSize := by
      have : (DecodeRune (d :: u)).2 ≤ max 1 (DecodeRune (d :: u)).2 := le_max_right _ _
      omega
    simp only [scanWord, hs1, hfs, hle, if_true]
    have e1 : 0 + (c :: t).length = (c :: t).length := by omega
    rw [e1, List.take_left, List.drop_append]

theorem WhiteOnly_cons_cases (s : GoString) (h : WhiteOnly s) (hne : s ≠ []) :
    ∃ w s', s = w ++ s' ∧ w ∈ spaceRunes ∧ WhiteOnly s' := by
  cases h with
  | nil => exact absurd rfl hne
  | @cons w rest hw hrest => exact ⟨w, rest, rfl, hw, hrest⟩

theorem Split_no_dots (T : GoString) (h : hasDotDot T = false) :
    Split T (ascii "..") = [T] := by
  have e : ascii ".." = [46, 46] := rfl
  rw [e]
  unfold Split
  exact splitAux_dots_none T h _ (by omega)

theorem parseProperty_clause (w0 k sep T t2 S E : GoString) (hw0 : WhiteOnly w0)
    (hk : noWhite k = true) (hkne : k ≠ []) (hsep : WhiteOnly sep) (hT : noWhite T = true)
    (hsepT : T ≠ [] → sep ≠ [])
    (ht2 : t2 = [] ∨ (T ≠ [] ∧ isSpace (DecodeRune t2).1 = true))
    (hfk : fitsScanner k (sep ++ T ++ t2)) (hfT : fitsScanner T t2)
    (hdots : (hasDotDot T = false ∧ S = T ∧ E = []) ∨
      (T = S ++ ascii ".." ++ E ∧ hasDotDot (S ++ [46]) = false ∧ hasDotDot E = false)) :
    parseProperty (w0 ++ k ++ sep ++ T ++ t2) = .ok ⟨k, S, E⟩ := by
  have e0 : w0 ++ k ++ sep ++ T ++ t2 = w0 ++ (k ++ (sep ++ T ++ t2)) := by simp
  rw [e0]
  by_cases hT0 : T = []
  · -- no bounds token
    subst hT0
    have ht : t2 = [] := by
      rcases ht2 with h | ⟨h, -⟩
      · exact h
      · exact absurd rfl h
    subst ht
    have hSE : S = [] ∧ E = [] := by
      rcases hdots with ⟨-, h1, h2⟩ | ⟨h1, -, -⟩
      · exact ⟨h1, h2⟩
      · have := congrArg List.length h1
        have h2 : (ascii "..").length = 2 := rfl
        simp only [List.length_append, List.length_nil, h2] at this
        omega
    obtain ⟨rfl, rfl⟩ := hSE
    simp only [List.append_nil] at hfk ⊢
    have hy : sep = [] ∨ isSpace (DecodeRune sep).1 = true := by
      by_cases hs : sep = []
      · exact Or.inl hs
      · obtain ⟨w, s', rfl, hw, -⟩ := WhiteOnly_cons_cases sep hsep hs
        exact Or.inr (decode_spaceRune w hw s').1
    have hrest : WhiteOnly (sep.drop (DecodeRune sep).2) := by
      by_cases hs : sep = []
      · subst hs
        exact WhiteOnly.nil
      · obtain ⟨w, s', rfl, hw, hs'⟩ := WhiteOnly_cons_cases sep hsep hs
        rw [(decode_spaceRune w hw s').2.1, List.drop_left]
        exact hs'
    simp only [parseProperty, scanWord_general w0 k sep hw0 hk hkne hy hfk,
      scanWord_white _ hrest]
  · -- a bounds token
    obtain ⟨w, s', rfl, hw, hs'⟩ := WhiteOnly_cons_cases sep hsep (hsepT hT0)
    have e1 : w ++ s' ++ T ++ t2 = w ++ (s' ++ (T ++ t2)) := by simp
    rw [e1] at hfk ⊢
    have hd := decode_spaceRune w hw (s' ++ (T ++ t2))
    have hy2 : t2 = [] ∨ isSpace (DecodeRune t2).1 = true := by
      rcases ht2 with h | ⟨-, h⟩
      · exact Or.inl h
      · exact Or.inr h
    have hsplit : Split T (ascii "..") = [S] ∧ E = [] ∨ Split T (ascii "..") = [S, E] := by
      rcases hdots with ⟨h1, h2, h3⟩ | ⟨h1, h2, h3⟩
      · left
        rw [h2]
        exact ⟨Split_no_dots T h1, h3⟩
      · right
        rw [h1]
        have := Split_dots_one S E h2 h3
        simpa [ascii] using this
    simp only [parseProperty, scanWord_general w0 k _ hw0 hk hkne (Or.inr hd.1) hfk, hd.2.1,
      List.drop_left, scanWord_general s' T t2 hs' hT hT0 hy2 hfT]
    rcases hsplit with ⟨h, rfl⟩ | h
    · rw [h]
      rfl
    · rw [h]
      rfl

theorem ParseString_decode_text_core (w0 k sep T t2 S E rest : GoString) (e : Error)
    (hw0 : WhiteOnly w0) (hk : noWhite k = true) (hkne : k ≠ []) (hsep : WhiteOnly sep)
    (hT : noWhite T = true) (hsepT : T ≠ [] → sep ≠ [])
    (ht2 : t2 = [] ∨ (T ≠ [] ∧ isSpace (DecodeRune t2).1 = true))
    (h59 : 59 ∉ k ++ T ++ t2)
    (hfk : fitsScanner k (sep ++ T ++ t2)) (hfT : fitsScanner T t2)
    (hdots : (hasDotDot T = false ∧ S = T ∧ E = []) ∨
      (T = S ++ ascii ".." ++ E ∧ hasDotDot (S ++ [46]) = false ∧ hasDotDot E = false))
    (hbad : QueryUnescape k = .error e ∨
      (∃ uk, QueryUnescape k = .ok uk ∧ QueryUnescape (startBody S) = .error e) ∨
      (∃ uk us, QueryUnescape k = .ok uk ∧ QueryUnescape (startBody S) = .ok us ∧
        QueryUnescape E = .error e)) :
    ParseString (w0 ++ k ++ sep ++ T ++ t2 ++ ascii ";" ++ rest) = .error e ∧
      (∃ u, e = .EscapeError u) ∧ e ≠ .InvalidFormat := by
  have hb : 59 ∉ w0 ++ k ++ sep ++ T ++ t2 := by
    simp only [List.mem_append, not_or] at h59 ⊢
    exact ⟨⟨⟨⟨(WhiteOnly_no_delim w0 hw0).1, h59.1.1⟩, (WhiteOnly_no_delim sep hsep).1⟩,
      h59.1.2⟩, h59.2⟩
  exact ParseString_decode_error_core _ rest ⟨k, S, E⟩ e hb
    (parseProperty_clause w0 k sep T t2 S E hw0 hk hkne hsep hT hsepT ht2 hfk hfT hdots) hbad

/-! # The claims -/

/-- C1 fails as stated.  An empty `Sort` comes back as `..`; a `Start` or `End`
holding `..` is rejected; a `Start` ending in `.` loses the dot to `End`;
`StartExclusive` with an empty `Start` is lost; a `Start` beginning with `~`
comes back exclusive without it; a negative `Limit` comes back as 0; a sort key
of 65536 bytes is rejected and a `Start` of 65536 bytes is dropped, the scanner
holding at most `MaxScanTokenSize` bytes. -/
theorem ParseString_String_counterexample :
    ParseString (Range.mk [] [] false [] 0 false).String
        = .ok ⟨ascii "..", [], false, [], 0, false⟩ ∧
      ParseString (Range.mk [] [] false [] 0 false).String ≠ .ok ⟨[], [], false, [], 0, false⟩ ∧
      ParseString (Range.mk (ascii "name") (ascii "a..b") false [] 0 false).String
        = .error .InvalidFormat ∧
      ParseString (Range.mk (ascii "name") [] false (ascii "a..b") 0 false).String
        = .error .InvalidFormat ∧
      ParseString (Range.mk (ascii "name") (ascii "a.") false [] 0 false).String
        = .ok ⟨ascii "name", ascii "a", false, ascii ".", 0, false⟩ ∧
      ParseString (Range.mk (ascii "name") [] true [] 0 false).String
        = .ok ⟨ascii "name", [], false, [], 0, false⟩ ∧
      ParseString (Range.mk (ascii "name") (ascii "~a") false [] 0 false).String
        = .ok ⟨ascii "name", ascii "a", true, [], 0, false⟩ ∧
      ParseString (Range.mk (ascii "name") [] false [] (-5) false).String
        = .ok ⟨ascii "name", [], false, [], 0, false⟩ ∧
      ParseString (Range.mk (List.replicate 65536 97) [] false [] 0 false).String
        = .error .InvalidFormat ∧
      ParseString (Range.mk (ascii "name") (List.replicate 65536 97) false [] 0 false).String
        = .ok ⟨ascii "name", [], false, [], 0, false⟩ :=
  ⟨by decide, by decide, by decide, by decide, by decide, by decide, by decide, by decide,
    ParseString_long_sort 65536 (le_refl _), ParseString_long_start 65536 (le_refl _)⟩

/-- C1, amended: for a descriptor of Go strings and a Go `int`, with a non-empty
`Sort`, `Limit >= 0`, no `..` in `Start` or `End`, `Start` not ending in `.`,
`StartExclusive` set only with a non-empty `Start`, `Start` not beginning with
`~` when `StartExclusive` is unset, and an escaped sort key and a bounds token
each shorter than `MaxScanTokenSize`, `ParseString (d.String)` succeeds and
returns `d`, equal in all six fields. -/
theorem ParseString_String (d : Range) (hs : IsBytes d.Sort') (hst : IsBytes d.Start)
    (he : IsBytes d.End) (hint : d.Limit < 2 ^ 63) (hne : d.Sort' ≠ [])
    (hl : 0 ≤ d.Limit)
    (hd : hasDotDot d.Start = false) (hdl : d.Start.getLast? ≠ some 46)
    (hde : hasDotDot d.End = false)
    (hx : d.StartExclusive = true → d.Start ≠ [])
    (ht : d.StartExclusive = false → d.Start.head? ≠ some 126)
    (hlen1 : (QueryEscape d.Sort').length < MaxScanTokenSize)
    (hlen2 : (boundsText d).length < MaxScanTokenSize) :
    ParseString d.String = .ok d :=
  ParseString_String_core d hs hst he hint hne
    ((hasDotDot_append_dot d.Start).trans (by simp [hd, hdl])) hde hx ht hl hlen1 hlen2

/-- C1 at `{Sort: "name", Start: "Tal Schwartz", StartExclusive: true, Limit:
200}`, whose encoding is `name ~Tal+Schwartz..; max=200;`. -/
theorem ParseString_String_witness :
    (Range.mk (ascii "name") (ascii "Tal Schwartz") true [] 200 false).String
        = ascii "name ~Tal+Schwartz..; max=200;" ∧
      ParseString (Range.mk (ascii "name") (ascii "Tal Schwartz") true [] 200 false).String
        = .ok ⟨ascii "name", ascii "Tal Schwartz", true, [], 200, false⟩ :=
  ⟨by decide,
    ParseString_String ⟨ascii "name", ascii "Tal Schwartz", true, [], 200, false⟩
      (by decide) (by decide) (by decide) (by decide) (by decide) (by decide) (by decide)
      (by decide) (by decide) (by decide) (by decide) (by decide) (by decide)⟩

/-- C2 fails as stated: the canonical string of the zero descriptor, ` ..;`,
decodes to the sort key `..` and re-encodes as `.. ..;`, so no range decoded
from it re-encodes to it; the canonical string `name a..b..;` of `{Sort:
"name", Start: "a..b"}` is rejected; the canonical string `name ~..;` of
`{Sort: "name", Start: "~"}` re-encodes as `name ..;`; the canonical string of
a sort key of 65536 bytes is rejected, and that of a `Start` of 65536 bytes
decodes to `{Sort: "name"}`, which re-encodes as `name ..;`. -/
theorem ParseString_canonical_counterexample :
    (Range.mk [] [] false [] 0 false).String = ascii " ..;" ∧
      ParseString (ascii " ..;") = .ok ⟨ascii "..", [], false, [], 0, false⟩ ∧
      (Range.mk (ascii "..") [] false [] 0 false).String = ascii ".. ..;" ∧
      (¬ ∃ r, ParseString (Range.mk [] [] false [] 0 false).String = .ok r ∧
        r.String = (Range.mk [] [] false [] 0 false).String) ∧
      (Range.mk (ascii "name") (ascii "a..b") false [] 0 false).String = ascii "name a..b..;" ∧
      ParseString (ascii "name a..b..;") = .error .InvalidFormat ∧
      (Range.mk (ascii "name") (ascii "~") false [] 0 false).String = ascii "name ~..;" ∧
      ParseString (ascii "name ~..;") = .ok ⟨ascii "name", [], true, [], 0, false⟩ ∧
      (Range.mk (ascii "name") [] true [] 0 false).String = ascii "name ..;" ∧
      ParseString (Range.mk (List.replicate 65536 97) [] false [] 0 false).String
        = .error .InvalidFormat ∧
      ParseString (Range.mk (ascii "name") (List.replicate 65536 97) false [] 0 false).String
        = .ok ⟨ascii "name", [], false, [], 0, false⟩ ∧
      (Range.mk (ascii "name") [] false [] 0 false).String = ascii "name ..;" := by
  refine ⟨by decide, by decide, by decide, ?_, by decide, by decide, by decide, by decide,
    by decide, ParseString_long_sort 65536 (le_refl _),
    ParseString_long_start 65536 (le_refl _), by decide⟩
  rintro ⟨r, h1, h2⟩
  have e : ParseString (Range.mk [] [] false [] 0 false).String
      = .ok ⟨ascii "..", [], false, [], 0, false⟩ := by decide
  rw [e] at h1
  cases h1
  revert h2
  decide

/-- C2, amended: for a descriptor of Go strings and a Go `int` with a non-empty
`Sort`, whose bounds token (the text `String` writes between the space and the
first `;`) splits at `..` into exactly two parts, the first of them not the
lone marker `~`, and whose escaped sort key and bounds token are each shorter
than `MaxScanTokenSize`, `ParseString` succeeds on `s = d.String` with a range
`r`, and `r.String = s`. -/
theorem ParseString_canonical (d : Range) (hs : IsBytes d.Sort') (hst : IsBytes d.Start)
    (he : IsBytes d.End) (hint : d.Limit < 2 ^ 63) (hne : d.Sort' ≠ [])
    (h2 : (Split (boundsText d) (ascii "..")).length = 2)
    (h1 : (Split (boundsText d) (ascii "..")).head? ≠ some (ascii "~"))
    (hlen1 : (QueryEscape d.Sort').length < MaxScanTokenSize)
    (hlen2 : (boundsText d).length < MaxScanTokenSize) :
    ∃ r, ParseString d.String = .ok r ∧ r.String = d.String :=
  ParseString_canonical_core d hs hst he hint hne h2 h1 hlen1 hlen2

/-- C2 at the descriptors behind the three strings of `TestRoundTrip`:
`name ..;`, `name ~Tal+Schwartz..; max=200;` and `name ..jack; max=20,order=desc;`. -/
theorem ParseString_canonical_witness :
    ((Range.mk (ascii "name") [] false [] 0 false).String = ascii "name ..;" ∧
      ∃ r, ParseString (Range.mk (ascii "name") [] false [] 0 false).String = .ok r ∧
        r.String = (Range.mk (ascii "name") [] false [] 0 false).String) ∧
    ((Range.mk (ascii "name") (ascii "Tal Schwartz") true [] 200 false).String
        = ascii "name ~Tal+Schwartz..; max=200;" ∧
      ∃ r, ParseString (Range.mk (ascii "name") (ascii "Tal Schwartz") true [] 200 false).String
          = .ok r ∧
        r.String = (Range.mk (ascii "name") (ascii "Tal Schwartz") true [] 200 false).String) ∧
    ((Range.mk (ascii "name") [] false (ascii "jack") 20 true).String
        = ascii "name ..jack; max=20,order=desc;" ∧
      ∃ r, ParseString (Range.mk (ascii "name") [] false (ascii "jack") 20 true).String = .ok r ∧
        r.String = (Range.mk (ascii "name") [] false (ascii "jack") 20 true).String) :=
  ⟨⟨by decide, ParseString_canonical ⟨ascii "name", [], false, [], 0, false⟩
      (by decide) (by decide) (by decide) (by decide) (by decide) (by decide) (by decide)
      (by decide) (by decide)⟩,
    ⟨by decide, ParseString_canonical ⟨ascii "name", ascii "Tal Schwartz", true, [], 200, false⟩
      (by decide) (by decide) (by decide) (by decide) (by decide) (by decide) (by decide)
      (by decide) (by decide)⟩,
    ⟨by decide, ParseString_canonical ⟨ascii "name", [], false, ascii "jack", 20, true⟩
      (by decide) (by decide) (by decide) (by decide) (by decide) (by decide) (by decide)
      (by decide) (by decide)⟩⟩

/-- C3: with `Limit <= 0`, `Desc` false and `StartExclusive` set only for a
non-empty `Start`, `String` is the escaped sort key, one space, `~` when
`StartExclusive`, the escaped `Start`, `..`, the escaped `End` and `;`; an
empty `Start` or `End` adds nothing, the space and `..` are always there. -/
theorem String_bounds_clause (d : Range) (hl : d.Limit ≤ 0) (hd : d.Desc = false)
    (hx : d.StartExclusive = true → d.Start ≠ []) :
    d.String = QueryEscape d.Sort' ++ ascii " " ++ (if d.StartExclusive then ascii "~" else [])
        ++ QueryEscape d.Start ++ ascii ".." ++ QueryEscape d.End ++ ascii ";" ∧
      QueryEscape [] = [] := by
  refine ⟨?_, rfl⟩
  unfold Range.String
  have hl' : ¬ d.Limit > 0 := by omega
  by_cases hs : d.Start = [] <;> by_cases he : d.End = [] <;>
    by_cases hxx : d.StartExclusive = true <;>
    simp_all [ascii, QueryEscape, List.length_pos]

/-- C3 at `Range{Sort: "name", End: "z"}`, which encodes to `name ..z;`, and at
`Range{Sort: "name"}`, which encodes to `name ..;`. -/
theorem String_bounds_clause_witness :
    (Range.mk (ascii "name") [] false (ascii "z") 0 false).String = ascii "name ..z;" ∧
      (Range.mk (ascii "name") [] false [] 0 false).String = ascii "name ..;" :=
  ⟨(String_bounds_clause ⟨ascii "name", [], false, ascii "z", 0, false⟩ (by decide) rfl
      (by decide)).1.trans (by decide), by decide⟩

/-- C4: `String` is the encoding of the same range with `Limit` 0 and `Desc`
false, followed by nothing when `Limit <= 0` and not `Desc`, by ` max=<Limit>;`
when only `Limit > 0`, by ` order=desc;` when only `Desc`, and by
` max=<Limit>,order=desc;` when both: `max` always comes before `order`, and a
negative `Limit` is treated as unspecified.  The three cases of
`TestRangeString` follow. -/
theorem String_options_clause (d : Range) :
    d.String =
        ({ d with Limit := 0, Desc := false } : Range).String ++
          (if d.Limit > 0 then
            (if d.Desc then ascii " max=" ++ Itoa d.Limit ++ ascii ",order=desc;"
             else ascii " max=" ++ Itoa d.Limit ++ ascii ";")
           else (if d.Desc then ascii " order=desc;" else [])) ∧
      (Range.mk (ascii "name") [] false [] 0 true).String = ascii "name ..; order=desc;" ∧
      (Range.mk (ascii "name") [] false [] 100 false).String = ascii "name ..; max=100;" ∧
      (Range.mk (ascii "name") [] false [] 5 true).String = ascii "name ..; max=5,order=desc;" ∧
      (Range.mk (ascii "name") [] false [] (-5) true).String = ascii "name ..; order=desc;" := by
  refine ⟨?_, by decide, by decide, by decide, by decide⟩
  unfold Range.String
  by_cases hl : d.Limit > 0 <;> by_cases hd : d.Desc = true <;>
    simp [hl, hd, Join, ascii]

/-- C5 fails as stated: with `StartExclusive` set and `Start` empty no `~` is
written (`name ..;`), and with `StartExclusive` unset and `Start = "~a"` the
byte after the space is `~` all the same (`name ~a..;`). -/
theorem String_marker_counterexample :
    (Range.mk (ascii "name") [] true [] 0 false).String = ascii "name ..;" ∧
      ¬ ((Range.mk (ascii "name") [] true [] 0 false).String.get?
            ((QueryEscape (ascii "name")).length + 1) = some 126 ↔
          (Range.mk (ascii "name") [] true [] 0 false).StartExclusive = true) ∧
      (Range.mk (ascii "name") (ascii "~a") false [] 0 false).String = ascii "name ~a..;" ∧
      ¬ ((Range.mk (ascii "name") (ascii "~a") false [] 0 false).String.get?
            ((QueryEscape (ascii "name")).length + 1) = some 126 ↔
          (Range.mk (ascii "name") (ascii "~a") false [] 0 false).StartExclusive = true) := by
  decide

/-- C5, amended: the byte right after the space that follows the escaped sort
key is `~` exactly when `Start` is not empty and either `StartExclusive` is set
or `Start` itself begins with `~`. -/
theorem String_marker (d : Range) :
    d.String.get? ((QueryEscape d.Sort').length + 1) = some 126 ↔
      d.Start ≠ [] ∧ (d.StartExclusive = true ∨ d.Start.head? = some 126) := by
  rw [String_eq]
  have e : QueryEscape d.Sort' ++ 32 :: (boundsText d ++ 59 :: optionsText d.Limit d.Desc)
      = (QueryEscape d.Sort' ++ [32]) ++ (boundsText d ++ 59 :: optionsText d.Limit d.Desc) := by
    simp
  have e2 : (QueryEscape d.Sort').length + 1 = (QueryEscape d.Sort' ++ [32]).length + 0 := by
    simp
  rw [e, e2, List.get?_eq_getElem?, List.getElem?_append_right (by omega)]
  simp only [add_tsub_cancel_left]
  rw [← List.head?_eq_getElem?]
  unfold boundsText
  by_cases hs : d.Start = []
  · simp [hs]
  · have hp : d.Start.length > 0 := List.length_pos.mpr hs
    have hq : QueryEscape d.Start ≠ [] := fun e => hs ((QueryEscape_eq_nil _).mp e)
    cases hx : d.StartExclusive with
    | true => simp [hp, hs]
    | false =>
      simp only [hp, if_true, Bool.false_eq_true, if_false, List.nil_append, List.append_assoc,
        ne_eq, hs, not_false_eq_true, false_or, true_and]
      rw [head_block _ _ hq]
      exact QueryEscape_head_tilde d.Start

/-- C6: `Next` keeps `Sort`, `End`, `Limit` and `Desc`, sets `Start` to the
cursor and `StartExclusive` to true, whatever `Start` and `StartExclusive`
were; it builds a new value.  So `Next` of `{Sort: "name", End: "z", Limit: 10}`
with `jordan` is `{Sort: "name", Start: "jordan", StartExclusive: true, End:
"z", Limit: 10}`. -/
theorem Next_derivation (d : Range) (c : GoString) :
    d.Next c = ⟨d.Sort', c, true, d.End, d.Limit, d.Desc⟩ ∧
      (Range.mk (ascii "name") [] false (ascii "z") 10 false).Next (ascii "jordan") =
        ⟨ascii "name", ascii "jordan", true, ascii "z", 10, false⟩ :=
  ⟨rfl, rfl⟩

/-- C7: an input without `;` (the empty string too), or whose text before the
first `;` is empty or white space only, gets `InvalidFormat` and no range. -/
theorem ParseString_unreadable (s : GoString)
    (h : 59 ∉ s ∨ ∃ b rest, s = b ++ 59 :: rest ∧ 59 ∉ b ∧ WhiteOnly b) :
    ParseString s = .error .InvalidFormat := by
  rcases h with h | ⟨b, rest, rfl, hb, hw⟩
  · simp only [ParseString, parseRange, readString_none 59 s h]
  · rw [ParseString, parseRange_clause b rest hb]
    simp only [parseProperty, scanWord_white b hw]

/-- C7 at the empty string, at `name` (no `;`) and at ` ;` followed by options. -/
theorem ParseString_unreadable_witness :
    ParseString [] = .error .InvalidFormat ∧
      ParseString (ascii "name") = .error .InvalidFormat ∧
      ParseString (ascii " ; max=5;") = .error .InvalidFormat :=
  ⟨ParseString_unreadable [] (Or.inl (by decide)),
    ParseString_unreadable (ascii "name") (Or.inl (by decide)),
    ParseString_unreadable (ascii " ; max=5;")
      (Or.inr ⟨[32], ascii " max=5;", rfl, by decide,
        WhiteOnly.cons (w := [32]) (by decide) WhiteOnly.nil⟩)⟩

/-- C8 on the code: the bounds clause `name a..b..c` is rejected, but with the
same second token grown to 65536 bytes (`a..b..c` followed by 65529 `x`), which
still splits at `..` into three parts, `ParseString` succeeds and drops the
bounds: the second `Scan` fails with `ErrTooLong` and `parseProperty` takes
that for the absence of a bounds token. -/
theorem ParseString_many_separators_too_long :
    ParseString (ascii "name a..b..c;") = .error .InvalidFormat ∧
      (Split (ascii "a..b..c" ++ List.replicate 65529 120) (ascii "..")).length = 3 ∧
      ParseString (ascii "name " ++ (ascii "a..b..c" ++ List.replicate 65529 120) ++ ascii ";")
        = .ok ⟨ascii "name", [], false, [], 0, false⟩ :=
  ⟨by decide, ParseString_long_bounds 65529 (by decide)⟩

/-- C9: when the bounds clause decodes and the second segment is not empty once
trimmed, an option token (between commas, trimmed) that does not hold exactly
one `=`, or whose key is neither `max` nor `order`, makes `ParseString` return
`InvalidFormat`. -/
theorem ParseString_bad_option (b o x : GoString) (hb : 59 ∉ b) (ho : 59 ∉ o) (p : property)
    (r : Range) (hp : parseProperty b = .ok p) (hr : decodeProperty p = .ok r)
    (hne : TrimSpace o ≠ [])
    (hbad : ∃ tok ∈ Split (TrimSpace o) (ascii ","),
      (TrimSpace tok).count 61 ≠ 1 ∨
        ((TrimSpace tok).takeWhile (fun c => decide (c ≠ 61)) ≠ ascii "max" ∧
          (TrimSpace tok).takeWhile (fun c => decide (c ≠ 61)) ≠ ascii "order")) :
    ParseString (b ++ 59 :: (o ++ 59 :: x)) = .error .InvalidFormat := by
  rw [ParseString_clauses b o x hb ho p r hp hr]
  obtain ⟨tok, hm, hb'⟩ := hbad
  have hl : (TrimSpace o).length ≠ 0 := fun e => hne (List.length_eq_zero.mp e)
  have : parseOptions o = .error .InvalidFormat := by
    simp only [parseOptions, hl, if_false]
    exact parseOptionsLoop_bad _ _ ⟨tok, hm, fun o' => parseOption_bad o' tok hb'⟩
  rw [this]

/-- C9 at `id; bogus=1;` (unknown key), at `id; max;` (no `=`) and at
`id; max=1=2;` (two `=`). -/
theorem ParseString_bad_option_witness :
    ParseString (ascii "id; bogus=1;") = .error .InvalidFormat ∧
      ParseString (ascii "id; max;") = .error .InvalidFormat ∧
      ParseString (ascii "id; max=5, max=1=2;") = .error .InvalidFormat :=
  ⟨ParseString_bad_option (ascii "id") (ascii " bogus=1") [] (by decide) (by decide)
      ⟨ascii "id", [], []⟩ ⟨ascii "id", [], false, [], 0, false⟩ (by decide) (by decide)
      (by decide) ⟨ascii "bogus=1", by decide, Or.inr (by decide)⟩,
    ParseString_bad_option (ascii "id") (ascii " max") [] (by decide) (by decide)
      ⟨ascii "id", [], []⟩ ⟨ascii "id", [], false, [], 0, false⟩ (by decide) (by decide)
      (by decide) ⟨ascii "max", by decide, Or.inl (by decide)⟩,
    ParseString_bad_option (ascii "id") (ascii " max=5, max=1=2") [] (by decide) (by decide)
      ⟨ascii "id", [], []⟩ ⟨ascii "id", [], false, [], 0, false⟩ (by decide) (by decide)
      (by decide) ⟨ascii " max=1=2", by decide, Or.inl (by decide)⟩⟩

/-- C10 fails as stated: `id; max=;` and `id; order=;` succeed although the empty
value is neither an integer nor `asc` or `desc`, and `id; max=abc,max=5;` and
`id; order=up,order=desc;` succeed although they hold `max=abc` and `order=up`,
the later option replacing the earlier one. -/
theorem ParseString_option_value_counterexample :
    Atoi [] = none ∧
      ParseString (ascii "id; max=;") = .ok ⟨ascii "id", [], false, [], 0, false⟩ ∧
      ParseString (ascii "id; order=;") = .ok ⟨ascii "id", [], false, [], 0, false⟩ ∧
      Atoi (ascii "abc") = none ∧
      ParseString (ascii "id; max=abc,max=5;") = .ok ⟨ascii "id", [], false, [], 5, false⟩ ∧
      ParseString (ascii "id; order=up,order=desc;")
        = .ok ⟨ascii "id", [], false, [], 0, true⟩ := by
  decide

/-- C10, amended: when the bounds clause decodes, and the last `max` option of
the options clause is `max=v` with `v` not empty and not a base-10 integer of
type `int`, or the last `order` option is `order=v` with `v` not empty and
neither `asc` nor `desc`, `ParseString` returns `InvalidFormat`. -/
theorem ParseString_option_value (b o x : GoString) (hb : 59 ∉ b) (ho : 59 ∉ o)
    (p : property) (r : Range) (hp : parseProperty b = .ok p) (hr : decodeProperty p = .ok r)
    (pre post : List GoString) (tok v : GoString)
    (htoks : Split (TrimSpace o) (ascii ",") = pre ++ tok :: post) (hv : v ≠ [])
    (hbad : (TrimSpace tok = ascii "max=" ++ v ∧ Atoi v = none ∧
          ∀ t ∈ post, ¬ ascii "max=" <+: TrimSpace t) ∨
        (TrimSpace tok = ascii "order=" ++ v ∧ v ≠ ascii "asc" ∧ v ≠ ascii "desc" ∧
          ∀ t ∈ post, ¬ ascii "order=" <+: TrimSpace t)) :
    ParseString (b ++ 59 :: (o ++ 59 :: x)) = .error .InvalidFormat := by
  rw [ParseString_clauses b o x hb ho p r hp hr]
  have hne : TrimSpace o ≠ [] := by
    intro e
    rw [e] at htoks
    have h1 : Split [] (ascii ",") = [[]] := rfl
    rw [h1] at htoks
    rcases pre with _ | ⟨a, pre'⟩
    · simp only [List.nil_append, List.cons.injEq] at htoks
      obtain ⟨rfl, -⟩ := htoks
      have h2 : TrimSpace [] = [] := rfl
      rcases hbad with ⟨h, -⟩ | ⟨h, -⟩ <;> rw [h2] at h <;> simp [ascii] at h
    · simp at htoks
  have hl : (TrimSpace o).length ≠ 0 := fun e => hne (List.length_eq_zero.mp e)
  rcases hq : parseOptions o with e | opts
  · simp only [parseOptions, hl, if_false] at hq
    rw [parseOptionsLoop_error _ _ e hq]
  · simp only [parseOptions, hl, if_false] at hq
    rw [htoks] at hq
    rcases hbad with ⟨ht, ha, hpost⟩ | ⟨ht, h1, h2, hpost⟩
    · have := parseOptionsLoop_last_max _ opts pre post tok v ht hpost hq
      exact applyOptions_bad_max r opts (by rw [this]; exact hv) (by rw [this]; exact ha)
    · have := parseOptionsLoop_last_order _ opts pre post tok v ht hpost hq
      exact applyOptions_bad_order r opts (by rw [this]; exact hv) (by rw [this]; exact h1)
        (by rw [this]; exact h2)

/-- C10 at `id; max=abc;`, at `id; max=5,order=up;` and at
`id; max=99999999999999999999;`, whose value is outside the range of `int`. -/
theorem ParseString_option_value_witness :
    ParseString (ascii "id; max=abc;") = .error .InvalidFormat ∧
      ParseString (ascii "id; max=5,order=up;") = .error .InvalidFormat ∧
      ParseString (ascii "id; max=99999999999999999999;") = .error .InvalidFormat :=
  ⟨ParseString_option_value (ascii "id") (ascii " max=abc") [] (by decide) (by decide)
      ⟨ascii "id", [], []⟩ ⟨ascii "id", [], false, [], 0, false⟩ (by decide) (by decide)
      [] [] (ascii "max=abc") (ascii "abc") (by decide) (by decide)
      (Or.inl ⟨by decide, by decide, by decide⟩),
    ParseString_option_value (ascii "id") (ascii " max=5,order=up") [] (by decide) (by decide)
      ⟨ascii "id", [], []⟩ ⟨ascii "id", [], false, [], 0, false⟩ (by decide) (by decide)
      [ascii "max=5"] [] (ascii "order=up") (ascii "up") (by decide) (by decide)
      (Or.inr ⟨by decide, by decide, by decide, by decide⟩),
    ParseString_option_value (ascii "id") (ascii " max=99999999999999999999") []
      (by decide) (by decide)
      ⟨ascii "id", [], []⟩ ⟨ascii "id", [], false, [], 0, false⟩ (by decide) (by decide)
      [] [] (ascii "max=99999999999999999999") (ascii "99999999999999999999") (by decide)
      (by decide) (Or.inl ⟨by decide, by decide, by decide⟩)⟩

/-- C11, as stated, fails: `id; max=-5;` is decoded with `Limit = -5`, since
`strconv.Atoi` accepts a sign. -/
theorem ParseString_Limit_counterexample :
    ParseString (ascii "id; max=-5;") = .ok ⟨ascii "id", [], false, [], -5, false⟩ ∧
      ¬ (∀ s r, ParseString s = .ok r → 0 ≤ r.Limit) := by
  have h : ParseString (ascii "id; max=-5;") = .ok ⟨ascii "id", [], false, [], -5, false⟩ := by
    decide
  refine ⟨h, fun hall => ?_⟩
  have := hall _ _ h
  exact absurd this (by decide)

/-- C11, amended: when `ParseString s` succeeds with `r`, either `r.Limit ≥ 0`,
or `s` is `b ++ ";" ++ o ++ ";" ++ x` with no `;` in `b` and `o`, and one of the
option tokens of `o` (the pieces of the trimmed `o` between commas) is, once
trimmed, `max=-` followed by a text `v`, where `strconv.Atoi` reads `-v` as
`r.Limit`. -/
theorem ParseString_Limit (s : GoString) (r : Range) (h : ParseString s = .ok r) :
    0 ≤ r.Limit ∨
      ∃ b o x tok v, s = b ++ ascii ";" ++ o ++ ascii ";" ++ x ∧ 59 ∉ b ∧ 59 ∉ o ∧
        tok ∈ Split (TrimSpace o) (ascii ",") ∧ TrimSpace tok = ascii "max=-" ++ v ∧
        Atoi (45 :: v) = some r.Limit :=
  ParseString_Limit_core s r h

/-- C11, amended, at `id; max=20;` (limit 20, the first case). -/
theorem ParseString_Limit_witness :
    ParseString (ascii "id; max=20;") = .ok ⟨ascii "id", [], false, [], 20, false⟩ ∧
    ((0 : Int) ≤ 20 ∨
      ∃ b o x tok v, ascii "id; max=20;" = b ++ ascii ";" ++ o ++ ascii ";" ++ x ∧ 59 ∉ b ∧
        59 ∉ o ∧ tok ∈ Split (TrimSpace o) (ascii ",") ∧ TrimSpace tok = ascii "max=-" ++ v ∧
        Atoi (45 :: v) = some 20) :=
  ⟨by decide,
    ParseString_Limit (ascii "id; max=20;") ⟨ascii "id", [], false, [], 20, false⟩ (by decide)⟩

/-- C12, as stated, fails on tokens the scanner cannot hold: with a bounds
token `%zz` followed by 65536 letters `a` and `..`, whose start spec is not
valid percent-encoding, `ParseString` succeeds and leaves the bounds out; with
such a sort token it returns `InvalidFormat`. -/
theorem ParseString_decode_error_counterexample :
    ParseString (ascii "name %zz" ++ List.replicate 65536 97 ++ ascii "..;")
        = .ok ⟨ascii "name", [], false, [], 0, false⟩ ∧
      ParseString (ascii "%zz" ++ List.replicate 65536 97 ++ ascii " a..b;")
        = .error .InvalidFormat :=
  ⟨ParseString_long_bad_start 65536 (le_refl _), ParseString_long_bad_sort 65536 (le_refl _)⟩

/-- C12, amended: let the input be `w0 ++ k ++ sep ++ T ++ t2 ++ ";" ++ rest`,
where the bounds clause `w0 ++ k ++ sep ++ T ++ t2` holds no `;` and is made of
white space `w0` (possibly none), the sort token `k` (not empty, without white
space), white space `sep`, the bounds token `T` (without white space; absent
when `T` is empty, and then nothing follows `sep`), and further text `t2` that
is empty or starts with white space.  The bounds token holds no `..`, and then
the start spec `S` is `T` and the end spec `E` is empty, or it is
`S ++ ".." ++ E` with no `..` in `S ++ "."` and none in `E`.  Each token fits
the scanner: the token and the white-space rune that ends it take at most 65536
bytes, a token that ends the clause fewer than 65536.  If `k` is not valid
percent-encoding, or it is and `S` after an optional leading `~` is not, or
both are and `E` is not, with `e` the error of `url.QueryUnescape` on it, then
`ParseString` returns the error `e`, which is a `url.EscapeError` and not
`InvalidFormat`. -/
theorem ParseString_decode_error (w0 k sep T t2 S E rest : GoString) (e : Error)
    (hw0 : WhiteOnly w0) (hk : noWhite k = true) (hkne : k ≠ []) (hsep : WhiteOnly sep)
    (hT : noWhite T = true) (hsepT : T ≠ [] → sep ≠ [])
    (ht2 : t2 = [] ∨ (T ≠ [] ∧ isSpace (DecodeRune t2).1 = true))
    (h59 : 59 ∉ k ++ T ++ t2)
    (hfk : fitsScanner k (sep ++ T ++ t2)) (hfT : fitsScanner T t2)
    (hdots : (hasDotDot T = false ∧ S = T ∧ E = []) ∨
      (T = S ++ ascii ".." ++ E ∧ hasDotDot (S ++ [46]) = false ∧ hasDotDot E = false))
    (hbad : QueryUnescape k = .error e ∨
      (∃ uk, QueryUnescape k = .ok uk ∧ QueryUnescape (startBody S) = .error e) ∨
      (∃ uk us, QueryUnescape k = .ok uk ∧ QueryUnescape (startBody S) = .ok us ∧
        QueryUnescape E = .error e)) :
    ParseString (w0 ++ k ++ sep ++ T ++ t2 ++ ascii ";" ++ rest) = .error e ∧
      (∃ u, e = .EscapeError u) ∧ e ≠ .InvalidFormat :=
  ParseString_decode_text_core w0 k sep T t2 S E rest e hw0 hk hkne hsep hT hsepT ht2 h59 hfk
    hfT hdots hbad

/-- C12, amended, at `na%zzme a..b; max=5;` (sort token); at the clause made of
two spaces, `name`, a space and a tab, `~a%zz..b`, a space and `junk` (start
spec after `~`); at `name a..b%;` (end spec with a trailing `%`); and at
`na%zzme;` (no bounds token). -/
theorem ParseString_decode_error_witness :
    ([] ++ ascii "na%zzme" ++ ascii " " ++ ascii "a..b" ++ [] ++ ascii ";" ++ ascii " max=5;"
        = ascii "na%zzme a..b; max=5;") ∧
    (ParseString ([] ++ ascii "na%zzme" ++ ascii " " ++ ascii "a..b" ++ [] ++ ascii ";"
          ++ ascii " max=5;") = .error (.EscapeError (ascii "%zz")) ∧
      (∃ u, Error.EscapeError (ascii "%zz") = .EscapeError u) ∧
      Error.EscapeError (ascii "%zz") ≠ .InvalidFormat) ∧
    (ParseString (ascii "  " ++ ascii "name" ++ [32, 9] ++ ascii "~a%zz..b" ++ ascii " junk"
          ++ ascii ";" ++ []) = .error (.EscapeError (ascii "%zz")) ∧
      (∃ u, Error.EscapeError (ascii "%zz") = .EscapeError u) ∧
      Error.EscapeError (ascii "%zz") ≠ .InvalidFormat) ∧
    (ParseString ([] ++ ascii "name" ++ ascii " " ++ ascii "a..b%" ++ [] ++ ascii ";" ++ [])
        = .error (.EscapeError (ascii "%")) ∧
      (∃ u, Error.EscapeError (ascii "%") = .EscapeError u) ∧
      Error.EscapeError (ascii "%") ≠ .InvalidFormat) ∧
    (ParseString ([] ++ ascii "na%zzme" ++ [] ++ [] ++ [] ++ ascii ";" ++ [])
        = .error (.EscapeError (ascii "%zz")) ∧
      (∃ u, Error.EscapeError (ascii "%zz") = .EscapeError u) ∧
      Error.EscapeError (ascii "%zz") ≠ .InvalidFormat) :=
  ⟨by decide,
    ParseString_decode_error [] (ascii "na%zzme") (ascii " ") (ascii "a..b") [] (ascii "a")
      (ascii "b") (ascii " max=5;") (.EscapeError (ascii "%zz")) WhiteOnly.nil (by decide)
      (by decide) (WhiteOnly.cons (w := [32]) (by decide) WhiteOnly.nil) (by decide)
      (by decide) (Or.inl rfl) (by decide) (by decide) (by decide)
      (Or.inr ⟨by decide, by decide, by decide⟩) (Or.inl (by decide)),
    ParseString_decode_error (ascii "  ") (ascii "name") [32, 9] (ascii "~a%zz..b")
      (ascii " junk") (ascii "~a%zz") (ascii "b") [] (.EscapeError (ascii "%zz"))
      (WhiteOnly.cons (w := [32]) (by decide)
        (WhiteOnly.cons (w := [32]) (by decide) WhiteOnly.nil))
      (by decide) (by decide)
      (WhiteOnly.cons (w := [32]) (by decide)
        (WhiteOnly.cons (w := [9]) (by decide) WhiteOnly.nil))
      (by decide) (by decide) (Or.inr ⟨by decide, by decide⟩) (by decide) (by decide)
      (by decide) (Or.inr ⟨by decide, by decide, by decide⟩)
      (Or.inr (Or.inl ⟨ascii "name", by decide, by decide⟩)),
    ParseString_decode_error [] (ascii "name") (ascii " ") (ascii "a..b%") [] (ascii "a")
      (ascii "b%") [] (.EscapeError (ascii "%")) WhiteOnly.nil (by decide) (by decide)
      (WhiteOnly.cons (w := [32]) (by decide) WhiteOnly.nil) (by decide) (by decide)
      (Or.inl rfl) (by decide) (by decide) (by decide)
      (Or.inr ⟨by decide, by decide, by decide⟩)
      (Or.inr (Or.inr ⟨ascii "name", ascii "a", by decide, by decide, by decide⟩)),
    ParseString_decode_error [] (ascii "na%zzme") [] [] [] [] [] []
      (.EscapeError (ascii "%zz")) WhiteOnly.nil (by decide) (by decide) WhiteOnly.nil
      (by decide) (by decide) (Or.inl rfl) (by decide) (by decide) (by decide)
      (Or.inl ⟨by decide, rfl, rfl⟩) (Or.inl (by decide))⟩

/-- C13: for a bounds clause `b` without `;` and a string `w` that is empty or
white space only, `ParseString (b ++ ";")` and `ParseString (b ++ ";" ++ w ++
";")` return the same result, and a range they return has `Limit = 0` and
`Desc = false`. -/
theorem ParseString_no_options (b w : GoString) (hb : 59 ∉ b) (hw : WhiteOnly w) :
    ParseString (b ++ ascii ";") = ParseString (b ++ ascii ";" ++ w ++ ascii ";") ∧
      ∀ r, ParseString (b ++ ascii ";") = .ok r → r.Limit = 0 ∧ r.Desc = false := by
  have e : ascii ";" = [59] := rfl
  have h1 : ParseString (b ++ ascii ";") = parseRange (b ++ 59 :: []) := by
    simp [ParseString, e]
  have h2 : ParseString (b ++ ascii ";" ++ w ++ ascii ";")
      = parseRange (b ++ 59 :: (w ++ 59 :: [])) := by
    simp [ParseString, e]
  rw [h1, h2, parseRange_clause b _ hb, parseRange_clause b _ hb]
  rcases parseProperty b with e | p
  · exact ⟨rfl, fun r h => by cases h⟩
  · dsimp only
    rcases hq : decodeProperty p with e | r
    · simp only [hq]
      exact ⟨trivial, fun r h => by cases h⟩
    · simp only [hq, parseTail_clause r w [] (WhiteOnly_no_delim w hw).1, parseOptions_white w hw,
        applyOptions_none, parseTail_unterminated r [] (by simp)]
      refine ⟨trivial, fun r' h => ?_⟩
      cases h
      exact decodeProperty_defaults p r hq

/-- C13 at `name a..b;` against `name a..b;;` and `name a..b; ;` with a space, a
tab and a no-break space (bytes 194 160) as `w`. -/
theorem ParseString_no_options_witness :
    (ParseString (ascii "name a..b" ++ ascii ";")
        = ParseString (ascii "name a..b" ++ ascii ";" ++ [] ++ ascii ";") ∧
      ∀ r, ParseString (ascii "name a..b" ++ ascii ";") = .ok r → r.Limit = 0 ∧ r.Desc = false) ∧
    (ParseString (ascii "name a..b" ++ ascii ";")
        = ParseString (ascii "name a..b" ++ ascii ";" ++ [32, 9, 194, 160] ++ ascii ";") ∧
      ∀ r, ParseString (ascii "name a..b" ++ ascii ";") = .ok r → r.Limit = 0 ∧ r.Desc = false) ∧
    ParseString (ascii "name a..b;") = .ok ⟨ascii "name", ascii "a", false, ascii "b", 0, false⟩ :=
  ⟨ParseString_no_options (ascii "name a..b") [] (by decide) WhiteOnly.nil,
    ParseString_no_options (ascii "name a..b") [32, 9, 194, 160] (by decide)
      (WhiteOnly.cons (w := [32]) (by decide)
        (WhiteOnly.cons (w := [9]) (by decide)
          (WhiteOnly.cons (w := [194, 160]) (by decide) WhiteOnly.nil))),
    by decide⟩

/-- C14: for every `b` and every list of option tokens (non-empty texts without
white space, `,` and `;`), each given with the white space `p` put before it
and the white space `q` put after it (any white-space runes, possibly none),
`ParseString` returns on the padded header
`b ++ "; " ++ p1 ++ o1 ++ q1 ++ "," ++ ... ++ pn ++ on ++ qn ++ ";"` what it
returns on the unpadded header `b ++ "; " ++ o1 ++ "," ++ ... ++ on ++ ";"`. -/
theorem ParseString_padding (b : GoString) (ts : List (GoString × GoString × GoString))
    (h : ∀ t ∈ ts, WhiteOnly t.1 ∧ optionToken t.2.1 ∧ WhiteOnly t.2.2) :
    ParseString (b ++ ascii "; " ++
        Join (ts.map (fun t => t.1 ++ t.2.1 ++ t.2.2)) (ascii ",") ++ ascii ";")
      = ParseString (b ++ ascii "; " ++ Join (ts.map (fun t => t.2.1)) (ascii ",") ++ ascii ";") := by
  have := ParseString_padding_core b [32] ts (WhiteOnly_single [32] (by decide)) h
  have e : b ++ ascii ";" ++ [32] = b ++ ascii "; " := by simp [ascii]
  rw [e] at this
  exact this

/-- C14 at `id; max=5, order=asc;` against `id; max=5,order=asc;`, which both
decode to `{Sort: "id", Limit: 5}`, and at the same options padded with a tab,
a no-break space (bytes 194 160) and spaces. -/
theorem ParseString_padding_witness :
    (ascii "id" ++ ascii "; " ++
        Join ([(([] : GoString), ascii "max=5", ([] : GoString)),
          ([32], ascii "order=asc", [])].map (fun t => t.1 ++ t.2.1 ++ t.2.2)) (ascii ",")
        ++ ascii ";" = ascii "id; max=5, order=asc;") ∧
    ParseString (ascii "id; max=5, order=asc;") = .ok ⟨ascii "id", [], false, [], 5, false⟩ ∧
    ParseString (ascii "id; max=5,order=asc;") = .ok ⟨ascii "id", [], false, [], 5, false⟩ ∧
    ParseString (ascii "id" ++ ascii "; " ++
        Join ([(([] : GoString), ascii "max=5", ([] : GoString)),
          ([32], ascii "order=asc", [])].map (fun t => t.1 ++ t.2.1 ++ t.2.2)) (ascii ",")
        ++ ascii ";")
      = ParseString (ascii "id" ++ ascii "; " ++
        Join ([(([] : GoString), ascii "max=5", ([] : GoString)),
          ([32], ascii "order=asc", [])].map (fun t => t.2.1)) (ascii ",") ++ ascii ";") ∧
    ParseString (ascii "id" ++ ascii "; " ++
        Join ([(([9] : GoString), ascii "max=5", ([194, 160] : GoString)),
          ([32], ascii "order=asc", [32])].map (fun t => t.1 ++ t.2.1 ++ t.2.2)) (ascii ",")
        ++ ascii ";")
      = ParseString (ascii "id" ++ ascii "; " ++
        Join ([(([9] : GoString), ascii "max=5", ([194, 160] : GoString)),
          ([32], ascii "order=asc", [32])].map (fun t => t.2.1)) (ascii ",") ++ ascii ";") :=
  ⟨by decide, by decide, by decide,
    ParseString_padding (ascii "id") [([], ascii "max=5", []), ([32], ascii "order=asc", [])]
      (List.forall_mem_cons.mpr ⟨⟨WhiteOnly.nil, by decide, WhiteOnly.nil⟩,
        List.forall_mem_cons.mpr ⟨⟨WhiteOnly_single [32] (by decide), by decide, WhiteOnly.nil⟩,
          fun _ hx => absurd hx (List.not_mem_nil _)⟩⟩),
    ParseString_padding (ascii "id")
      [([9], ascii "max=5", [194, 160]), ([32], ascii "order=asc", [32])]
      (List.forall_mem_cons.mpr ⟨⟨WhiteOnly_single [9] (by decide), by decide,
          WhiteOnly_single [194, 160] (by decide)⟩,
        List.forall_mem_cons.mpr ⟨⟨WhiteOnly_single [32] (by decide), by decide,
            WhiteOnly_single [32] (by decide)⟩,
          fun _ hx => absurd hx (List.not_mem_nil _)⟩⟩)⟩

/-- C15, as stated, fails in three ways.  With an empty `k` the bounds token is
read as the sort token: ` a..b;` gives `Sort = "a..b"`.  With `S` ending in
`.` the split at `..` comes one byte early: `name a...b;` (`S = "a."`,
`E = "b"`) gives `Start = "a"` and `End = ".b"`.  A token of 65536 bytes does
not fit the scanner: as `k` it makes `ParseString` fail, as `S` it is dropped. -/
theorem ParseString_start_spec_counterexample :
    ParseString ([] ++ ascii " " ++ ascii "a" ++ ascii ".." ++ ascii "b" ++ ascii ";")
        = .ok ⟨ascii "a..b", [], false, [], 0, false⟩ ∧
      (noWhite (ascii "a.") = true ∧ hasDotDot (ascii "a.") = false ∧
        QueryUnescape (ascii "a.") = .ok (ascii "a.")) ∧
      ParseString (ascii "name" ++ ascii " " ++ ascii "a." ++ ascii ".." ++ ascii "b" ++ ascii ";")
        = .ok ⟨ascii "name", ascii "a", false, ascii ".b", 0, false⟩ ∧
      ParseString (List.replicate 65536 97 ++ ascii " " ++ ascii "a" ++ ascii ".." ++ ascii "b"
        ++ ascii ";") = .error .InvalidFormat ∧
      ParseString (ascii "name" ++ ascii " " ++ List.replicate 65536 97 ++ ascii ".." ++ ascii "b"
        ++ ascii ";") = .ok ⟨ascii "name", [], false, [], 0, false⟩ :=
  ⟨by decide, by decide, by decide, ParseString_long_first 65536 (le_refl _),
    ParseString_long_second 65536 (le_refl _)⟩

/-- C15, amended: for every input `k ++ " " ++ S ++ ".." ++ E ++ ";"` where `k`
is not empty, `k`, `S` and `E` contain no white space, no `;` and no `..`, `S`
does not end in `.`, `k` and the bounds token `S ++ ".." ++ E` are each shorter
than 65536 bytes (`bufio.MaxScanTokenSize`), and `k`, `S`, `E` are validly
percent-encoded with decodings `uk`, `us`, `ue`, `ParseString` succeeds with
`Sort = uk`, `End = ue`, `Limit = 0`, `Desc = false`, and: if `S` begins with
`~` then `StartExclusive = true` and `Start` is `us` without its first byte,
which is the decoding of `S` without its first byte; otherwise
`StartExclusive = false` and `Start = us` (empty for an empty `S`). -/
theorem ParseString_start_spec (k S E uk us ue : GoString) (hk : noWhite k = true)
    (hS : noWhite S = true) (hE : noWhite E = true) (hk59 : 59 ∉ k) (hS59 : 59 ∉ S)
    (hE59 : 59 ∉ E) (_hkd : hasDotDot k = false) (hSd : hasDotDot S = false)
    (hEd : hasDotDot E = false) (hku : QueryUnescape k = .ok uk)
    (hSu : QueryUnescape S = .ok us) (hEu : QueryUnescape E = .ok ue) (hne : k ≠ [])
    (hSl : S.getLast? ≠ some 46) (hlen1 : k.length < 65536)
    (hlen2 : (S ++ ascii ".." ++ E).length < 65536) :
    ParseString (k ++ ascii " " ++ S ++ ascii ".." ++ E ++ ascii ";")
        = .ok ⟨uk, if S.head? = some 126 then us.tail else us, decide (S.head? = some 126), ue, 0,
          false⟩ ∧
      (S.head? = some 126 → QueryUnescape S.tail = .ok us.tail) ∧
      (S = [] → us = []) := by
  refine ⟨ParseString_bounds_core k S E uk us ue hk hS hE hk59 hS59 hE59 hSd hEd hku hSu hEu hne
    hSl hlen1 hlen2, ?_, ?_⟩
  · intro h
    rcases S with _ | ⟨c, t⟩
    · cases h
    · simp only [List.head?_cons, Option.some.injEq] at h
      subst h
      exact (QueryUnescape_tilde t us hSu).1
  · intro h
    subst h
    cases hSu
    rfl

/-- C15, amended, at `name ~meredith..;` (`k = "name"`, `S = "~meredith"`, `E`
empty), with the header `name ~meredith..; max=10;` of the claim, and at
`na%6De Gary+Schwartz..z;`. -/
theorem ParseString_start_spec_witness :
    ParseString (ascii "name ~meredith..; max=10;")
        = .ok ⟨ascii "name", ascii "meredith", true, [], 10, false⟩ ∧
    (ParseString (ascii "name" ++ ascii " " ++ ascii "~meredith" ++ ascii ".." ++ [] ++ ascii ";")
        = .ok ⟨ascii "name", if (ascii "~meredith").head? = some 126
            then (ascii "~meredith").tail else ascii "~meredith",
          decide ((ascii "~meredith").head? = some 126), [], 0, false⟩ ∧
      ((ascii "~meredith").head? = some 126 →
        QueryUnescape (ascii "~meredith").tail = .ok (ascii "~meredith").tail) ∧
      (ascii "~meredith" = [] → ascii "~meredith" = [])) ∧
    ParseString (ascii "na%6De" ++ ascii " " ++ ascii "Gary+Schwartz" ++ ascii ".." ++ ascii "z"
        ++ ascii ";")
      = .ok ⟨ascii "name", ascii "Gary Schwartz", false, ascii "z", 0, false⟩ :=
  ⟨by decide,
    ParseString_start_spec (ascii "name") (ascii "~meredith") [] (ascii "name")
      (ascii "~meredith") [] (by decide) (by decide) (by decide) (by decide) (by decide)
      (by decide) (by decide) (by decide) (by decide) (by decide) (by decide) (by decide)
      (by decide) (by decide) (by decide) (by decide),
    by decide⟩

/-- C16, as stated, fails for a sort token the scanner cannot hold: for `k`
made of 65536 letters `a`, `ParseString (k ++ ";")` returns `InvalidFormat`.
The letters are ASCII letters: the letter `é` (bytes 195 169) is accepted as a
sort token, and encoding `{Sort: "é"}` yields `%C3%A9 ..;`. -/
theorem ParseString_sort_only_counterexample :
    (∀ c ∈ List.replicate 65536 97, keyByte c = true) ∧ List.replicate 65536 97 ≠ [] ∧
      ParseString (List.replicate 65536 97 ++ ascii ";") = .error .InvalidFormat ∧
      ParseString ([195, 169] ++ ascii ";") = .ok ⟨[195, 169], [], false, [], 0, false⟩ ∧
      (Range.mk [195, 169] [] false [] 0 false).String = ascii "%C3%A9 ..;" :=
  ⟨(replicate_a_key 65536).1, (replicate_a_key 65536).2 (by decide),
    ParseString_long_key 65536 (le_refl _), by decide, by decide⟩

/-- C16, amended: for every non-empty sort token `k` of ASCII letters, digits,
`-` and `_`, shorter than 65536 bytes (`bufio.MaxScanTokenSize`),
`ParseString (k ++ ";")` succeeds with `{Sort: k}` and every other field at its
zero value, `ParseString (k ++ " ..;")` returns the same descriptor, and
encoding that descriptor gives `k ++ " ..;"`. -/
theorem ParseString_sort_only (k : GoString) (hk : ∀ c ∈ k, keyByte c = true)
    (hne : k ≠ []) (hlen : k.length < 65536) :
    ParseString (k ++ ascii ";") = .ok ⟨k, [], false, [], 0, false⟩ ∧
      ParseString (k ++ ascii " ..;") = .ok ⟨k, [], false, [], 0, false⟩ ∧
      (Range.mk k [] false [] 0 false).String = k ++ ascii " ..;" :=
  ⟨(ParseString_sort_only_core k hk hne hlen).1, (ParseString_sort_only_core k hk hne hlen).2,
    String_sort_only k hk⟩

/-- C16, amended, at `k = "name"`: `name;` decodes to `{Sort: "name"}`, as
`name ..;` does, and re-encodes to `name ..;`. -/
theorem ParseString_sort_only_witness :
    ParseString (ascii "name" ++ ascii ";") = .ok ⟨ascii "name", [], false, [], 0, false⟩ ∧
      ParseString (ascii "name" ++ ascii " ..;") = .ok ⟨ascii "name", [], false, [], 0, false⟩ ∧
      (Range.mk (ascii "name") [] false [] 0 false).String = ascii "name" ++ ascii " ..;" :=
  ParseString_sort_only (ascii "name") (by decide) (by decide) (by decide)

/-- C17: for every descriptor `d` with `Desc = false`, whatever its other
fields, the text `order=asc` occurs nowhere in `d.String()`; and on decode,
after a bounds clause `b` that `parseProperty` and the percent-decoding accept
as the range `r`, the options clause ` order=asc` is accepted: the result is
`r`, with `Desc = false`. -/
theorem String_never_asc (d : Range) (b : GoString) (p : property) (r : Range)
    (hd : d.Desc = false) (hb : 59 ∉ b) (hp : parseProperty b = .ok p)
    (hq : decodeProperty p = .ok r) :
    ¬ (ascii "order=asc" <:+: d.String) ∧
      ParseString (b ++ ascii "; order=asc;") = .ok r ∧ r.Desc = false := by
  refine ⟨fun h => ?_, ParseString_asc_core b p r hb hp hq⟩
  have h1 := hasREq_of_infix d.String h
  rw [String_no_REq d hd] at h1
  cases h1

/-- C17 at the descriptor whose `Sort`, `Start` and `End` are the text
`order=asc`, with `Limit = 5`, which is written
`order%3Dasc order%3Dasc..order%3Dasc; max=5;`, and at the header
`id; order=asc;`. -/
theorem String_never_asc_witness :
    (Range.mk (ascii "order=asc") (ascii "order=asc") false (ascii "order=asc") 5 false).String
        = ascii "order%3Dasc order%3Dasc..order%3Dasc; max=5;" ∧
    (¬ (ascii "order=asc" <:+:
        (Range.mk (ascii "order=asc") (ascii "order=asc") false (ascii "order=asc") 5
          false).String) ∧
      ParseString (ascii "id" ++ ascii "; order=asc;")
        = .ok ⟨ascii "id", [], false, [], 0, false⟩ ∧
      (Range.mk (ascii "id") [] false [] 0 false).Desc = false) :=
  ⟨by decide,
    String_never_asc ⟨ascii "order=asc", ascii "order=asc", false, ascii "order=asc", 5, false⟩
      (ascii "id") ⟨ascii "id", [], []⟩ ⟨ascii "id", [], false, [], 0, false⟩ rfl (by decide)
      (by decide) (by decide)⟩

/-- C18, as stated, fails for values the scanner cannot hold: a `Sort` of 65536
letters `a` is written unchanged and `ParseString` rejects the result, and a
`Start` of 65536 letters `a` is lost. -/
theorem ParseString_String_letters_counterexample :
    (∀ c ∈ List.replicate 65536 97, letterOrSpace c = true) ∧
      ParseString (Range.mk (List.replicate 65536 97) [] false [] 0 false).String
        = .error .InvalidFormat ∧
      ParseString (Range.mk (ascii "name") (List.replicate 65536 97) false [] 0 false).String
        = .ok ⟨ascii "name", [], false, [], 0, false⟩ :=
  ⟨(replicate_a_no_dot 65536).2.2, ParseString_long_sort 65536 (le_refl _),
    ParseString_long_start 65536 (le_refl _)⟩

/-- C18, amended: for every descriptor `d` (its `Limit` a Go `int`) whose
`Sort` (non-empty), `Start` and `End` consist only of ASCII letters and spaces,
and whose escaped sort key and bounds token are each shorter than 65536 bytes
(`bufio.MaxScanTokenSize`), `d.String()` writes the sort key, a space, the
marker `~` if `Start` is non-empty and exclusive, `Start`, `..`, `End`, `;` and
the options, each value with every space replaced by `+` and the letters
unchanged; and `ParseString (d.String())` succeeds with the original `Sort`,
`Start` and `End`. -/
theorem ParseString_String_spaces (d : Range) (hso : ∀ c ∈ d.Sort', letterOrSpace c = true)
    (hst : ∀ c ∈ d.Start, letterOrSpace c = true) (hen : ∀ c ∈ d.End, letterOrSpace c = true)
    (hne : d.Sort' ≠ []) (hint : d.Limit < 2 ^ 63)
    (hlen1 : (QueryEscape d.Sort').length < 65536)
    (hlen2 : (boundsText d).length < 65536) :
    d.String = plusForSpace d.Sort' ++ ascii " " ++
        (if d.Start ≠ [] ∧ d.StartExclusive = true then ascii "~" else []) ++
        plusForSpace d.Start ++ ascii ".." ++ plusForSpace d.End ++ ascii ";" ++
        optionsText d.Limit d.Desc ∧
      ∃ r, ParseString d.String = .ok r ∧ r.Sort' = d.Sort' ∧ r.Start = d.Start ∧
        r.End = d.End :=
  ⟨String_letters d hso hst hen,
    ⟨_, ParseString_String_letters d hso hst hen hne hint hlen1 hlen2, rfl, rfl, rfl⟩⟩

/-- C18, amended, at `{Sort: "name", Start: "Gary Schwartz"}`, which is written
`name Gary+Schwartz..;` and decoded back with `Start = "Gary Schwartz"`. -/
theorem ParseString_String_spaces_witness :
    ParseString (ascii "name Gary+Schwartz..;")
        = .ok ⟨ascii "name", ascii "Gary Schwartz", false, [], 0, false⟩ ∧
    plusForSpace (ascii "Gary Schwartz") = ascii "Gary+Schwartz" ∧
    ((Range.mk (ascii "name") (ascii "Gary Schwartz") false [] 0 false).String
        = plusForSpace (ascii "name") ++ ascii " " ++
          (if ascii "Gary Schwartz" ≠ [] ∧ false = true then ascii "~" else []) ++
          plusForSpace (ascii "Gary Schwartz") ++ ascii ".." ++ plusForSpace [] ++ ascii ";" ++
          optionsText 0 false ∧
      ∃ r, ParseString (Range.mk (ascii "name") (ascii "Gary Schwartz") false [] 0 false).String
          = .ok r ∧ r.Sort' = ascii "name" ∧ r.Start = ascii "Gary Schwartz" ∧ r.End = []) :=
  ⟨by decide, by decide,
    ParseString_String_spaces ⟨ascii "name", ascii "Gary Schwartz", false, [], 0, false⟩
      (by decide) (by decide) (by decide) (by decide) (by decide) (by decide) (by decide)⟩

/-- C19, as stated, fails for values the scanner cannot hold: the descriptor
whose `Sort` is 65536 letters `a` meets every condition of the claim and its
encoding is rejected; the descriptor `{Sort: "name"}` with a `Start` of 65536
letters `a` meets them too and comes back without its `Start`. -/
theorem ParseString_String_restricted_counterexample :
    46 ∉ List.replicate 65536 97 ∧ (List.replicate 65536 97).head? ≠ some 126 ∧
      ParseString (Range.mk (List.replicate 65536 97) [] false [] 0 false).String
        = .error .InvalidFormat ∧
      ParseString (Range.mk (ascii "name") (List.replicate 65536 97) false [] 0 false).String
        = .ok ⟨ascii "name", [], false, [], 0, false⟩ :=
  ⟨(replicate_a_no_dot 65536).1, (replicate_a_no_dot 65536).2.1,
    ParseString_long_sort 65536 (le_refl _), ParseString_long_start 65536 (le_refl _)⟩

/-- C19, amended: for every descriptor `d` of Go strings and a Go `int`, with
a non-empty `Sort`, `Limit >= 0`, no `.` in `Start` and `End`, `StartExclusive`
set only with a non-empty `Start`, `Start` not beginning with `~` when
`StartExclusive` is unset, and an escaped sort key and a bounds token each
shorter than 65536 bytes (`bufio.MaxScanTokenSize`), `ParseString (d.String())`
succeeds and returns `d`, equal in all six fields. -/
theorem ParseString_String_restricted (d : Range) (hs : IsBytes d.Sort')
    (hst : IsBytes d.Start) (he : IsBytes d.End) (hint : d.Limit < 2 ^ 63)
    (hne : d.Sort' ≠ []) (hl : 0 ≤ d.Limit) (hds : 46 ∉ d.Start) (hde : 46 ∉ d.End)
    (hx : d.StartExclusive = true → d.Start ≠ [])
    (ht : d.StartExclusive = false → d.Start.head? ≠ some 126)
    (hlen1 : (QueryEscape d.Sort').length < 65536)
    (hlen2 : (boundsText d).length < 65536) :
    ParseString d.String = .ok d :=
  ParseString_String_no_dot d hs hst he hint hne hl hds hde hx ht hlen1 hlen2

/-- C19, amended, at `{Sort: "name", End: "jack", Limit: 20, Desc: true}`,
whose encoding is `name ..jack; max=20,order=desc;`. -/
theorem ParseString_String_restricted_witness :
    (Range.mk (ascii "name") [] false (ascii "jack") 20 true).String
        = ascii "name ..jack; max=20,order=desc;" ∧
      ParseString (Range.mk (ascii "name") [] false (ascii "jack") 20 true).String
        = .ok ⟨ascii "name", [], false, ascii "jack", 20, true⟩ :=
  ⟨by decide,
    ParseString_String_restricted ⟨ascii "name", [], false, ascii "jack", 20, true⟩
      (by decide) (by decide) (by decide) (by decide) (by decide) (by decide) (by decide)
      (by decide) (by decide) (by decide) (by decide) (by decide)⟩

/-- C20: only the first two `;`-terminated segments are examined.  For `b` and
`t` without `;`, `ParseString (b ++ ";" ++ t)` is `ParseString (b ++ ";")`: an
options clause without its `;` is ignored.  For `b` and `o` without `;` and any
`x`, `ParseString (b ++ ";" ++ o ++ ";" ++ x)` is
`ParseString (b ++ ";" ++ o ++ ";")`. -/
theorem ParseString_two_segments (b t o x : GoString) (hb : 59 ∉ b) (ht : 59 ∉ t)
    (ho : 59 ∉ o) :
    ParseString (b ++ ascii ";" ++ t) = ParseString (b ++ ascii ";") ∧
      ParseString (b ++ ascii ";" ++ o ++ ascii ";" ++ x)
        = ParseString (b ++ ascii ";" ++ o ++ ascii ";") := by
  have e : ascii ";" = [59] := rfl
  constructor
  · have := parseRange_unterminated b t hb ht
    simpa [ParseString, e] using this
  · have := parseRange_third_segment b o x hb ho
    simpa [ParseString, e] using this

/-- C20 at `id; bogus=1` and `id; max=abc`, which succeed with `{Sort: "id"}`
as `id;` does, and at `id; max=5; bogus`, which decodes as `id; max=5;`. -/
theorem ParseString_two_segments_witness :
    (ParseString (ascii "id; bogus=1") = ParseString (ascii "id;") ∧
      ParseString (ascii "id; max=5; bogus") = ParseString (ascii "id; max=5;")) ∧
    ParseString (ascii "id; bogus=1") = .ok ⟨ascii "id", [], false, [], 0, false⟩ ∧
    ParseString (ascii "id; max=abc") = .ok ⟨ascii "id", [], false, [], 0, false⟩ ∧
    ParseString (ascii "id; max=5; bogus") = .ok ⟨ascii "id", [], false, [], 5, false⟩ :=
  ⟨ParseString_two_segments (ascii "id") (ascii " bogus=1") (ascii " max=5") (ascii " bogus")
      (by decide) (by decide) (by decide),
    by decide, by decide, by decide⟩

end Orange
